import Mathlib

/-!
Verification of the Bestdominion engine core against its specification.

The C++ sources modelled here are the two self-contained engine variants
(`src/unnamed/part_008`, namespace GameEngine, and the second engine inside
`src/unnamed/part_007`) together with the free function `aStarSearch` of
`src/unnamed/part_007` and the orchestrator of `src/gameplay_stitched.cpp`.

Modelling conventions:
* machine integers are `Int` (coordinates, grid sizes) or `Nat` (costs);
* the float costs `g`, `h`, `f` of the A* nodes only ever hold small
  integers (step counts and Manhattan distances), so they are modelled as
  `Nat`; the initial value `FLT_MAX` is modelled by the huge constant
  `INF`, far above every reachable cost, mirroring the semantics of the
  float comparisons in the source;
* `std::priority_queue` is modelled by its underlying vector together
  with the sift-up of `push_heap` and the swap-root-with-last plus
  sift-down of `pop_heap` as implemented by LLVM libc++, the standard
  library of the emscripten toolchain used by `build.sh`;
* `std::vector` is `List`, indexed with `getD`; all indexing in the
  sources happens after explicit bounds checks.
-/

set_option maxHeartbeats 1000000
set_option linter.unusedVariables false

namespace Spec2Proof

/-- A grid coordinate pair `(x, y)` as used by the engine sources. -/
abbrev Cell := Int × Int

/-- Manhattan distance between two cells, the heuristic of every search
variant in the sources (`abs(x1-x2) + abs(y1-y2)`). -/
def manhattan (a b : Cell) : ℕ := (a.1 - b.1).natAbs + (a.2 - b.2).natAbs

/-- Two cells are 4-adjacent when their Manhattan distance is exactly 1. -/
def Adj (a b : Cell) : Prop := manhattan a b = 1

instance (a b : Cell) : Decidable (Adj a b) := by unfold Adj; infer_instance

/-- The cell is inside a `W × H` box: `0 ≤ x < W` and `0 ≤ y < H`. -/
def inBox (W H : Int) (c : Cell) : Prop := 0 ≤ c.1 ∧ c.1 < W ∧ 0 ≤ c.2 ∧ c.2 < H

instance (W H : Int) (c : Cell) : Decidable (inBox W H c) := by
  unfold inBox; infer_instance

/-- The four neighbour cells, in the order used by the searches of the
sources is irrelevant here; this list is only spec-side. -/
def nbrs (c : Cell) : List Cell :=
  [(c.1, c.2 - 1), (c.1, c.2 + 1), (c.1 - 1, c.2), (c.1 + 1, c.2)]

/-- A sequence of steps is valid from `c` when each step moves to a
4-adjacent cell that satisfies the openness predicate.  The very first
cell `c` itself is deliberately not required to be open: none of the
search variants in the sources ever tests the start cell. -/
def ValidSteps (isOpen : Cell → Bool) : Cell → List Cell → Prop
  | _, [] => True
  | c, d :: rest => Adj c d ∧ isOpen d = true ∧ ValidSteps isOpen d rest

instance (isOpen : Cell → Bool) (c : Cell) (p : List Cell) :
    Decidable (ValidSteps isOpen c p) := by
  induction p generalizing c with
  | nil => exact isTrue trivial
  | cons d rest ih => exact @instDecidableAnd _ _ _ (@instDecidableAnd _ _ _ (ih d))

/-- The cell where a walk ends: the last step, or the start for the empty
walk. -/
def lastCell (s : Cell) (p : List Cell) : Cell := p.getLastD s

/-- There is a valid walk of exactly `n` steps from `s` to `t`. -/
def Reach (isOpen : Cell → Bool) (s t : Cell) (n : ℕ) : Prop :=
  ∃ p, ValidSteps isOpen s p ∧ p.length = n ∧ lastCell s p = t

/-- `d` is the length of a shortest valid walk from `s` to `t`. -/
def MinReach (isOpen : Cell → Bool) (s t : Cell) (d : ℕ) : Prop :=
  Reach isOpen s t d ∧ ∀ k, k < d → ¬ Reach isOpen s t k

/-! ### Reference breadth-first search

The specification asks that path lengths agree with a brute-force
breadth-first search.  `bfsLevels isOpen s n` is the set of cells (kept as
a duplicate-free list) reachable from `s` in at most `n` steps; `bfsDist`
reports the first level that contains the target. -/

/-- One BFS round: add every open neighbour of the current level set that
is not yet present. -/
def bfsStep (isOpen : Cell → Bool) (S : List Cell) : List Cell :=
  (S.flatMap nbrs).foldl
    (fun acc c => if isOpen c = true ∧ c ∉ acc then acc ++ [c] else acc) S

/-- Level sets of the reference BFS. -/
def bfsLevels (isOpen : Cell → Bool) (s : Cell) : ℕ → List Cell
  | 0 => [s]
  | n + 1 => bfsStep isOpen (bfsLevels isOpen s n)

/-- Scan levels `n, n+1, ...` for the target, with explicit fuel. -/
def bfsFirst (isOpen : Cell → Bool) (s t : Cell) : ℕ → ℕ → Option ℕ
  | 0, _ => none
  | fuel + 1, n =>
    if t ∈ bfsLevels isOpen s n then some n else bfsFirst isOpen s t fuel (n + 1)

/-- The reference breadth-first-search distance from `s` to `t`: the
number of steps of a shortest walk, or `none` when `t` is unreachable.
`area` is an upper bound for the number of cells of the grid. -/
def bfsDist (isOpen : Cell → Bool) (area : ℕ) (s t : Cell) : Option ℕ :=
  bfsFirst isOpen s t (area + 1) 0

/-! ### The binary heap underlying std::priority_queue
The engine sources keep their open sets in `std::priority_queue` with a
greater-on-f comparator, i.e. a binary min-heap on `f` over the
underlying `std::vector`.  The build toolchain (`build.sh`, emscripten)
links LLVM libc++, whose `push_heap` sifts the appended element up while
its parent compares greater, and whose `pop_heap` swaps the root with the
last element, shrinks, and sifts the new root down, descending towards
the child on which the comparator reports the other child greater (ties
keep the left child) and stopping as soon as the chosen child compares
greater than the sinking element. -/
section Heap

variable {α : Type} (key : α → ℕ) (d : α)

/-- Swap the entries at positions `i` and `j` (both in range at every use
site). -/
def hSwap (l : List α) (i j : ℕ) : List α :=
  (l.set i (l.getD j d)).set j (l.getD i d)

/-- Sift-up loop of libc++ push_heap, with a structural step counter:
move the element at `i` towards the root while its parent has a strictly
greater key.  The index strictly decreases, so a counter starting at `i`
never runs out (`siftUpF_congr` below). -/
def siftUpF : ℕ → List α → ℕ → List α
  | 0, l, _ => l
  | fuel + 1, l, i =>
    if i = 0 then l
    else
      if key (l.getD ((i - 1) / 2) d) > key (l.getD i d) then
        siftUpF fuel (hSwap d l ((i - 1) / 2) i) ((i - 1) / 2)
      else l

/-- Sift-up loop of libc++ push_heap. -/
def siftUp (l : List α) (i : ℕ) : List α := siftUpF key d i l i

/-- push of std::priority_queue: append, then sift the new element up. -/
def heapPush (l : List α) (v : α) : List α := siftUp key d (l ++ [v]) l.length

/-- The child position the sift-down loop of libc++ descends to: the
right child when it exists and the left child has the strictly greater
key, the left child otherwise. -/
def hChild (l : List α) (i : ℕ) : ℕ :=
  if 2 * i + 2 < l.length ∧ key (l.getD (2 * i + 1) d) > key (l.getD (2 * i + 2) d)
  then 2 * i + 2 else 2 * i + 1

/-- Sift-down loop of libc++ pop_heap, with a structural step counter:
starting from the root, swap the sinking element with the preferred
child until that child has a strictly greater key (or there is no
child).  The index strictly increases below the fixed length, so a
counter starting at the length never runs out (`siftDownF_congr`). -/
def siftDownF : ℕ → List α → ℕ → List α
  | 0, l, _ => l
  | fuel + 1, l, i =>
    if 2 * i + 1 < l.length then
      if key (l.getD (hChild key d l i) d) > key (l.getD i d) then l
      else siftDownF fuel (hSwap d l i (hChild key d l i)) (hChild key d l i)
    else l

/-- Sift-down loop of libc++ pop_heap. -/
def siftDown (l : List α) (i : ℕ) : List α := siftDownF key d l.length l i

/-- pop of std::priority_queue via libc++ pop_heap: swap root and last
element, drop the old root, and sift the moved element down from the
root. -/
def heapPop (l : List α) : List α :=
  if l.length ≤ 1 then []
  else siftDown key d (l.getLastD d :: l.tail.dropLast) 0

/-- The binary-heap ordering on the underlying vector: every non-root
entry has a parent with a key at most its own. -/
def IsHeap (l : List α) : Prop :=
  ∀ i, 0 < i → i < l.length → key (l.getD ((i - 1) / 2) d) ≤ key (l.getD i d)

/-- Heap ordering everywhere except that the entry at `i` may still be
smaller than its parent; additionally the grandparent of `i` already
dominates the children of `i`. -/
def UpOK (l : List α) (i : ℕ) : Prop :=
  (∀ j, 0 < j → j < l.length → j ≠ i →
    key (l.getD ((j - 1) / 2) d) ≤ key (l.getD j d)) ∧
  (0 < i → ∀ j, j < l.length → (j - 1) / 2 = i →
    key (l.getD ((i - 1) / 2) d) ≤ key (l.getD j d))

/-- Heap ordering everywhere except on the edges from `i` to its
children; the parent of `i` already dominates the children of `i`. -/
def DownOK (l : List α) (i : ℕ) : Prop :=
  (∀ j, 0 < j → j < l.length → (j - 1) / 2 ≠ i →
    key (l.getD ((j - 1) / 2) d) ≤ key (l.getD j d)) ∧
  (0 < i → ∀ j, j < l.length → (j - 1) / 2 = i →
    key (l.getD ((i - 1) / 2) d) ≤ key (l.getD j d))

end Heap

/-! ### The A* path search of the unit modules

Two close variants appear in the sources:
* `GameEngine::UnitModule::computePath` in `src/unnamed/part_008`
  (lines 138-200): relaxes a neighbour when `gNew < allNodes[ny][nx].g`
  and tests the goal right after popping, before the closed check;
* `UnitModule::computePath` in `src/unnamed/part_007` (lines 615-680):
  relaxes a neighbour when `fNew < nodes[ny][nx].f` and tests the goal
  after popping, after the closed check and after closing the cell.
Both walk the same four directions in the same order, store per-cell
nodes in a height-times-width array, and reconstruct the path by parent
links from the goal back to the start, excluding the start. -/

/-- Sentinel modelling FLT_MAX.  Every cost the search can store is far
below it: g values stay below the grid area plus two and h values are
Manhattan distances inside the grid. -/
def INF : ℕ := 2 ^ 127

/-- One A* node as stored in the per-cell array and in the open set,
mirroring the C++ `Node` struct (`f` is set to `g + h` on construction
and never recomputed). -/
structure PNode where
  x : Int
  y : Int
  g : ℕ
  h : ℕ
  f : ℕ
  parentX : Int
  parentY : Int
deriving DecidableEq, Repr, Inhabited

/-- The default-constructed `Node` of part_008: coordinates zero, costs
FLT_MAX (so `f` is FLT_MAX + FLT_MAX), parent sentinel (-1, -1). -/
def PNode.dflt : PNode := ⟨0, 0, INF, INF, INF + INF, -1, -1⟩

/-- The parameterised `Node` constructor of both variants: `f = g + h`. -/
def mkNode (x y : Int) (g h : ℕ) (px py : Int) : PNode :=
  ⟨x, y, g, h, g + h, px, py⟩

/-- The priority of a node in the open set: the comparator of both
variants orders by `f` alone. -/
def nodeKey (n : PNode) : ℕ := n.f

/-- Read entry `[yy][xx]` of a row-major grid (used only after the
bounds checks the sources perform). -/
def gridGet {β : Type} (rows : List (List β)) (dflt : β) (yy xx : Int) : β :=
  (rows.getD yy.toNat []).getD xx.toNat dflt

/-- Write entry `[yy][xx]` of a row-major grid. -/
def gridSet {β : Type} (rows : List (List β)) (yy xx : Int) (v : β) :
    List (List β) :=
  rows.set yy.toNat ((rows.getD yy.toNat []).set xx.toNat v)

/-- The `allNodes` array as initialised by part_008: default nodes. -/
def initNodes8 (W H : Int) : List (List PNode) :=
  List.replicate H.toNat (List.replicate W.toNat PNode.dflt)

/-- The `nodes` array as initialised by part_007:
`nodes[i][j] = Node(j, i, FLT_MAX, FLT_MAX, -1, -1)`. -/
def initNodes7 (W H : Int) : List (List PNode) :=
  (List.range H.toNat).map (fun (i : ℕ) =>
    (List.range W.toNat).map (fun (j : ℕ) =>
      mkNode (Int.ofNat j) (Int.ofNat i) INF INF (-1) (-1)))

/-- The closed set, all false initially. -/
def initClosed (W H : Int) : List (List Bool) :=
  List.replicate H.toNat (List.replicate W.toNat false)

/-- The neighbour offsets of both variants:
`dx[] = {0, 0, -1, 1}`, `dy[] = {-1, 1, 0, 0}`. -/
def dirs : List (Int × Int) := [(0, -1), (0, 1), (-1, 0), (1, 0)]

/-- The mutable state of one search: the per-cell node array, the closed
set, and the open-set vector of std::priority_queue. -/
structure AState where
  nodes : List (List PNode)
  closed : List (List Bool)
  heap : List PNode
deriving Repr

/-- Process one neighbour offset of the popped node `cur`: skip it when
out of bounds, blocked, or closed; otherwise relax it when the variant
test fires (`gNew < old.g` for part_008, `gNew + hNew < old.f` for
part_007), writing the new node into the array and pushing a copy. -/
def relaxNeighbor (testOnF : Bool) (grid : List (List ℕ)) (W H gx gy : Int)
    (cur : PNode) (st : AState) (dxy : Int × Int) : AState :=
  let nx := cur.x + dxy.1
  let ny := cur.y + dxy.2
  if nx < 0 ∨ nx ≥ W ∨ ny < 0 ∨ ny ≥ H ∨ gridGet grid 1 ny nx = 1 ∨
      gridGet st.closed false ny nx = true then st
  else
    let gNew := cur.g + 1
    let hNew := manhattan (nx, ny) (gx, gy)
    let old := gridGet st.nodes PNode.dflt ny nx
    if (if testOnF then gNew + hNew < old.f else gNew < old.g) then
      let nodes2 := gridSet st.nodes ny nx (mkNode nx ny gNew hNew cur.x cur.y)
      { st with
        nodes := nodes2
        heap := heapPush nodeKey PNode.dflt st.heap
          (gridGet nodes2 PNode.dflt ny nx) }
    else st

/-- Expand the popped node over the four neighbour offsets in order. -/
def expandNode (testOnF : Bool) (grid : List (List ℕ)) (W H gx gy : Int)
    (cur : PNode) (st : AState) : AState :=
  dirs.foldl (relaxNeighbor testOnF grid W H gx gy cur) st

/-- The main `while (!openSet.empty())` loop.  `goalFirst` selects the
part_008 placement of the goal test (before the closed check) against
the part_007 placement (after closing the popped cell).  The fuel only
bounds the iteration count; `searchFuel` below is proved sufficient. -/
def searchLoop (testOnF goalFirst : Bool) (grid : List (List ℕ))
    (W H gx gy : Int) : ℕ → AState → Bool × AState
  | 0, st => (false, st)
  | fuel + 1, st =>
    match st.heap with
    | [] => (false, st)
    | _ :: _ =>
      let cur := st.heap.headD PNode.dflt
      let st1 : AState := { st with heap := heapPop nodeKey PNode.dflt st.heap }
      if goalFirst = true ∧ cur.x = gx ∧ cur.y = gy then (true, st1)
      else if gridGet st1.closed false cur.y cur.x = true then
        searchLoop testOnF goalFirst grid W H gx gy fuel st1
      else
        let st2 : AState := { st1 with closed := gridSet st1.closed cur.y cur.x true }
        if goalFirst = false ∧ cur.x = gx ∧ cur.y = gy then (true, st2)
        else
          searchLoop testOnF goalFirst grid W H gx gy fuel
            (expandNode testOnF grid W H gx gy cur st2)

/-- Iteration budget for the search loop: the potential argument below
shows each iteration strictly decreases a quantity bounded by this. -/
def searchFuel (W H : Int) : ℕ := 5 ^ (W.toNat * H.toNat + 2)

/-- Walk the parent links from `(cx, cy)` back to the start, collecting
cells goal-first; mirrors the reconstruction loop of both variants.  The
fuel exceeds every parent-chain length (parent g values strictly
decrease). -/
def reconstructPath (nodes : List (List PNode)) (startX startY : Int) :
    ℕ → Int → Int → List (Int × Int)
  | 0, _, _ => []
  | fuel + 1, cx, cy =>
    if cx = startX ∧ cy = startY then []
    else
      let nd := gridGet nodes PNode.dflt cy cx
      (cx, cy) :: reconstructPath nodes startX startY fuel nd.parentX nd.parentY

/-- The state both computePath variants start the loop from: the start
node written into the array, a fresh closed set, and the open set
holding the pushed copy of the written start node. -/
def astarInit (nodes0 : List (List PNode)) (W H sx sy gx gy : Int) : AState :=
  let startNode := mkNode sx sy 0 (manhattan (sx, sy) (gx, gy)) (-1) (-1)
  let nodes1 := gridSet nodes0 sy sx startNode
  ⟨nodes1, initClosed W H,
    heapPush nodeKey PNode.dflt [] (gridGet nodes1 PNode.dflt sy sx)⟩

/-- Shared body of both computePath variants: write and push the start
node, run the loop, and on success reconstruct from the goal and reverse
(the C++ `std::reverse`), otherwise return the empty path. -/
def astarCore (testOnF goalFirst : Bool) (nodes0 : List (List PNode))
    (grid : List (List ℕ)) (W H sx sy gx gy : Int) : List (Int × Int) :=
  let res := searchLoop testOnF goalFirst grid W H gx gy (searchFuel W H)
    (astarInit nodes0 W H sx sy gx gy)
  if res.1 then
    (reconstructPath res.2.nodes sx sy (W.toNat * H.toNat + 2) gx gy).reverse
  else []

/-- `GameEngine::UnitModule::computePath` of `src/unnamed/part_008`:
relaxation on `g`, goal test before the closed check, default-node
array. -/
def computePath8 (grid : List (List ℕ)) (W H sx sy gx gy : Int) :
    List (Int × Int) :=
  astarCore false true (initNodes8 W H) grid W H sx sy gx gy

/-- `UnitModule::computePath` of `src/unnamed/part_007`: relaxation on
`f`, goal test after closing the popped cell, coordinate-initialised
node array. -/
def computePath7 (grid : List (List ℕ)) (W H sx sy gx gy : Int) :
    List (Int × Int) :=
  astarCore true false (initNodes7 W H) grid W H sx sy gx gy

/-! #### Spec-side search with stable tie-breaking

The specification prescribes that "ties in priority are broken by
discovery order (first-discovered-first-expanded)".  The following
definitions, written from those words for comparison with the source
search, tag every open-set entry with a discovery sequence number and
always expand the entry minimising `(f, discovery number)`
lexicographically; everything else mirrors the source search. -/

/-- The spec's stable priority order on tagged entries: smaller `f`
first, ties broken by discovery order. -/
def stableBefore (a b : PNode × ℕ) : Bool :=
  decide (a.1.f < b.1.f ∨ (a.1.f = b.1.f ∧ a.2 < b.2))

/-- The entry the spec expands next: the stable minimum of the open set. -/
def stableMin (e : PNode × ℕ) (l : List (PNode × ℕ)) : PNode × ℕ :=
  l.foldl (fun b x => if stableBefore x b then x else b) e

/-- Remove the entry carrying discovery number `s` from the open set. -/
def stableErase (s : ℕ) (l : List (PNode × ℕ)) : List (PNode × ℕ) :=
  l.filter (fun e => decide (e.2 ≠ s))

structure TState where
  nodes : List (List PNode)
  closed : List (List Bool)
  openL : List (PNode × ℕ)
  next : ℕ
deriving Repr

/-- As `relaxNeighbor`, but a pushed entry is tagged with the next
discovery number. -/
def relaxNeighborStable (testOnF : Bool) (grid : List (List ℕ))
    (W H gx gy : Int) (cur : PNode) (st : TState) (dxy : Int × Int) : TState :=
  let nx := cur.x + dxy.1
  let ny := cur.y + dxy.2
  if nx < 0 ∨ nx ≥ W ∨ ny < 0 ∨ ny ≥ H ∨ gridGet grid 1 ny nx = 1 ∨
      gridGet st.closed false ny nx = true then st
  else
    let gNew := cur.g + 1
    let hNew := manhattan (nx, ny) (gx, gy)
    let old := gridGet st.nodes PNode.dflt ny nx
    if (if testOnF then gNew + hNew < old.f else gNew < old.g) then
      let nodes2 := gridSet st.nodes ny nx (mkNode nx ny gNew hNew cur.x cur.y)
      { st with
        nodes := nodes2
        openL := st.openL ++ [(gridGet nodes2 PNode.dflt ny nx, st.next)]
        next := st.next + 1 }
    else st

/-- As `expandNode`, over the spec-side state. -/
def expandNodeStable (testOnF : Bool) (grid : List (List ℕ))
    (W H gx gy : Int) (cur : PNode) (st : TState) : TState :=
  dirs.foldl (relaxNeighborStable testOnF grid W H gx gy cur) st

def searchLoopStable (testOnF goalFirst : Bool) (grid : List (List ℕ))
    (W H gx gy : Int) : ℕ → TState → Bool × TState
  | 0, st => (false, st)
  | fuel + 1, st =>
    match st.openL with
    | [] => (false, st)
    | e :: rest =>
      let best := stableMin e rest
      let cur := best.1
      let st1 : TState := { st with openL := stableErase best.2 st.openL }
      if goalFirst = true ∧ cur.x = gx ∧ cur.y = gy then (true, st1)
      else if gridGet st1.closed false cur.y cur.x = true then
        searchLoopStable testOnF goalFirst grid W H gx gy fuel st1
      else
        let st2 : TState := { st1 with closed := gridSet st1.closed cur.y cur.x true }
        if goalFirst = false ∧ cur.x = gx ∧ cur.y = gy then (true, st2)
        else
          searchLoopStable testOnF goalFirst grid W H gx gy fuel
            (expandNodeStable testOnF grid W H gx gy cur st2)

/-- As `astarCore`, over the spec-side stable search. -/
def astarCoreStable (testOnF goalFirst : Bool) (nodes0 : List (List PNode))
    (grid : List (List ℕ)) (W H sx sy gx gy : Int) : List (Int × Int) :=
  let startNode := mkNode sx sy 0 (manhattan (sx, sy) (gx, gy)) (-1) (-1)
  let nodes1 := gridSet nodes0 sy sx startNode
  let st0 : TState := ⟨nodes1, initClosed W H,
    [(gridGet nodes1 PNode.dflt sy sx, 0)], 1⟩
  let res := searchLoopStable testOnF goalFirst grid W H gx gy
    (searchFuel W H) st0
  if res.1 then
    (reconstructPath res.2.nodes sx sy (W.toNat * H.toNat + 2) gx gy).reverse
  else []

/-- The part_008 computePath as the spec describes it: identical to
`computePath8` except that equal-`f` ties are expanded in discovery
order. -/
def computePath8Stable (grid : List (List ℕ)) (W H sx sy gx gy : Int) :
    List (Int × Int) :=
  astarCoreStable false true (initNodes8 W H) grid W H sx sy gx gy

/-- The part_007 computePath as the spec describes it: identical to
`computePath7` except that equal-`f` ties are expanded in discovery
order. -/
def computePath7Stable (grid : List (List ℕ)) (W H sx sy gx gy : Int) :
    List (Int × Int) :=
  astarCoreStable true false (initNodes7 W H) grid W H sx sy gx gy

/-- Openness predicate of the unit-module grids: inside the bounds and
not an obstacle (`grid[ny][nx] == 1` blocks). -/
def open8 (grid : List (List ℕ)) (W H : Int) (c : Cell) : Bool :=
  decide (0 ≤ c.1 ∧ c.1 < W ∧ 0 ≤ c.2 ∧ c.2 < H) && !(gridGet grid 1 c.2 c.1 == 1)

/-! ### The free aStarSearch of part_007 (lines 327-388)

This variant heap-allocates one node per push and links it to the node
object that generated it, so every node carries its whole discovery
chain.  There is no relaxation test: every open in-bounds unclosed
neighbour is pushed.  The grid is `vector<vector<bool>>` with `true`
traversable, indexed `grid[x][y]`: `x` ranges over the rows.  The
reconstruction walks the chain from the goal node through the start
node, so the result includes the start cell. -/

/-- A node of `aStarSearch`; the parent pointer is part of the value. -/
inductive ANode : Type
  | mk (x y : Int) (f g h : ℕ) (parent : Option ANode) : ANode

def ANode.x : ANode → Int
  | .mk x _ _ _ _ _ => x

def ANode.y : ANode → Int
  | .mk _ y _ _ _ _ => y

def ANode.f : ANode → ℕ
  | .mk _ _ f _ _ _ => f

def ANode.g : ANode → ℕ
  | .mk _ _ _ g _ _ => g

def ANode.hval : ANode → ℕ
  | .mk _ _ _ _ h _ => h

def ANode.parent : ANode → Option ANode
  | .mk _ _ _ _ _ p => p

/-- Heap key of the `NodeComparator`: order by `f` alone. -/
def aKey (n : ANode) : ℕ := n.f

/-- Placeholder node for out-of-range vector reads (never reached). -/
def aDflt : ANode := ANode.mk 0 0 0 0 0 none

/-- Open-set and closed-set state of one `aStarSearch` run. -/
structure BState where
  closed : List (List Bool)
  heap : List ANode

/-- The direction list of `aStarSearch`: `{0,1},{1,0},{0,-1},{-1,0}`. -/
def aDirs : List (Int × Int) := [(0, 1), (1, 0), (0, -1), (-1, 0)]

/-- Process one neighbour offset: skip when out of bounds, blocked
(`!grid[nx][ny]`) or closed, otherwise allocate a child of `cur` and
push it unconditionally. -/
def aRelax (grid : List (List Bool)) (rows cols : Int) (ed : Int × Int)
    (cur : ANode) (st : BState) (dxy : Int × Int) : BState :=
  let nx := cur.x + dxy.1
  let ny := cur.y + dxy.2
  if nx < 0 ∨ ny < 0 ∨ nx ≥ rows ∨ ny ≥ cols ∨
      gridGet grid false nx ny = false ∨ gridGet st.closed false nx ny = true then
    st
  else
    let hN := manhattan (nx, ny) ed
    let nb := ANode.mk nx ny (cur.g + 1 + hN) (cur.g + 1) hN (some cur)
    { st with heap := heapPush aKey aDflt st.heap nb }

/-- The main loop of `aStarSearch`: pop, stop when the popped node sits
on the goal, otherwise close its cell (even when already closed — the
source has no stale check) and push its eligible neighbours. -/
def aLoop (grid : List (List Bool)) (rows cols ex ey : Int) :
    ℕ → BState → Option ANode × BState
  | 0, st => (none, st)
  | fuel + 1, st =>
    match st.heap with
    | [] => (none, st)
    | _ :: _ =>
      let cur := st.heap.headD aDflt
      let st1 : BState := { st with heap := heapPop aKey aDflt st.heap }
      if cur.x = ex ∧ cur.y = ey then (some cur, st1)
      else
        let st2 : BState := { st1 with closed := gridSet st1.closed cur.x cur.y true }
        aLoop grid rows cols ex ey fuel
          (aDirs.foldl (aRelax grid rows cols (ex, ey) cur) st2)

/-- Iteration budget for `aLoop`, proved sufficient below. -/
def aFuel (grid : List (List Bool)) : ℕ :=
  5 ^ (grid.length * (grid.headD []).length + 1)

/-- The reconstruction loop `while (current) path.push_back(...)`:
cells of the discovery chain, goal end first. -/
def chainCells : ANode → List (Int × Int)
  | .mk x y _ _ _ none => [(x, y)]
  | .mk x y _ _ _ (some p) => (x, y) :: chainCells p

/-- `aStarSearch` of `src/unnamed/part_007`. -/
def aStarSearch (grid : List (List Bool)) (startX startY endX endY : Int) :
    List (Int × Int) :=
  if (grid.length : Int) = 0 then []
  else
    let rows := (grid.length : Int)
    let cols := ((grid.headD []).length : Int)
    let h0 := manhattan (startX, startY) (endX, endY)
    let start := ANode.mk startX startY (0 + h0) 0 h0 none
    let st0 : BState :=
      ⟨List.replicate rows.toNat (List.replicate cols.toNat false),
        heapPush aKey aDflt [] start⟩
    match (aLoop grid rows cols endX endY (aFuel grid) st0).1 with
    | some endNode => (chainCells endNode).reverse
    | none => []

/-- Openness predicate of the `aStarSearch` grid: in bounds (`x` over
rows, `y` over the column count of the first row) and traversable. -/
def openA (grid : List (List Bool)) (c : Cell) : Bool :=
  decide (0 ≤ c.1 ∧ c.1 < (grid.length : Int) ∧ 0 ≤ c.2 ∧
    c.2 < ((grid.headD []).length : Int)) && gridGet grid false c.1 c.2

/-! ### The Unit module: registry, per-tick advance, move orders -/

/-- One unit, mirroring the C++ `Unit` struct of part_008 (the part_007
variant is field-for-field identical with the flag named `moving`). -/
structure GameUnit where
  name : String
  health : Int
  x : Int
  y : Int
  destX : Int
  destY : Int
  path : List (Int × Int)
  isMoving : Bool
deriving DecidableEq, Repr

/-- The `Unit(n, h, startX, startY)` constructor: destination equals the
start, empty path, not moving. -/
def GameUnit.mk0 (n : String) (h : Int) (sx sy : Int) : GameUnit :=
  ⟨n, h, sx, sy, sx, sy, [], false⟩

/-- The state of the UnitModule: the registry plus the grid world. -/
structure UMState where
  units : List GameUnit
  grid : List (List ℕ)
  gridWidth : Int
  gridHeight : Int
deriving Repr

/-- The obstacle layout built by both init functions: a 20 times 20 free
grid with a wall on row 10, columns 5 to 14. -/
def initGrid20 : List (List ℕ) :=
  (List.range 20).map (fun y =>
    (List.range 20).map (fun x => if y = 10 ∧ 5 ≤ x ∧ x < 15 then 1 else 0))

/-- `UnitModule::init` of part_008 (part_007 is identical): the grid and
three seed units. -/
def initUM : UMState :=
  { units := [GameUnit.mk0 "Infantry" 100 1 1, GameUnit.mk0 "Tank" 150 2 2,
      GameUnit.mk0 "Artillery" 80 3 1]
    grid := initGrid20
    gridWidth := 20
    gridHeight := 20 }

/-- The per-unit body of `UnitModule::update`: when the unit is moving
with a non-empty path, pop the front cell, move there, and clear the
flag when the path has emptied. -/
def updateUnit (u : GameUnit) : GameUnit :=
  match u.path, u.isMoving with
  | step :: rest, true =>
    { u with
      x := step.1
      y := step.2
      path := rest
      isMoving := if rest.isEmpty then false else u.isMoving }
  | _, _ => u

/-- `UnitModule::update`: advance every unit once, in registry order. -/
def updateUM (st : UMState) : UMState :=
  { st with units := st.units.map updateUnit }

/-- `GameEngine::UnitModule::setDestination` of part_008: silently
return on an out-of-range index (`unitIndex` is a `size_t`); otherwise
overwrite the destination, recompute the path, and set the flag exactly
when the path is non-empty. -/
def setDestination8 (st : UMState) (unitIndex : ℕ) (destX destY : Int) :
    UMState :=
  if st.units.length ≤ unitIndex then st
  else
    let u := st.units.getD unitIndex (GameUnit.mk0 "" 0 0 0)
    let p := computePath8 st.grid st.gridWidth st.gridHeight u.x u.y destX destY
    let u2 := { u with destX := destX, destY := destY, path := p, isMoving := !p.isEmpty }
    { st with units := st.units.set unitIndex u2 }

/-- `UnitModule::setDestination` of part_007: an `int` index, silently
rejected when negative or at least the registry size. -/
def setDestination7 (st : UMState) (index : Int) (destX destY : Int) :
    UMState :=
  if index < 0 ∨ (st.units.length : Int) ≤ index then st
  else
    let u := st.units.getD index.toNat (GameUnit.mk0 "" 0 0 0)
    let p := computePath7 st.grid st.gridWidth st.gridHeight u.x u.y destX destY
    let u2 := { u with destX := destX, destY := destY, path := p, isMoving := !p.isEmpty }
    { st with units := st.units.set index.toNat u2 }

/-! ### The Chat module input loops -/

/-- `GameEngine::ChatModule::inputLoop` of part_008 as a function of the
stream of lines read: empty lines are skipped, the token stops the loop
without queueing, every other line is queued with a `Player: ` tag. -/
def inputLoop8 : List String → List String
  | [] => []
  | line :: rest =>
    if line ≠ "" then
      if line = "/exit" then []
      else ("Player: " ++ line) :: inputLoop8 rest
    else inputLoop8 rest

/-- `ChatModule::inputLoop` of part_007: the token stops the loop
without queueing, every other line is queued unchanged. -/
def inputLoop7 : List String → List String
  | [] => []
  | line :: rest =>
    if line = "/exit" then []
    else line :: inputLoop7 rest

/-! ### Orchestrator shutdown ordering -/

/-- An observable event of a shutdown call sequence: joining the tick
thread, or the shutdown of one module. -/
inductive SDEvent (m : Type) : Type
  | joinThread : SDEvent m
  | moduleShutdown (modId : m) : SDEvent m
deriving DecidableEq, Repr

/-- The order in which every orchestrator variant initialises its
modules in `init()`: forward registration order. -/
def initCallOrder {m : Type} (mods : List m) : List m := mods

/-- `GameEngineController::shutdown` of part_008: join the engine
thread, then `for (auto it = modules.rbegin(); it != modules.rend(); ++it)
(*it)->shutdown()`. -/
def shutdownEvents8 {m : Type} (mods : List m) : List (SDEvent m) :=
  SDEvent.joinThread :: (mods.reverse.map SDEvent.moduleShutdown)

/-- `GameEngine::shutdown` of part_007 (lines 941-950): join the main
loop thread, then `for (Module* mod : modules) mod->shutdown()` in
forward order. -/
def shutdownEvents7 {m : Type} (mods : List m) : List (SDEvent m) :=
  SDEvent.joinThread :: (mods.map SDEvent.moduleShutdown)

/-- `GameEngine::shutdown` of `src/gameplay_stitched.cpp` (lines
135-143): join the engine thread, then forward iteration. -/
def shutdownEventsStitched {m : Type} (mods : List m) : List (SDEvent m) :=
  SDEvent.joinThread :: (mods.map SDEvent.moduleShutdown)

/-! ### Elementary facts about grid reads and writes -/

/-- Width/height well-formedness of a row-major grid. -/
def WFDims {β : Type} (rows : List (List β)) (W H : Int) : Prop :=
  rows.length = H.toNat ∧ ∀ r ∈ rows, r.length = W.toNat

/-! ### Case analysis of one relaxation step -/

/-- The relaxation test of the two computePath variants applied to the
stored node of the target cell. -/
def relaxTest (testOnF : Bool) (gNew hNew : ℕ) (old : PNode) : Prop :=
  if testOnF then gNew + hNew < old.f else gNew < old.g

/-- The node written and pushed when a relaxation fires. -/
def relaxedNode (gx gy : Int) (cur : PNode) (nx ny : Int) : PNode :=
  mkNode nx ny (cur.g + 1) (manhattan (nx, ny) (gx, gy)) cur.x cur.y

/-- The state after a firing relaxation. -/
def relaxedState (gx gy : Int) (cur : PNode) (st : AState) (nx ny : Int) :
    AState :=
  { st with
    nodes := gridSet st.nodes ny nx (relaxedNode gx gy cur nx ny)
    heap := heapPush nodeKey PNode.dflt st.heap
      (gridGet (gridSet st.nodes ny nx (relaxedNode gx gy cur nx ny))
        PNode.dflt ny nx) }

/-! ### Facts about the unit module operations -/

/-- Default unit handed to `getD`; no in-range read ever returns it. -/
def u0 : GameUnit := GameUnit.mk0 "" 0 0 0

/-- The per-unit state invariant of the specification, in the strong
form of the claim list: a moving unit has a non-empty remaining path. -/
def unitInv (u : GameUnit) : Prop := u.isMoving = true → u.path ≠ []

/-! ### Concrete states used by witnesses and counterexamples -/

instance : DecidablePred unitInv := fun u => by
  unfold unitInv
  infer_instance

/-- A one-unit module state on a free 3 by 3 grid. -/
def c6State : UMState :=
  { units := [GameUnit.mk0 "Scout" 10 1 1]
    grid := List.replicate 3 (List.replicate 3 0)
    gridWidth := 3
    gridHeight := 3 }

/-- A one-unit module state on a free 2 by 1 grid. -/
def miniState : UMState :=
  { units := [GameUnit.mk0 "m" 7 0 0], grid := [[0, 0]], gridWidth := 2,
    gridHeight := 1 }

/-- A state whose unit is mid-movement: one remaining step to its
destination. -/
def movingState : UMState :=
  { units := [⟨"w", 5, 0, 0, 1, 0, [(1, 0)], true⟩], grid := [[0, 0]],
    gridWidth := 2, gridHeight := 1 }

/-! ### The heap operations permute the stored multiset: sums of a
per-entry weight are preserved.  These sums drive the termination
potential of the search loops. -/
section HeapSum

variable {α : Type} (key : α → ℕ) (f : α → ℕ) (d : α)

/-- Sum of a weight over all entries of the heap vector. -/
def heapSum (l : List α) : ℕ := (l.map f).sum

end HeapSum

/-! ### Counting closed cells -/

/-- Number of `true` entries of the closed grid. -/
def countTrue (rows : List (List Bool)) : ℕ :=
  (rows.map (fun r => r.count true)).sum

/-! ### The search-loop invariant of the two computePath variants -/

/-- The stored node of a cell. -/
def nodeAt (nodes : List (List PNode)) (c : Cell) : PNode :=
  gridGet nodes PNode.dflt c.2 c.1

/-- Whether the closed grid marks a cell. -/
def closedAt (closed : List (List Bool)) (c : Cell) : Bool :=
  gridGet closed false c.2 c.1

/-- The parent cell a stored node links to. -/
def parentCell (n : PNode) : Cell := (n.parentX, n.parentY)

/-- Validity of the filled part of the node array: the start cell holds
the unchanged start node, and every other cell of finite cost holds its
own coordinates, the Manhattan heuristic, `f = g + h`, is walkable, and
links to an adjacent in-bounds parent of strictly smaller stored cost. -/
def PVpack (grid : List (List ℕ)) (W H sx sy gx gy : Int)
    (nodes : List (List PNode)) : Prop :=
  nodeAt nodes (sx, sy) = mkNode sx sy 0 (manhattan (sx, sy) (gx, gy)) (-1) (-1) ∧
  ∀ c : Cell, inBox W H c → c ≠ (sx, sy) → (nodeAt nodes c).g < INF →
    (nodeAt nodes c).x = c.1 ∧ (nodeAt nodes c).y = c.2 ∧
    (nodeAt nodes c).h = manhattan c (gx, gy) ∧
    (nodeAt nodes c).f = (nodeAt nodes c).g + (nodeAt nodes c).h ∧
    open8 grid W H c = true ∧
    inBox W H (parentCell (nodeAt nodes c)) ∧
    Adj c (parentCell (nodeAt nodes c)) ∧
    (nodeAt nodes (parentCell (nodeAt nodes c))).g < (nodeAt nodes c).g

/-- The parts of the loop invariant that survive the middle of a node
expansion (the closed-to-open boundary bound `K2S` is re-established only
once all four neighbour relaxations have run). -/
structure SInvM (grid : List (List ℕ)) (W H sx sy gx gy : Int)
    (st : AState) : Prop where
  hp : IsHeap nodeKey PNode.dflt st.heap
  dimsN : WFDims st.nodes W H
  dimsC : WFDims st.closed W H
  entBox : ∀ e ∈ st.heap, inBox W H (e.x, e.y)
  entHF : ∀ e ∈ st.heap, e.h = manhattan (e.x, e.y) (gx, gy) ∧ e.f = e.g + e.h
  entCL : ∀ e ∈ st.heap, e.g ≤ countTrue st.closed + 1
  entI1 : ∀ e ∈ st.heap, (nodeAt st.nodes (e.x, e.y)).g ≤ e.g
  i6 : ∀ c : Cell, inBox W H c → closedAt st.closed c = false →
    (nodeAt st.nodes c).g < INF →
    ∃ e ∈ st.heap, (e.x, e.y) = c ∧ e.g = (nodeAt st.nodes c).g
  pv : PVpack grid W H sx sy gx gy st.nodes
  stCL : ∀ c : Cell, inBox W H c → (nodeAt st.nodes c).g < INF →
    (nodeAt st.nodes c).g ≤ countTrue st.closed + 1
  stVirgin : ∀ c : Cell, inBox W H c → ¬ (nodeAt st.nodes c).g < INF →
    (nodeAt st.nodes c).g = INF ∧ (nodeAt st.nodes c).f = INF + INF
  snd : ∀ c : Cell, inBox W H c → (nodeAt st.nodes c).g < INF →
    ∃ k ≤ (nodeAt st.nodes c).g, Reach (open8 grid W H) (sx, sy) c k
  ca : ∀ c : Cell, inBox W H c → closedAt st.closed c = true →
    (nodeAt st.nodes c).g < INF ∧
    MinReach (open8 grid W H) (sx, sy) c ((nodeAt st.nodes c).g)

/-- Boundary bound: an unclosed walkable cell adjacent to a closed cell
has been relaxed to within one step of the closed cell's settled cost. -/
def K2S (grid : List (List ℕ)) (W H : Int) (st : AState) : Prop :=
  ∀ c c2 : Cell, inBox W H c → inBox W H c2 → closedAt st.closed c = true →
    closedAt st.closed c2 = false → Adj c c2 → open8 grid W H c2 = true →
    (nodeAt st.nodes c2).g < INF ∧
    (nodeAt st.nodes c2).g ≤ (nodeAt st.nodes c).g + 1

/-- The full loop-entry invariant: the stable part, the boundary bound,
and the fact that the goal cell is never closed while the loop runs. -/
def SInv (grid : List (List ℕ)) (W H sx sy gx gy : Int) (st : AState) : Prop :=
  SInvM grid W H sx sy gx gy st ∧ K2S grid W H st ∧
    closedAt st.closed (gx, gy) = false

/-! ### Invariants of the free aStarSearch of part_007

`aStarSearch` allocates one node per push and keeps the whole discovery
chain in the node.  It never relaxes: every open, in-bounds, unclosed
neighbour is pushed.  The grid is indexed `grid[x][y]` with `x` over the
rows, so in the `inBox` vocabulary the width bound constrains `x` (the
row count) and the height bound constrains `y` (the column count). -/

/-- Whether the closed matrix of `aStarSearch` marks a cell
(`closedSet[x][y]`). -/
def closedA (closed : List (List Bool)) (c : Cell) : Bool :=
  gridGet closed false c.1 c.2

/-- Well-formedness of a node's discovery chain: costs increase by one
along the chain, `f = g + h` with the Manhattan heuristic, consecutive
cells are adjacent, every cell except possibly the root is open, and the
root sits at the start with cost zero. -/
def chainOK (grid : List (List Bool)) (sx sy ex ey : Int) : ANode → Prop
  | .mk x y f g hv none =>
    x = sx ∧ y = sy ∧ g = 0 ∧ hv = manhattan (sx, sy) (ex, ey) ∧ f = g + hv
  | .mk x y f g hv (some p) =>
    openA grid (x, y) = true ∧ g = p.g + 1 ∧
    hv = manhattan (x, y) (ex, ey) ∧ f = g + hv ∧ Adj (x, y) (p.x, p.y) ∧
    chainOK grid sx sy ex ey p

/-- The cells of the strict ancestors of a node. -/
def ancCells : ANode → List Cell
  | .mk _ _ _ _ _ none => []
  | .mk _ _ _ _ _ (some p) => (p.x, p.y) :: ancCells p

/-- Chain depth, the handle for induction over discovery chains. -/
def aDepth : ANode → ℕ
  | .mk _ _ _ _ _ none => 0
  | .mk _ _ _ _ _ (some p) => aDepth p + 1

/-- The stable heap invariant of a run of `aStarSearch`. -/
structure AInvM (grid : List (List Bool)) (sx sy ex ey : Int)
    (st : BState) : Prop where
  hp : IsHeap aKey aDflt st.heap
  dimsC : WFDims st.closed ((grid.headD []).length : Int) (grid.length : Int)
  ent : ∀ e ∈ st.heap, chainOK grid sx sy ex ey e
  entClosed : ∀ e ∈ st.heap, ∀ c ∈ ancCells e, closedA st.closed c = true
  entNodup : ∀ e ∈ st.heap, (chainCells e).Nodup

/-- Boundary certificate of `aStarSearch`: across every closed-to-open
edge the open side carries a queued node within one step of the closed
side's distance. -/
def KAS (grid : List (List Bool)) (sx sy : Int) (st : BState) : Prop :=
  ∀ c c2 : Cell, inBox (grid.length : Int) ((grid.headD []).length : Int) c →
    inBox (grid.length : Int) ((grid.headD []).length : Int) c2 →
    closedA st.closed c = true → closedA st.closed c2 = false →
    Adj c c2 → openA grid c2 = true →
    ∀ dc, MinReach (openA grid) (sx, sy) c dc →
    ∃ e ∈ st.heap, (e.x, e.y) = c2 ∧ e.g ≤ dc + 1

/-- Full loop-entry invariant of `aStarSearch`: the stable part, the
boundary certificate, the pristine-start characterisation, and the goal
cell staying unclosed. -/
def AInv (grid : List (List Bool)) (sx sy ex ey : Int) (st : BState) : Prop :=
  AInvM grid sx sy ex ey st ∧ KAS grid sx sy st ∧
  (closedA st.closed (sx, sy) = false →
    st.heap = [ANode.mk sx sy (0 + manhattan (sx, sy) (ex, ey)) 0
      (manhattan (sx, sy) (ex, ey)) none]) ∧
  closedA st.closed (ex, ey) = false

theorem adj_iff_mem_nbrs (b c : Cell) : Adj b c ↔ c ∈ nbrs b := by
  obtain ⟨bx, by'⟩ := b
  obtain ⟨cx, cy⟩ := c
  unfold Adj manhattan nbrs
  simp only [List.mem_cons, List.not_mem_nil, or_false, Prod.mk.injEq]
  omega

theorem adj_symm {a b : Cell} (h : Adj a b) : Adj b a := by
  unfold Adj manhattan at *
  omega

theorem validSteps_append {isOpen : Cell → Bool} {c : Cell} {p q : List Cell} :
    ValidSteps isOpen c (p ++ q) ↔
      ValidSteps isOpen c p ∧ ValidSteps isOpen (lastCell c p) q := by
  induction p generalizing c with
  | nil => simp [ValidSteps, lastCell]
  | cons d rest ih =>
    show ValidSteps isOpen c (d :: (rest ++ q)) ↔ _
    simp only [ValidSteps, ih, lastCell, List.getLastD_cons]
    tauto

theorem lastCell_cons (x y : Cell) (p : List Cell) :
    lastCell x (y :: p) = lastCell y p := List.getLastD_cons x y p

theorem validSteps_open_mem {isOpen : Cell → Bool} :
    ∀ {p : List Cell} {s : Cell}, ValidSteps isOpen s p →
      ∀ c ∈ p, isOpen c = true := by
  intro p
  induction p with
  | nil => intro s _ c hc; cases hc
  | cons d rest ih =>
    intro s hv c hc
    rcases List.mem_cons.mp hc with rfl | hc
    · exact hv.2.1
    · exact ih hv.2.2 c hc

theorem lastCell_append (s : Cell) (p q : List Cell) :
    lastCell s (p ++ q) = lastCell (lastCell s p) q := by
  unfold lastCell
  cases q with
  | nil => simp
  | cons d rest =>
    rw [List.getLastD_eq_getLast?, List.getLastD_eq_getLast?,
      List.getLast?_append_of_ne_nil _ (by simp)]
    rcases e : (d :: rest).getLast? with _ | a
    · simp [List.getLast?_eq_none_iff] at e
    · rfl

theorem reach_zero {isOpen : Cell → Bool} {s : Cell} : Reach isOpen s s 0 :=
  ⟨[], trivial, rfl, rfl⟩

theorem reach_step {isOpen : Cell → Bool} {s t u : Cell} {n : ℕ}
    (h : Reach isOpen s t n) (hadj : Adj t u) (hopen : isOpen u = true) :
    Reach isOpen s u (n + 1) := by
  obtain ⟨p, hv, hl, he⟩ := h
  refine ⟨p ++ [u], ?_, by simp [hl], ?_⟩
  · rw [validSteps_append, he]
    exact ⟨hv, hadj, hopen, trivial⟩
  · rw [lastCell_append, he]; rfl

theorem mem_bfsFold (isOpen : Cell → Bool) (cs : List Cell) (S : List Cell)
    (x : Cell) :
    (x ∈ cs.foldl
        (fun acc c => if isOpen c = true ∧ c ∉ acc then acc ++ [c] else acc) S) ↔
      x ∈ S ∨ (isOpen x = true ∧ x ∈ cs) := by
  induction cs generalizing S with
  | nil => simp
  | cons c cs ih =>
    simp only [List.foldl_cons, ih, List.mem_cons]
    by_cases hc : isOpen c = true ∧ c ∉ S
    · rw [if_pos hc]
      simp only [List.mem_append, List.mem_singleton]
      constructor
      · rintro ((h | h) | h)
        · exact Or.inl h
        · subst h; exact Or.inr ⟨hc.1, Or.inl rfl⟩
        · exact Or.inr ⟨h.1, Or.inr h.2⟩
      · rintro (h | ⟨ho, (h | h)⟩)
        · exact Or.inl (Or.inl h)
        · subst h; exact Or.inl (Or.inr rfl)
        · exact Or.inr ⟨ho, h⟩
    · rw [if_neg hc]
      constructor
      · rintro (h | h)
        · exact Or.inl h
        · exact Or.inr ⟨h.1, Or.inr h.2⟩
      · rintro (h | ⟨ho, (h | h)⟩)
        · exact Or.inl h
        · subst h
          rcases not_and_or.mp hc with h | h
          · exact absurd ho h
          · exact Or.inl (not_not.mp h)
        · exact Or.inr ⟨ho, h⟩

theorem mem_bfsStep (isOpen : Cell → Bool) (S : List Cell) (x : Cell) :
    x ∈ bfsStep isOpen S ↔
      x ∈ S ∨ (isOpen x = true ∧ ∃ b ∈ S, Adj b x) := by
  unfold bfsStep
  rw [mem_bfsFold]
  simp only [List.mem_flatMap]
  constructor
  · rintro (h | ⟨ho, b, hb, hn⟩)
    · exact Or.inl h
    · exact Or.inr ⟨ho, b, hb, (adj_iff_mem_nbrs b x).mpr hn⟩
  · rintro (h | ⟨ho, b, hb, ha⟩)
    · exact Or.inl h
    · exact Or.inr ⟨ho, b, hb, (adj_iff_mem_nbrs b x).mp ha⟩

theorem mem_bfsLevels (isOpen : Cell → Bool) (s : Cell) :
    ∀ (n : ℕ) (x : Cell),
      x ∈ bfsLevels isOpen s n ↔ ∃ k, k ≤ n ∧ Reach isOpen s x k := by
  intro n
  induction n with
  | zero =>
    intro x
    simp only [bfsLevels, List.mem_singleton]
    constructor
    · rintro rfl; exact ⟨0, le_refl 0, reach_zero⟩
    · rintro ⟨k, hk, p, hv, hl, he⟩
      interval_cases k
      have : p = [] := List.length_eq_zero.mp hl
      subst this
      exact he.symm
  | succ n ih =>
    intro x
    rw [show bfsLevels isOpen s (n + 1) = bfsStep isOpen (bfsLevels isOpen s n) from rfl,
      mem_bfsStep]
    constructor
    · rintro (h | ⟨ho, b, hb, ha⟩)
      · obtain ⟨k, hk, hr⟩ := (ih x).mp h
        exact ⟨k, Nat.le_succ_of_le hk, hr⟩
      · obtain ⟨k, hk, hr⟩ := (ih b).mp hb
        exact ⟨k + 1, Nat.succ_le_succ hk, reach_step hr ha ho⟩
    · rintro ⟨k, hk, hr⟩
      rcases Nat.lt_or_ge k (n + 1) with hlt | hge
      · exact Or.inl ((ih x).mpr ⟨k, Nat.lt_succ_iff.mp hlt, hr⟩)
      · have hkeq : k = n + 1 := le_antisymm hk hge
        subst hkeq
        obtain ⟨p, hv, hl, he⟩ := hr
        have hpne : p ≠ [] := by
          intro h; subst h; simp at hl
        obtain hsplit := List.dropLast_append_getLast hpne
        set q := p.dropLast with hq
        set z := p.getLast hpne with hz
        have hv2 : ValidSteps isOpen s q ∧ ValidSteps isOpen (lastCell s q) [z] := by
          rw [← validSteps_append, hsplit]; exact hv
        have hlast : lastCell s p = z := by
          rw [← hsplit, lastCell_append]; rfl
        have hxz : x = z := by rw [← he, hlast]
        subst hxz
        have hqlen : q.length = n := by
          have := congrArg List.length hsplit
          simp at this
          omega
        refine Or.inr ⟨hv2.2.2.1, lastCell s q, ?_, hv2.2.1⟩
        exact (ih _).mpr ⟨n, le_refl n, q, hv2.1, hqlen, rfl⟩

theorem bfsFirst_eq_some (isOpen : Cell → Bool) (s t : Cell) :
    ∀ (fuel n d : ℕ), bfsFirst isOpen s t fuel n = some d →
      n ≤ d ∧ t ∈ bfsLevels isOpen s d ∧
        ∀ k, n ≤ k → k < d → t ∉ bfsLevels isOpen s k := by
  intro fuel
  induction fuel with
  | zero => intro n d h; simp [bfsFirst] at h
  | succ fuel ih =>
    intro n d h
    unfold bfsFirst at h
    by_cases hm : t ∈ bfsLevels isOpen s n
    · rw [if_pos hm] at h
      cases h
      exact ⟨le_refl _, hm, fun k h1 h2 => absurd h1 (Nat.not_le_of_lt h2)⟩
    · rw [if_neg hm] at h
      obtain ⟨h1, h2, h3⟩ := ih (n + 1) d h
      refine ⟨Nat.le_of_succ_le h1, h2, fun k hk1 hk2 => ?_⟩
      rcases Nat.eq_or_lt_of_le hk1 with he | hlt
      · subst he; exact hm
      · exact h3 k hlt hk2

theorem bfsFirst_eq_none (isOpen : Cell → Bool) (s t : Cell) :
    ∀ (fuel n : ℕ), bfsFirst isOpen s t fuel n = none →
      ∀ k, n ≤ k → k < n + fuel → t ∉ bfsLevels isOpen s k := by
  intro fuel
  induction fuel with
  | zero => intro n _ k h1 h2; omega
  | succ fuel ih =>
    intro n h k h1 h2
    unfold bfsFirst at h
    by_cases hm : t ∈ bfsLevels isOpen s n
    · rw [if_pos hm] at h; cases h
    · rw [if_neg hm] at h
      rcases Nat.eq_or_lt_of_le h1 with he | hlt
      · subst he; exact hm
      · exact ih (n + 1) h k hlt (by omega)

theorem bfsFirst_finds (isOpen : Cell → Bool) (s t : Cell) :
    ∀ (fuel n d : ℕ), n ≤ d → d < n + fuel →
      t ∈ bfsLevels isOpen s d →
      (∀ k, k < d → t ∉ bfsLevels isOpen s k) →
      bfsFirst isOpen s t fuel n = some d := by
  intro fuel
  induction fuel with
  | zero => intro n d h1 h2; omega
  | succ fuel ih =>
    intro n d h1 h2 h3 h4
    unfold bfsFirst
    rcases Nat.eq_or_lt_of_le h1 with he | hlt
    · subst he; rw [if_pos h3]
    · rw [if_neg (h4 n hlt)]
      exact ih (n + 1) d hlt (by omega) h3 h4

/-! ### Shortest walks: existence of minima, duplicate removal, bounds -/

theorem reach_minReach {isOpen : Cell → Bool} {s t : Cell} :
    ∀ {k : ℕ}, Reach isOpen s t k → ∃ d, d ≤ k ∧ MinReach isOpen s t d := by
  intro k
  induction k using Nat.strong_induction_on with
  | _ k ih =>
    intro h
    by_cases hex : ∃ j, j < k ∧ Reach isOpen s t j
    · obtain ⟨j, hj, hr⟩ := hex
      obtain ⟨d, hd, hm⟩ := ih j hj hr
      exact ⟨d, by omega, hm⟩
    · push_neg at hex
      exact ⟨k, le_refl k, h, fun j hj => hex j hj⟩

/-- Any valid walk can be shortened to a duplicate-free valid walk with
the same endpoint, whose cells all come from the original walk. -/
theorem walk_dedup {isOpen : Cell → Bool} :
    ∀ (n : ℕ) (p : List Cell) (s : Cell), p.length ≤ n →
      ValidSteps isOpen s p →
      ∃ q, ValidSteps isOpen s q ∧ lastCell s q = lastCell s p ∧
        q.length ≤ p.length ∧ (s :: q).Nodup ∧ ∀ x ∈ q, x ∈ p := by
  intro n
  induction n with
  | zero =>
    intro p s hl _
    have : p = [] := List.length_eq_zero.mp (Nat.le_zero.mp hl)
    subst this
    exact ⟨[], trivial, rfl, le_refl _, List.nodup_singleton s, by simp⟩
  | succ n ih =>
    intro p s hl hv
    by_cases hs : s ∈ p
    · obtain ⟨p₁, p₂, rfl⟩ := List.append_of_mem hs
      have hv2 : ValidSteps isOpen (lastCell s p₁) (s :: p₂) :=
        (validSteps_append.mp hv).2
      have hv3 : ValidSteps isOpen s p₂ := hv2.2.2
      have hlen2 : p₂.length ≤ n := by
        have := hl
        simp only [List.length_append, List.length_cons] at this
        omega
      obtain ⟨q, hq1, hq2, hq3, hq4, hq5⟩ := ih p₂ s hlen2 hv3
      refine ⟨q, hq1, ?_, ?_, hq4, ?_⟩
      · rw [hq2, lastCell_append, lastCell_cons]
      · simp only [List.length_append, List.length_cons]
        omega
      · intro x hx
        have := hq5 x hx
        simp only [List.mem_append, List.mem_cons]
        exact Or.inr (Or.inr this)
    · cases p with
      | nil => exact ⟨[], trivial, rfl, le_refl _, List.nodup_singleton s, by simp⟩
      | cons d rest =>
        obtain ⟨hadj, hopen, hv2⟩ := hv
        have hlen2 : rest.length ≤ n := by
          simp only [List.length_cons] at hl
          omega
        obtain ⟨q, hq1, hq2, hq3, hq4, hq5⟩ := ih rest d hlen2 hv2
        refine ⟨d :: q, ⟨hadj, hopen, hq1⟩, ?_, ?_, ?_, ?_⟩
        · unfold lastCell at *
          simp only [List.getLastD_cons]
          exact hq2
        · simp only [List.length_cons]
          omega
        · refine List.nodup_cons.mpr ⟨?_, hq4⟩
          intro hmem
          rcases List.mem_cons.mp hmem with he | hq
          · exact hs (he ▸ List.mem_cons_self d rest)
          · exact hs (List.mem_cons_of_mem d (hq5 _ hq))
        · intro x hx
          rcases List.mem_cons.mp hx with he | hq
          · exact he ▸ List.mem_cons_self d rest
          · exact List.mem_cons_of_mem d (hq5 _ hq)

/-- A duplicate-free list of cells inside a `W × H` box has at most
`W * H` entries. -/
theorem nodup_inBox_length {W H : Int} (l : List Cell) (hn : l.Nodup)
    (hb : ∀ c ∈ l, inBox W H c) : l.length ≤ W.toNat * H.toNat := by
  classical
  have hcard : l.toFinset.card = l.length := List.toFinset_card_of_nodup hn
  have hsub : l.toFinset ⊆ Finset.Ico (0 : Int) W ×ˢ Finset.Ico (0 : Int) H := by
    intro c hc
    obtain ⟨h1, h2, h3, h4⟩ := hb c (List.mem_toFinset.mp hc)
    rw [Finset.mem_product, Finset.mem_Ico, Finset.mem_Ico]
    exact ⟨⟨h1, h2⟩, h3, h4⟩
  have := Finset.card_le_card hsub
  rw [hcard, Finset.card_product, Int.card_Ico, Int.card_Ico] at this
  simpa using this

/-- Under box-boundedness, a shortest walk is shorter than the cell
count: its cells are pairwise distinct cells of the box. -/
theorem minReach_lt_area {isOpen : Cell → Bool} {W H : Int} {s t : Cell} {d : ℕ}
    (hbox : ∀ c, isOpen c = true → inBox W H c) (hs : inBox W H s)
    (hmr : MinReach isOpen s t d) : d < W.toNat * H.toNat := by
  obtain ⟨⟨p, hv, hl, he⟩, hmin⟩ := hmr
  obtain ⟨q, hq1, hq2, hq3, hq4, _⟩ := walk_dedup p.length p s (le_refl _) hv
  have hqd : q.length = d := by
    by_contra hne
    have : q.length < d := by omega
    exact hmin q.length this ⟨q, hq1, rfl, hq2.trans he⟩
  have hcells : ∀ c ∈ s :: q, inBox W H c := by
    intro c hc
    rcases List.mem_cons.mp hc with rfl | hc
    · exact hs
    · exact hbox c (validSteps_open_mem hq1 c hc)
  have := nodup_inBox_length (s :: q) hq4 hcells
  simp only [List.length_cons] at this
  omega

/-- The reference BFS is correct: it answers `some d` exactly when `d` is
the length of a shortest valid walk. -/
theorem bfsDist_some_iff {isOpen : Cell → Bool} {W H : Int} {area : ℕ}
    {s t : Cell} {d : ℕ}
    (hbox : ∀ c, isOpen c = true → inBox W H c) (hs : inBox W H s)
    (harea : W.toNat * H.toNat ≤ area + 1) :
    bfsDist isOpen area s t = some d ↔ MinReach isOpen s t d := by
  constructor
  · intro h
    obtain ⟨_, hmem, hnone⟩ := bfsFirst_eq_some isOpen s t (area + 1) 0 d h
    obtain ⟨k, hk, hr⟩ := (mem_bfsLevels isOpen s d t).mp hmem
    have hnr : ∀ j, j < d → ¬ Reach isOpen s t j := by
      intro j hj hrj
      exact hnone j (Nat.zero_le j) hj
        ((mem_bfsLevels isOpen s j t).mpr ⟨j, le_refl j, hrj⟩)
    have hkd : k = d := by
      by_contra hne
      exact hnr k (by omega) hr
    subst hkd
    exact ⟨hr, hnr⟩
  · intro hmr
    have hd : d < area + 1 :=
      Nat.lt_of_lt_of_le (minReach_lt_area hbox hs hmr) harea
    refine bfsFirst_finds isOpen s t (area + 1) 0 d (Nat.zero_le d) (by omega)
      ((mem_bfsLevels isOpen s d t).mpr ⟨d, le_refl d, hmr.1⟩) ?_
    intro k hk hmem
    obtain ⟨j, hj, hrj⟩ := (mem_bfsLevels isOpen s k t).mp hmem
    exact hmr.2 j (by omega) hrj

/-- The reference BFS answers `none` exactly when the target is
unreachable. -/
theorem bfsDist_none_iff {isOpen : Cell → Bool} {W H : Int} {area : ℕ}
    {s t : Cell}
    (hbox : ∀ c, isOpen c = true → inBox W H c) (hs : inBox W H s)
    (harea : W.toNat * H.toNat ≤ area + 1) :
    bfsDist isOpen area s t = none ↔ ∀ k, ¬ Reach isOpen s t k := by
  constructor
  · intro h k hr
    obtain ⟨d, _, hmr⟩ := reach_minReach hr
    have hd : d < area + 1 :=
      Nat.lt_of_lt_of_le (minReach_lt_area hbox hs hmr) harea
    exact bfsFirst_eq_none isOpen s t (area + 1) 0 h d (Nat.zero_le d) (by omega)
      ((mem_bfsLevels isOpen s d t).mpr ⟨d, le_refl d, hmr.1⟩)
  · intro h
    rcases e : bfsDist isOpen area s t with _ | d
    · rfl
    · exact absurd ((bfsDist_some_iff hbox hs harea).mp e).1 (h d)

section Heap

variable {α : Type} (key : α → ℕ) (d : α)

theorem hChild_gt (l : List α) (i : ℕ) : i < hChild key d l i := by
  unfold hChild
  split <;> omega

theorem hChild_lt_length (l : List α) (i : ℕ) (h : 2 * i + 1 < l.length) :
    hChild key d l i < l.length := by
  unfold hChild
  split <;> omega

theorem length_hSwap (l : List α) (i j : ℕ) :
    (hSwap d l i j).length = l.length := by
  simp [hSwap]

theorem siftUpF_congr : ∀ (fu fu2 : ℕ) (l : List α) (i : ℕ), i ≤ fu → i ≤ fu2 →
    siftUpF key d fu l i = siftUpF key d fu2 l i := by
  intro fu
  induction fu with
  | zero =>
    intro fu2 l i h1 h2
    have h0 : i = 0 := by omega
    subst h0
    cases fu2 with
    | zero => rfl
    | succ n =>
      rw [show siftUpF key d (n + 1) l 0 = (if 0 = 0 then l
        else if key (l.getD ((0 - 1) / 2) d) > key (l.getD 0 d) then
          siftUpF key d n (hSwap d l ((0 - 1) / 2) 0) ((0 - 1) / 2)
        else l) from rfl, if_pos rfl]
      rfl
  | succ fu ih =>
    intro fu2 l i h1 h2
    cases fu2 with
    | zero =>
      have h0 : i = 0 := by omega
      subst h0
      rw [show siftUpF key d (fu + 1) l 0 = (if 0 = 0 then l
        else if key (l.getD ((0 - 1) / 2) d) > key (l.getD 0 d) then
          siftUpF key d fu (hSwap d l ((0 - 1) / 2) 0) ((0 - 1) / 2)
        else l) from rfl, if_pos rfl]
      rfl
    | succ fu2 =>
      by_cases h0 : i = 0
      · subst h0
        rw [show siftUpF key d (fu + 1) l 0 = (if 0 = 0 then l
          else if key (l.getD ((0 - 1) / 2) d) > key (l.getD 0 d) then
            siftUpF key d fu (hSwap d l ((0 - 1) / 2) 0) ((0 - 1) / 2)
          else l) from rfl, if_pos rfl]
        rw [show siftUpF key d (fu2 + 1) l 0 = (if 0 = 0 then l
          else if key (l.getD ((0 - 1) / 2) d) > key (l.getD 0 d) then
            siftUpF key d fu2 (hSwap d l ((0 - 1) / 2) 0) ((0 - 1) / 2)
          else l) from rfl, if_pos rfl]
      · rw [show siftUpF key d (fu + 1) l i = (if i = 0 then l
          else if key (l.getD ((i - 1) / 2) d) > key (l.getD i d) then
            siftUpF key d fu (hSwap d l ((i - 1) / 2) i) ((i - 1) / 2)
          else l) from rfl]
        rw [show siftUpF key d (fu2 + 1) l i = (if i = 0 then l
          else if key (l.getD ((i - 1) / 2) d) > key (l.getD i d) then
            siftUpF key d fu2 (hSwap d l ((i - 1) / 2) i) ((i - 1) / 2)
          else l) from rfl]
        rw [if_neg h0, if_neg h0]
        by_cases hc : key (l.getD ((i - 1) / 2) d) > key (l.getD i d)
        · rw [if_pos hc, if_pos hc]
          exact ih fu2 _ _ (by omega) (by omega)
        · rw [if_neg hc, if_neg hc]

theorem siftUp_eq (l : List α) (i : ℕ) :
    siftUp key d l i = if i = 0 then l
      else if key (l.getD ((i - 1) / 2) d) > key (l.getD i d) then
        siftUp key d (hSwap d l ((i - 1) / 2) i) ((i - 1) / 2)
      else l := by
  unfold siftUp
  cases i with
  | zero => rfl
  | succ n =>
    rw [show siftUpF key d (n + 1) l (n + 1) = (if n + 1 = 0 then l
      else if key (l.getD ((n + 1 - 1) / 2) d) > key (l.getD (n + 1) d) then
        siftUpF key d n (hSwap d l ((n + 1 - 1) / 2) (n + 1)) ((n + 1 - 1) / 2)
      else l) from rfl]
    rw [if_neg (Nat.succ_ne_zero n), if_neg (Nat.succ_ne_zero n)]
    by_cases hc : key (l.getD ((n + 1 - 1) / 2) d) > key (l.getD (n + 1) d)
    · rw [if_pos hc, if_pos hc]
      exact siftUpF_congr key d n ((n + 1 - 1) / 2) _ _ (by omega) (le_refl _)
    · rw [if_neg hc, if_neg hc]

theorem siftDownF_congr : ∀ (fu fu2 : ℕ) (l : List α) (i : ℕ),
    l.length - i ≤ fu → l.length - i ≤ fu2 →
    siftDownF key d fu l i = siftDownF key d fu2 l i := by
  have hbase : ∀ (n : ℕ) (l : List α) (i : ℕ), ¬ 2 * i + 1 < l.length →
      siftDownF key d n l i = l := by
    intro n l i hn
    cases n with
    | zero => rfl
    | succ m =>
      rw [show siftDownF key d (m + 1) l i = (if 2 * i + 1 < l.length then
        (if key (l.getD (hChild key d l i) d) > key (l.getD i d) then l
         else siftDownF key d m (hSwap d l i (hChild key d l i))
           (hChild key d l i))
        else l) from rfl, if_neg hn]
  intro fu
  induction fu with
  | zero =>
    intro fu2 l i h1 h2
    rw [hbase fu2 l i (by omega), show siftDownF key d 0 l i = l from rfl]
  | succ fu ih =>
    intro fu2 l i h1 h2
    by_cases hcond : 2 * i + 1 < l.length
    · cases fu2 with
      | zero => omega
      | succ fu2 =>
        rw [show siftDownF key d (fu + 1) l i = (if 2 * i + 1 < l.length then
          (if key (l.getD (hChild key d l i) d) > key (l.getD i d) then l
           else siftDownF key d fu (hSwap d l i (hChild key d l i))
             (hChild key d l i))
          else l) from rfl]
        rw [show siftDownF key d (fu2 + 1) l i = (if 2 * i + 1 < l.length then
          (if key (l.getD (hChild key d l i) d) > key (l.getD i d) then l
           else siftDownF key d fu2 (hSwap d l i (hChild key d l i))
             (hChild key d l i))
          else l) from rfl]
        rw [if_pos hcond, if_pos hcond]
        by_cases hc : key (l.getD (hChild key d l i) d) > key (l.getD i d)
        · rw [if_pos hc, if_pos hc]
        · rw [if_neg hc, if_neg hc]
          have hgt := hChild_gt key d l i
          have hlt := hChild_lt_length key d l i hcond
          exact ih fu2 _ _ (by rw [length_hSwap]; omega)
            (by rw [length_hSwap]; omega)
    · rw [hbase (fu + 1) l i hcond, hbase fu2 l i hcond]

theorem siftDown_eq (l : List α) (i : ℕ) :
    siftDown key d l i = if 2 * i + 1 < l.length then
      (if key (l.getD (hChild key d l i) d) > key (l.getD i d) then l
       else siftDown key d (hSwap d l i (hChild key d l i))
         (hChild key d l i))
      else l := by
  unfold siftDown
  by_cases h1 : 2 * i + 1 < l.length
  · have hfu : l.length = (l.length - 1) + 1 := by omega
    rw [if_pos h1]
    conv_lhs => rw [hfu]
    rw [show siftDownF key d ((l.length - 1) + 1) l i =
      (if 2 * i + 1 < l.length then
        (if key (l.getD (hChild key d l i) d) > key (l.getD i d) then l
         else siftDownF key d (l.length - 1) (hSwap d l i (hChild key d l i))
           (hChild key d l i))
        else l) from rfl, if_pos h1]
    by_cases hc : key (l.getD (hChild key d l i) d) > key (l.getD i d)
    · rw [if_pos hc, if_pos hc]
    · rw [if_neg hc, if_neg hc]
      have hgt := hChild_gt key d l i
      have hlt := hChild_lt_length key d l i h1
      exact siftDownF_congr key d (l.length - 1) _ _ _
        (by rw [length_hSwap]; omega) (by rw [length_hSwap]; omega)
  · rw [if_neg h1]
    cases hfu : l.length with
    | zero => rfl
    | succ m =>
      rw [show siftDownF key d (m + 1) l i = (if 2 * i + 1 < l.length then
        (if key (l.getD (hChild key d l i) d) > key (l.getD i d) then l
         else siftDownF key d m (hSwap d l i (hChild key d l i))
           (hChild key d l i))
        else l) from rfl, if_neg h1]

theorem getD_hSwap (l : List α) {i j : ℕ} (hi : i < l.length)
    (hj : j < l.length) (k : ℕ) :
    (hSwap d l i j).getD k d =
      if k = j then l.getD i d else if k = i then l.getD j d else l.getD k d := by
  unfold hSwap
  rw [List.getD_eq_getElem?_getD, List.getElem?_set, List.getElem?_set]
  simp only [List.length_set]
  split_ifs <;> first | rfl | omega | rw [List.getD_eq_getElem?_getD]

theorem getD_ge_length (l : List α) {k : ℕ} (hk : l.length ≤ k) :
    l.getD k d = d := by
  rw [List.getD_eq_getElem?_getD, List.getElem?_eq_none (by omega)]
  rfl

theorem mem_iff_getD (l : List α) (a : α) :
    a ∈ l ↔ ∃ n, n < l.length ∧ l.getD n d = a := by
  rw [List.mem_iff_getElem]
  constructor
  · rintro ⟨n, h, e⟩
    exact ⟨n, h, by rw [List.getD_eq_getElem l d h]; exact e⟩
  · rintro ⟨n, h, e⟩
    exact ⟨n, h, by rw [← List.getD_eq_getElem l d h]; exact e⟩

theorem mem_hSwap {l : List α} {i j : ℕ} (hi : i < l.length)
    (hj : j < l.length) (x : α) : x ∈ hSwap d l i j ↔ x ∈ l := by
  rw [mem_iff_getD d, mem_iff_getD d]
  constructor
  · rintro ⟨k, hk, he⟩
    rw [length_hSwap] at hk
    rw [getD_hSwap d l hi hj k] at he
    split_ifs at he
    · exact ⟨i, hi, he⟩
    · exact ⟨j, hj, he⟩
    · exact ⟨k, hk, he⟩
  · rintro ⟨k, hk, he⟩
    by_cases hki : k = i
    · subst hki
      refine ⟨j, by rw [length_hSwap]; exact hj, ?_⟩
      rw [getD_hSwap d l hi hj j, if_pos rfl]
      exact he
    · by_cases hkj : k = j
      · subst hkj
        by_cases hij : i = k
        · subst hij
          exact absurd rfl hki
        · refine ⟨i, by rw [length_hSwap]; exact hi, ?_⟩
          rw [getD_hSwap d l hi hj i, if_neg hij, if_pos rfl]
          exact he
      · refine ⟨k, by rw [length_hSwap]; exact hk, ?_⟩
        rw [getD_hSwap d l hi hj k, if_neg hkj, if_neg hki]
        exact he

theorem length_siftUp : ∀ (i : ℕ) (l : List α),
    (siftUp key d l i).length = l.length := by
  intro i
  induction i using Nat.strong_induction_on with
  | _ i ih =>
    intro l
    rw [siftUp_eq]
    split_ifs with h1 h2
    · rfl
    · rw [ih _ (by omega), length_hSwap]
    · rfl

theorem mem_siftUp : ∀ (i : ℕ) (l : List α), i < l.length →
    ∀ x, (x ∈ siftUp key d l i ↔ x ∈ l) := by
  intro i
  induction i using Nat.strong_induction_on with
  | _ i ih =>
    intro l hi x
    rw [siftUp_eq]
    split_ifs with h1 h2
    · exact Iff.rfl
    · rw [ih _ (by omega) _ (by rw [length_hSwap]; omega) x,
        mem_hSwap d (by omega) hi]
    · exact Iff.rfl

theorem length_siftDown : ∀ (n i : ℕ) (l : List α), l.length - i ≤ n →
    (siftDown key d l i).length = l.length := by
  intro n
  induction n with
  | zero =>
    intro i l hn
    rw [siftDown_eq]
    rw [if_neg (by omega)]
  | succ n ih =>
    intro i l hn
    rw [siftDown_eq]
    split_ifs with h1 h2
    · rfl
    · have hc1 := hChild_gt key d l i
      have hc2 := hChild_lt_length key d l i h1
      rw [ih _ _ (by rw [length_hSwap]; omega), length_hSwap]
    · rfl

theorem mem_siftDown : ∀ (n i : ℕ) (l : List α), l.length - i ≤ n →
    ∀ x, (x ∈ siftDown key d l i ↔ x ∈ l) := by
  intro n
  induction n with
  | zero =>
    intro i l hn x
    rw [siftDown_eq, if_neg (by omega)]
  | succ n ih =>
    intro i l hn x
    rw [siftDown_eq]
    split_ifs with h1 h2
    · exact Iff.rfl
    · have hc1 := hChild_gt key d l i
      have hc2 := hChild_lt_length key d l i h1
      rw [ih _ _ (by rw [length_hSwap]; omega) x,
        mem_hSwap d (by omega) hc2]
    · exact Iff.rfl

theorem siftUp_isHeap : ∀ (i : ℕ) (l : List α), i < l.length →
    UpOK key d l i → IsHeap key d (siftUp key d l i) := by
  intro i
  induction i using Nat.strong_induction_on with
  | _ i ih =>
    intro l hi hok
    rw [siftUp_eq]
    split_ifs with h0 hcmp
    · subst h0
      intro j hj0 hjl
      exact hok.1 j hj0 hjl (by omega)
    · set p := (i - 1) / 2 with hp
      have hpi : p < i := by omega
      have hpl : p < l.length := by omega
      refine ih p hpi (hSwap d l p i) (by rw [length_hSwap]; omega) ?_
      have hval : ∀ k, (hSwap d l p i).getD k d =
          if k = i then l.getD p d else if k = p then l.getD i d
          else l.getD k d := fun k => getD_hSwap d l hpl hi k
      have hvi : (hSwap d l p i).getD i d = l.getD p d := by
        rw [hval i, if_pos rfl]
      have hvp : (hSwap d l p i).getD p d = l.getD i d := by
        rw [hval p, if_neg (by omega), if_pos rfl]
      have hvo : ∀ k, k ≠ i → k ≠ p → (hSwap d l p i).getD k d = l.getD k d := by
        intro k h1 h2
        rw [hval k, if_neg h1, if_neg h2]
      constructor
      · intro j hj0 hjl hjp
        rw [length_hSwap] at hjl
        by_cases hji : j = i
        · subst hji
          rw [hvi, hvp]
          exact le_of_lt hcmp
        · by_cases hparp : (j - 1) / 2 = p
          · rw [hparp, hvp, hvo j hji hjp]
            have hj2 := hok.1 j hj0 hjl hji
            rw [hparp] at hj2
            exact le_trans (le_of_lt hcmp) hj2
          · by_cases hpari : (j - 1) / 2 = i
            · rw [hpari, hvi, hvo j hji hjp]
              exact hok.2 (by omega) j hjl hpari
            · rw [hvo _ hpari hparp, hvo j hji hjp]
              exact hok.1 j hj0 hjl hji
      · intro hp0 j hjl hparj
        rw [length_hSwap] at hjl
        have hjge : 2 * p + 1 ≤ j := by omega
        have hpp : (p - 1) / 2 < p := by omega
        rw [hvo ((p - 1) / 2) (by omega) (by omega)]
        by_cases hji : j = i
        · subst hji
          rw [hvi]
          exact hok.1 p hp0 hpl (by omega)
        · rw [hvo j hji (by omega)]
          have hj2 := hok.1 j (by omega) hjl hji
          rw [hparj] at hj2
          exact le_trans (hok.1 p hp0 hpl (by omega)) hj2
    · intro j hj0 hjl
      by_cases hji : j = i
      · subst hji
        omega
      · exact hok.1 j hj0 hjl hji

theorem isHeap_heapPush {l : List α} (hh : IsHeap key d l) (v : α) :
    IsHeap key d (heapPush key d l v) := by
  unfold heapPush
  refine siftUp_isHeap key d l.length (l ++ [v]) (by simp) ?_
  constructor
  · intro j hj0 hjl hjne
    simp only [List.length_append, List.length_singleton] at hjl
    have hjlen : j < l.length := by omega
    rw [List.getD_append _ _ _ _ hjlen, List.getD_append _ _ _ _ (by omega)]
    exact hh j hj0 hjlen
  · intro h0 j hjl hparj
    simp only [List.length_append, List.length_singleton] at hjl
    omega

theorem hChild_le_left (l : List α) (i : ℕ) (h : 2 * i + 1 < l.length) :
    key (l.getD (hChild key d l i) d) ≤ key (l.getD (2 * i + 1) d) := by
  unfold hChild
  split_ifs with h2
  · exact le_of_lt h2.2
  · exact le_refl _

theorem hChild_le_right (l : List α) (i : ℕ) (h : 2 * i + 2 < l.length) :
    key (l.getD (hChild key d l i) d) ≤ key (l.getD (2 * i + 2) d) := by
  unfold hChild
  split_ifs with h2
  · exact le_refl _
  · rcases not_and_or.mp h2 with h3 | h3
    · exact absurd h h3
    · omega

theorem siftDown_isHeap : ∀ (n i : ℕ) (l : List α), l.length - i ≤ n →
    DownOK key d l i → IsHeap key d (siftDown key d l i) := by
  intro n
  induction n with
  | zero =>
    intro i l hn hok
    rw [siftDown_eq, if_neg (by omega)]
    intro j hj0 hjl
    by_cases hpar : (j - 1) / 2 = i
    · omega
    · exact hok.1 j hj0 hjl hpar
  | succ n ih =>
    intro i l hn hok
    rw [siftDown_eq]
    split_ifs with h1 hcmp
    · intro j hj0 hjl
      by_cases hpar : (j - 1) / 2 = i
      · have hj12 : j = 2 * i + 1 ∨ j = 2 * i + 2 := by omega
        rw [hpar]
        rcases hj12 with rfl | rfl
        · exact le_trans (le_of_lt hcmp) (hChild_le_left key d l i h1)
        · exact le_trans (le_of_lt hcmp) (hChild_le_right key d l i (by omega))
      · exact hok.1 j hj0 hjl hpar
    · set c := hChild key d l i with hc
      have hcgt : i < c := hChild_gt key d l i
      have hclt : c < l.length := hChild_lt_length key d l i h1
      have hcval : c = 2 * i + 1 ∨ c = 2 * i + 2 := by
        rw [hc]; unfold hChild; split_ifs <;> omega
      have hparc : (c - 1) / 2 = i := by omega
      refine ih c (hSwap d l i c) (by rw [length_hSwap]; omega) ?_
      have hil : i < l.length := by omega
      have hval : ∀ k, (hSwap d l i c).getD k d =
          if k = c then l.getD i d else if k = i then l.getD c d
          else l.getD k d := fun k => getD_hSwap d l hil hclt k
      have hvc : (hSwap d l i c).getD c d = l.getD i d := by
        rw [hval c, if_pos rfl]
      have hvi : (hSwap d l i c).getD i d = l.getD c d := by
        rw [hval i, if_neg (by omega), if_pos rfl]
      have hvo : ∀ k, k ≠ c → k ≠ i → (hSwap d l i c).getD k d = l.getD k d := by
        intro k k1 k2
        rw [hval k, if_neg k1, if_neg k2]
      constructor
      · intro j hj0 hjl hjpar
        rw [length_hSwap] at hjl
        by_cases hji : j = i
        · rw [hji]
          have hpii : (i - 1) / 2 < i := by omega
          rw [hvi, hvo ((i - 1) / 2) (by omega) (by omega)]
          exact hok.2 (by omega) c hclt hparc
        · by_cases hjc : j = c
          · rw [hjc, hvc, hparc, hvi]
            exact le_of_not_lt hcmp
          · by_cases hpari : (j - 1) / 2 = i
            · have hj12 : j = 2 * i + 1 ∨ j = 2 * i + 2 := by omega
              rw [hpari, hvi, hvo j hjc hji]
              rcases hj12 with rfl | rfl
              · exact hChild_le_left key d l i h1
              · exact hChild_le_right key d l i (by omega)
            · rw [hvo ((j - 1) / 2) hjpar hpari, hvo j hjc hji]
              exact hok.1 j hj0 hjl hpari
      · intro hc0 j hjl hparj
        rw [length_hSwap] at hjl
        have hjge : 2 * c + 1 ≤ j := by omega
        rw [hparc, hvi, hvo j (by omega) (by omega)]
        have hj2 := hok.1 j (by omega) hjl (by omega)
        rw [hparj] at hj2
        exact hj2
    · intro j hj0 hjl
      by_cases hpar : (j - 1) / 2 = i
      · omega
      · exact hok.1 j hj0 hjl hpar

theorem headD_eq_getD_zero (l : List α) : l.headD d = l.getD 0 d := by
  cases l <;> rfl

theorem getD_tail (l : List α) (k : ℕ) : l.tail.getD k d = l.getD (k + 1) d := by
  cases l with
  | nil => rfl
  | cons a t => rw [List.tail_cons, List.getD_cons_succ]

theorem getD_dropLast (l : List α) {k : ℕ} (h : k < l.length - 1) :
    l.dropLast.getD k d = l.getD k d := by
  rw [List.dropLast_eq_take,
    List.getD_eq_getElem _ _ (by simp [List.length_take]; omega),
    List.getD_eq_getElem _ _ (by omega), List.getElem_take]

theorem getLastD_mem_of_ne_nil {l : List α} (h : l ≠ []) : l.getLastD d ∈ l := by
  rw [List.getLastD_eq_getLast?, List.getLast?_eq_getLast l h]
  exact List.getLast_mem h

theorem getD_popBase (l : List α) {j : ℕ} (h1 : 1 ≤ j) (h2 : j < l.length - 1) :
    (l.getLastD d :: l.tail.dropLast).getD j d = l.getD j d := by
  obtain ⟨k, rfl⟩ : ∃ k, j = k + 1 := ⟨j - 1, by omega⟩
  rw [List.getD_cons_succ,
    getD_dropLast d l.tail (by rw [List.length_tail]; omega), getD_tail]

theorem length_popBase (l : List α) (h : 2 ≤ l.length) :
    (l.getLastD d :: l.tail.dropLast).length = l.length - 1 := by
  simp only [List.length_cons, List.length_dropLast, List.length_tail]
  omega

theorem isHeap_heapPop {l : List α} (hh : IsHeap key d l) :
    IsHeap key d (heapPop key d l) := by
  unfold heapPop
  split_ifs with h1
  · intro j hj0 hjl
    simp at hjl
  · have hlen : 2 ≤ l.length := by omega
    apply siftDown_isHeap key d (l.getLastD d :: l.tail.dropLast).length 0 _ (by omega)
    constructor
    · intro j hj0 hjl hpar
      rw [length_popBase d l hlen] at hjl
      have hparge : 1 ≤ (j - 1) / 2 := by omega
      rw [@getD_popBase α d l ((j - 1) / 2) hparge (by omega),
        @getD_popBase α d l j (by omega) (by omega)]
      exact hh j hj0 (by omega)
    · intro h0
      omega

theorem length_heapPop (l : List α) :
    (heapPop key d l).length = l.length - 1 := by
  unfold heapPop
  split_ifs with h1
  · simp
    omega
  · rw [length_siftDown key d (l.getLastD d :: l.tail.dropLast).length _ _ (by omega),
      length_popBase d l (by omega)]

theorem mem_heapPop_subset {l : List α} {x : α} (hx : x ∈ heapPop key d l) :
    x ∈ l := by
  unfold heapPop at hx
  split_ifs at hx with h1
  · cases hx
  · rw [mem_siftDown key d (l.getLastD d :: l.tail.dropLast).length _ _ (by omega)] at hx
    rcases List.mem_cons.mp hx with rfl | hx2
    · exact getLastD_mem_of_ne_nil d (by intro h; subst h; simp at h1)
    · exact List.tail_subset l (List.dropLast_subset l.tail hx2)

theorem mem_heapPop_of_ne {l : List α} {x : α} (hx : x ∈ l)
    (hne : x ≠ l.headD d) : x ∈ heapPop key d l := by
  cases l with
  | nil => cases hx
  | cons a t =>
    have hxt : x ∈ t := by
      rcases List.mem_cons.mp hx with rfl | h
      · exact absurd rfl hne
      · exact h
    have htne : t ≠ [] := by
      intro h; subst h; cases hxt
    unfold heapPop
    have hlen2 : ¬((a :: t).length ≤ 1) := by
      simp only [List.length_cons]
      have := List.length_pos.mpr htne
      omega
    rw [if_neg hlen2,
      mem_siftDown key d ((a :: t).getLastD d :: (a :: t).tail.dropLast).length 0 _
        (by omega) x]
    rw [List.getLastD_cons, List.tail_cons]
    have hxsplit : x ∈ t.dropLast ++ [t.getLast htne] := by
      rw [List.dropLast_append_getLast htne]
      exact hxt
    rcases List.mem_append.mp hxsplit with h | h
    · exact List.mem_cons_of_mem _ h
    · rw [List.mem_singleton] at h
      subst h
      rw [List.getLastD_eq_getLast?, List.getLast?_eq_getLast t htne]
      exact List.mem_cons_self _ _

theorem length_heapPush (l : List α) (v : α) :
    (heapPush key d l v).length = l.length + 1 := by
  unfold heapPush
  rw [length_siftUp]
  simp

theorem mem_heapPush_iff (l : List α) (v x : α) :
    x ∈ heapPush key d l v ↔ x ∈ l ∨ x = v := by
  unfold heapPush
  rw [mem_siftUp key d l.length (l ++ [v]) (by simp) x]
  simp

theorem isHeap_head_le {l : List α} (hh : IsHeap key d l) :
    ∀ k, k < l.length → key (l.getD 0 d) ≤ key (l.getD k d) := by
  intro k
  induction k using Nat.strong_induction_on with
  | _ k ih =>
    intro hk
    rcases Nat.eq_zero_or_pos k with rfl | hpos
    · exact le_refl _
    · exact le_trans (ih ((k - 1) / 2) (by omega) (by omega)) (hh k hpos hk)

theorem isHeap_headD_le_mem {l : List α} (hh : IsHeap key d l) :
    ∀ x ∈ l, key (l.headD d) ≤ key x := by
  intro x hx
  obtain ⟨k, hk, he⟩ := (mem_iff_getD d l x).mp hx
  rw [headD_eq_getD_zero, ← he]
  exact isHeap_head_le key d hh k hk

end Heap

theorem headD_mem {α : Type} {l : List α} (d : α) (h : l ≠ []) :
    l.headD d ∈ l := by
  cases l with
  | nil => exact absurd rfl h
  | cons a t => exact List.mem_cons_self a t

theorem getD_mem {α : Type} (l : List α) (d : α) {k : ℕ} (h : k < l.length) :
    l.getD k d ∈ l := by
  rw [List.getD_eq_getElem _ _ h]
  exact List.getElem_mem h

theorem getD_set_ne {α : Type} (d : α) (l : List α) {i j : ℕ} (h : i ≠ j)
    (v : α) : (l.set i v).getD j d = l.getD j d := by
  rw [List.getD_eq_getElem?_getD, List.getElem?_set_ne h,
    ← List.getD_eq_getElem?_getD]

theorem getD_set_self {α : Type} (d : α) (l : List α) {i : ℕ}
    (h : i < l.length) (v : α) : (l.set i v).getD i d = v := by
  rw [List.getD_eq_getElem?_getD, List.getElem?_set, if_pos rfl, if_pos h]
  rfl

theorem length_gridSet {β : Type} (rows : List (List β)) (yy xx : Int)
    (v : β) : (gridSet rows yy xx v).length = rows.length := by
  simp [gridSet]

theorem WFDims_gridSet {β : Type} {rows : List (List β)} {W H : Int}
    (hw : WFDims rows W H) (yy xx : Int) (v : β) :
    WFDims (gridSet rows yy xx v) W H := by
  by_cases hlen : yy.toNat < rows.length
  · refine ⟨by rw [length_gridSet]; exact hw.1, ?_⟩
    intro r hr
    rcases List.mem_or_eq_of_mem_set hr with h | h
    · exact hw.2 r h
    · subst h
      rw [List.length_set]
      exact hw.2 _ (getD_mem rows [] hlen)
  · unfold gridSet
    rw [List.set_eq_of_length_le (by omega)]
    exact hw

theorem gridGet_gridSet_self {β : Type} (d : β) {rows : List (List β)}
    {W H : Int} (hw : WFDims rows W H) {yy xx : Int} (hy0 : 0 ≤ yy)
    (hyH : yy < H) (hx0 : 0 ≤ xx) (hxW : xx < W) (v : β) :
    gridGet (gridSet rows yy xx v) d yy xx = v := by
  unfold gridGet gridSet
  have hyl : yy.toNat < rows.length := by rw [hw.1]; omega
  rw [getD_set_self [] rows hyl]
  have hrow : (rows.getD yy.toNat []).length = W.toNat :=
    hw.2 _ (getD_mem rows [] hyl)
  exact getD_set_self d _ (by rw [hrow]; omega) v

theorem gridGet_gridSet_ne {β : Type} (d : β) (rows : List (List β))
    {yy xx yy2 xx2 : Int} (h : yy.toNat ≠ yy2.toNat ∨ xx.toNat ≠ xx2.toNat)
    (v : β) :
    gridGet (gridSet rows yy xx v) d yy2 xx2 = gridGet rows d yy2 xx2 := by
  unfold gridGet gridSet
  rcases h with h | h
  · rw [getD_set_ne [] rows h]
  · by_cases hy : yy.toNat = yy2.toNat
    · rw [← hy]
      by_cases hlen : yy.toNat < rows.length
      · rw [getD_set_self [] rows hlen, getD_set_ne d _ h]
      · rw [getD_ge_length [] _ (by rw [List.length_set]; omega),
          getD_ge_length [] rows (by omega)]
    · rw [getD_set_ne [] rows hy]

theorem relaxNeighbor_cases (t : Bool) (g : List (List ℕ)) (W H gx gy : Int)
    (cur : PNode) (st : AState) (dxy : Int × Int) :
    relaxNeighbor t g W H gx gy cur st dxy = st ∨
    (0 ≤ cur.x + dxy.1 ∧ cur.x + dxy.1 < W ∧ 0 ≤ cur.y + dxy.2 ∧
      cur.y + dxy.2 < H ∧
      gridGet g 1 (cur.y + dxy.2) (cur.x + dxy.1) ≠ 1 ∧
      gridGet st.closed false (cur.y + dxy.2) (cur.x + dxy.1) ≠ true ∧
      relaxTest t (cur.g + 1)
        (manhattan (cur.x + dxy.1, cur.y + dxy.2) (gx, gy))
        (gridGet st.nodes PNode.dflt (cur.y + dxy.2) (cur.x + dxy.1)) ∧
      relaxNeighbor t g W H gx gy cur st dxy =
        relaxedState gx gy cur st (cur.x + dxy.1) (cur.y + dxy.2)) := by
  by_cases h1 : cur.x + dxy.1 < 0 ∨ cur.x + dxy.1 ≥ W ∨ cur.y + dxy.2 < 0 ∨
      cur.y + dxy.2 ≥ H ∨ gridGet g 1 (cur.y + dxy.2) (cur.x + dxy.1) = 1 ∨
      gridGet st.closed false (cur.y + dxy.2) (cur.x + dxy.1) = true
  · left
    simp only [relaxNeighbor]
    rw [if_pos h1]
  · by_cases h2 : relaxTest t (cur.g + 1)
      (manhattan (cur.x + dxy.1, cur.y + dxy.2) (gx, gy))
      (gridGet st.nodes PNode.dflt (cur.y + dxy.2) (cur.x + dxy.1))
    · right
      have h1c := h1
      push_neg at h1c
      obtain ⟨e1, e2, e3, e4, e5, e6⟩ := h1c
      refine ⟨by omega, by omega, by omega, by omega, e5, e6, h2, ?_⟩
      simp only [relaxNeighbor]
      rw [if_neg h1]
      have h2b : (if t = true then
          cur.g + 1 + manhattan (cur.x + dxy.1, cur.y + dxy.2) (gx, gy) <
            (gridGet st.nodes PNode.dflt (cur.y + dxy.2) (cur.x + dxy.1)).f
        else cur.g + 1 <
            (gridGet st.nodes PNode.dflt (cur.y + dxy.2) (cur.x + dxy.1)).g) := h2
      rw [if_pos h2b]
      rfl
    · left
      simp only [relaxNeighbor]
      rw [if_neg h1]
      have h2b : ¬ (if t = true then
          cur.g + 1 + manhattan (cur.x + dxy.1, cur.y + dxy.2) (gx, gy) <
            (gridGet st.nodes PNode.dflt (cur.y + dxy.2) (cur.x + dxy.1)).f
        else cur.g + 1 <
            (gridGet st.nodes PNode.dflt (cur.y + dxy.2) (cur.x + dxy.1)).g) := h2
      rw [if_neg h2b]

theorem relaxNeighbor_dims {t : Bool} {g : List (List ℕ)} {W H gx gy : Int}
    {cur : PNode} {st : AState} {dxy : Int × Int}
    (hd : WFDims st.nodes W H) :
    WFDims (relaxNeighbor t g W H gx gy cur st dxy).nodes W H := by
  rcases relaxNeighbor_cases t g W H gx gy cur st dxy with h | h
  · rw [h]; exact hd
  · rw [h.2.2.2.2.2.2.2]
    exact WFDims_gridSet hd _ _ _

theorem relaxNeighbor_heap_inBox {t : Bool} {g : List (List ℕ)}
    {W H gx gy : Int} {cur : PNode} {st : AState} {dxy : Int × Int}
    (hd : WFDims st.nodes W H)
    (hh : ∀ e ∈ st.heap, inBox W H (e.x, e.y)) :
    ∀ e ∈ (relaxNeighbor t g W H gx gy cur st dxy).heap,
      inBox W H (e.x, e.y) := by
  rcases relaxNeighbor_cases t g W H gx gy cur st dxy with h | h
  · rw [h]; exact hh
  · obtain ⟨b1, b2, b3, b4, _, _, _, heq⟩ := h
    rw [heq]
    intro e he
    unfold relaxedState at he
    simp only at he
    rcases (mem_heapPush_iff nodeKey PNode.dflt st.heap _ e).mp he with h2 | h2
    · exact hh e h2
    · subst h2
      rw [gridGet_gridSet_self PNode.dflt hd b3 b4 b1 b2]
      exact ⟨b1, b2, b3, b4⟩

theorem expandNode_unfold (t : Bool) (g : List (List ℕ)) (W H gx gy : Int)
    (cur : PNode) (st : AState) :
    expandNode t g W H gx gy cur st =
      relaxNeighbor t g W H gx gy cur
        (relaxNeighbor t g W H gx gy cur
          (relaxNeighbor t g W H gx gy cur
            (relaxNeighbor t g W H gx gy cur st (0, -1)) (0, 1)) (-1, 0))
        (1, 0) := rfl

theorem expandNode_dims {t : Bool} {g : List (List ℕ)} {W H gx gy : Int}
    {cur : PNode} {st : AState} (hd : WFDims st.nodes W H) :
    WFDims (expandNode t g W H gx gy cur st).nodes W H := by
  rw [expandNode_unfold]
  exact relaxNeighbor_dims (relaxNeighbor_dims (relaxNeighbor_dims
    (relaxNeighbor_dims hd)))

theorem expandNode_heap_inBox {t : Bool} {g : List (List ℕ)}
    {W H gx gy : Int} {cur : PNode} {st : AState}
    (hd : WFDims st.nodes W H)
    (hh : ∀ e ∈ st.heap, inBox W H (e.x, e.y)) :
    ∀ e ∈ (expandNode t g W H gx gy cur st).heap, inBox W H (e.x, e.y) := by
  rw [expandNode_unfold]
  exact relaxNeighbor_heap_inBox
    (relaxNeighbor_dims (relaxNeighbor_dims (relaxNeighbor_dims hd)))
    (relaxNeighbor_heap_inBox (relaxNeighbor_dims (relaxNeighbor_dims hd))
      (relaxNeighbor_heap_inBox (relaxNeighbor_dims hd)
        (relaxNeighbor_heap_inBox hd hh)))

/-- With every open-set entry inside the box and the goal outside it,
the loop can never report success. -/
theorem searchLoop_oob {t gf : Bool} {g : List (List ℕ)} {W H gx gy : Int}
    (hgoal : ¬ inBox W H (gx, gy)) :
    ∀ (fuel : ℕ) (st : AState), WFDims st.nodes W H →
      (∀ e ∈ st.heap, inBox W H (e.x, e.y)) →
      (searchLoop t gf g W H gx gy fuel st).1 = false := by
  intro fuel
  induction fuel with
  | zero => intro st _ _; rfl
  | succ fuel ih =>
    intro st hd hh
    rw [searchLoop]
    cases hheap : st.heap with
    | nil => rfl
    | cons a rest =>
      simp only
      have hmem : (a :: rest).headD PNode.dflt ∈ st.heap := by
        rw [hheap]
        exact List.mem_cons_self a rest
      have hcur : inBox W H (((a :: rest).headD PNode.dflt).x,
          ((a :: rest).headD PNode.dflt).y) := hh _ hmem
      have hpopsub : ∀ e ∈ heapPop nodeKey PNode.dflt (a :: rest), e ∈ st.heap := by
        intro e he
        rw [hheap]
        exact mem_heapPop_subset nodeKey PNode.dflt he
      rw [if_neg (by rintro ⟨_, e1, e2⟩; rw [e1, e2] at hcur; exact hgoal hcur)]
      split_ifs with hclosed hgl
      · apply ih
        · exact hd
        · intro e he
          exact hh e (hpopsub e he)
      · exfalso
        rw [hgl.2.1, hgl.2.2] at hcur
        exact hgoal hcur
      · exact ih _ (expandNode_dims hd)
          (expandNode_heap_inBox hd (fun e he => hh e (hpopsub e he)))

theorem WFDims_initNodes8 (W H : Int) : WFDims (initNodes8 W H) W H := by
  constructor
  · simp [initNodes8]
  · intro r hr
    rw [List.eq_of_mem_replicate hr]
    simp

theorem WFDims_initNodes7 (W H : Int) : WFDims (initNodes7 W H) W H := by
  constructor
  · unfold initNodes7
    rw [List.length_map, List.length_range]
  · intro r hr
    unfold initNodes7 at hr
    rw [List.mem_map] at hr
    obtain ⟨i, _, rfl⟩ := hr
    rw [List.length_map, List.length_range]

theorem astarCore_not_found {t gf : Bool} {nodes0 : List (List PNode)}
    {grid : List (List ℕ)} {W H sx sy gx gy : Int}
    (h : (searchLoop t gf grid W H gx gy (searchFuel W H)
      (astarInit nodes0 W H sx sy gx gy)).1 = false) :
    astarCore t gf nodes0 grid W H sx sy gx gy = [] := by
  simp only [astarCore]
  rw [h]
  rfl

theorem astarCore_found {t gf : Bool} {nodes0 : List (List PNode)}
    {grid : List (List ℕ)} {W H sx sy gx gy : Int}
    (h : (searchLoop t gf grid W H gx gy (searchFuel W H)
      (astarInit nodes0 W H sx sy gx gy)).1 = true) :
    astarCore t gf nodes0 grid W H sx sy gx gy =
      (reconstructPath (searchLoop t gf grid W H gx gy (searchFuel W H)
        (astarInit nodes0 W H sx sy gx gy)).2.nodes sx sy
        (W.toNat * H.toNat + 2) gx gy).reverse := by
  simp only [astarCore]
  rw [h]
  rfl

theorem WFDims_astarInit {nodes0 : List (List PNode)} {W H : Int}
    (hd : WFDims nodes0 W H) (sx sy gx gy : Int) :
    WFDims (astarInit nodes0 W H sx sy gx gy).nodes W H :=
  WFDims_gridSet hd _ _ _

theorem heapPush_nil {α : Type} (key : α → ℕ) (d : α) (v : α) :
    heapPush key d [] v = [v] := by
  unfold heapPush
  rw [List.nil_append]
  rw [siftUp_eq]
  simp

theorem astarInit_heap {nodes0 : List (List PNode)} {W H sx sy gx gy : Int} :
    (astarInit nodes0 W H sx sy gx gy).heap =
      [gridGet (gridSet nodes0 sy sx
        (mkNode sx sy 0 (manhattan (sx, sy) (gx, gy)) (-1) (-1)))
        PNode.dflt sy sx] := by
  simp only [astarInit]
  rw [heapPush_nil]

theorem astarInit_heap_start {nodes0 : List (List PNode)} {W H sx sy gx gy : Int}
    (hd : WFDims nodes0 W H) (hs : inBox W H (sx, sy)) :
    (astarInit nodes0 W H sx sy gx gy).heap =
      [mkNode sx sy 0 (manhattan (sx, sy) (gx, gy)) (-1) (-1)] := by
  rw [astarInit_heap,
    gridGet_gridSet_self PNode.dflt hd hs.2.2.1 hs.2.2.2 hs.1 hs.2.1]

/-- Both computePath variants return the empty path whenever the goal
cell lies outside the grid (the search can then never pop it). -/
theorem computePath_oob {grid : List (List ℕ)} {W H sx sy gx gy : Int}
    (hs : inBox W H (sx, sy)) (hgoal : ¬ inBox W H (gx, gy)) :
    computePath8 grid W H sx sy gx gy = [] ∧
    computePath7 grid W H sx sy gx gy = [] := by
  have key : ∀ (t gf : Bool) (nodes0 : List (List PNode)),
      WFDims nodes0 W H →
      astarCore t gf nodes0 grid W H sx sy gx gy = [] := by
    intro t gf nodes0 hd
    apply astarCore_not_found
    apply searchLoop_oob hgoal
    · exact WFDims_astarInit hd sx sy gx gy
    · rw [astarInit_heap_start hd hs]
      intro e he
      rw [List.mem_singleton] at he
      subst he
      exact hs
  exact ⟨key false true _ (WFDims_initNodes8 W H),
    key true false _ (WFDims_initNodes7 W H)⟩

theorem updateUnit_not_moving {u : GameUnit} (h : ¬(u.isMoving = true ∧ u.path ≠ [])) :
    updateUnit u = u := by
  unfold updateUnit
  rcases hp : u.path with _ | ⟨c, rest⟩
  · cases hm : u.isMoving <;> rfl
  · cases hm : u.isMoving
    · rfl
    · exact absurd ⟨hm, by rw [hp]; simp⟩ h

theorem updateUnit_step {u : GameUnit} {c : Int × Int} {rest : List (Int × Int)}
    (hm : u.isMoving = true) (hp : u.path = c :: rest) :
    updateUnit u = { u with x := c.1, y := c.2, path := rest, isMoving := if rest.isEmpty then false else u.isMoving } := by
  unfold updateUnit
  rw [hp, hm]

theorem updateUnit_inv (u : GameUnit) (h : unitInv u) : unitInv (updateUnit u) := by
  by_cases hc : u.isMoving = true ∧ u.path ≠ []
  · obtain ⟨hm, hp⟩ := hc
    rcases he : u.path with _ | ⟨c, rest⟩
    · exact absurd he hp
    · rw [updateUnit_step hm he]
      intro hmov
      by_cases hrest : rest = []
      · subst hrest
        simp at hmov
      · simpa using hrest
  · rw [updateUnit_not_moving hc]
    exact h

theorem updateUM_getD (st : UMState) (i : ℕ) :
    (updateUM st).units.getD i u0 = updateUnit (st.units.getD i u0) := by
  unfold updateUM
  simp only
  have h1 := @List.getD_map GameUnit GameUnit st.units u0 i updateUnit
  rw [show updateUnit u0 = u0 from rfl] at h1
  exact h1

theorem updateUM_iter_getD (st : UMState) (i : ℕ) :
    ∀ k, (updateUM^[k] st).units.getD i u0 = updateUnit^[k] (st.units.getD i u0) := by
  intro k
  induction k generalizing st with
  | zero => rfl
  | succ k ih =>
    rw [Function.iterate_succ_apply, Function.iterate_succ_apply, ← updateUM_getD]
    exact ih (updateUM st)

/-- Following a unit across as many ticks as its path is long: it ends
idle at the path end, with the destination fields untouched. -/
theorem updateUnit_iter_consumes :
    ∀ (p : List (Int × Int)) (u : GameUnit), u.isMoving = true → u.path = p →
      p ≠ [] → p.getLast? = some (u.destX, u.destY) →
      (updateUnit^[p.length] u).x = u.destX ∧
      (updateUnit^[p.length] u).y = u.destY ∧
      (updateUnit^[p.length] u).path = [] ∧
      (updateUnit^[p.length] u).isMoving = false ∧
      (updateUnit^[p.length] u).destX = u.destX ∧
      (updateUnit^[p.length] u).destY = u.destY := by
  intro p
  induction p with
  | nil => intro u _ _ hne _; exact absurd rfl hne
  | cons c rest ih =>
    intro u hm hp hne hlast
    rw [List.length_cons, Function.iterate_succ_apply, updateUnit_step hm hp]
    by_cases hrest : rest = []
    · subst hrest
      have hc : c = (u.destX, u.destY) := by simpa using hlast
      subst hc
      simp
    · have hre : rest.isEmpty = false := by
        rcases rest with _ | ⟨a, b⟩
        · exact absurd rfl hrest
        · rfl
      have hcond : (if rest.isEmpty then false else u.isMoving) = true := by
        rw [hre, hm]; rfl
      rw [hcond]
      have hlast2 : rest.getLast? = some (u.destX, u.destY) := by
        rcases rest with _ | ⟨c2, r2⟩
        · exact absurd rfl hrest
        · rw [List.getLast?_cons_cons] at hlast
          exact hlast
      have hres := ih { u with x := c.1, y := c.2, path := rest, isMoving := true } rfl rfl hrest hlast2
      simpa using hres

/-! ### Facts about the chat input loops -/

theorem inputLoop7_eq (lines : List String) :
    inputLoop7 lines = lines.takeWhile (fun l => l != "/exit") := by
  induction lines with
  | nil => rfl
  | cons line rest ih =>
    unfold inputLoop7
    rw [List.takeWhile_cons]
    by_cases h : line = "/exit"
    · subst h
      rw [if_pos rfl, if_neg (by simp)]
    · rw [if_neg h, if_pos (by simpa [bne_iff_ne] using h), ih]

theorem inputLoop8_eq (lines : List String) :
    inputLoop8 lines =
      ((lines.takeWhile (fun l => l != "/exit")).filter
        (fun l => l != "")).map (fun l => "Player: " ++ l) := by
  induction lines with
  | nil => rfl
  | cons line rest ih =>
    unfold inputLoop8
    rw [List.takeWhile_cons]
    by_cases hempty : line = ""
    · subst hempty
      rw [if_neg (by simp), if_pos (by decide), List.filter_cons,
        if_neg (by decide)]
      exact ih
    · rw [if_pos hempty]
      by_cases hexit : line = "/exit"
      · subst hexit
        rw [if_pos rfl, if_neg (by decide)]
        rfl
      · rw [if_neg hexit, if_pos (by simpa [bne_iff_ne] using hexit),
          List.filter_cons, if_pos (by simpa [bne_iff_ne] using hempty),
          List.map_cons, ih]

/-! ### Claims C5 to C10 -/

/-- C5: a moving unit with a path of length `k > 0` ending at its
destination loses exactly the front cell on one `update` call (its
current cell becoming that cell), and after `k` calls it stands idle at
its destination with an empty path. -/
theorem claim_C5 :
    ∀ (st : UMState) (i k : ℕ), i < st.units.length →
      (st.units.getD i u0).isMoving = true →
      (st.units.getD i u0).path.length = k → 0 < k →
      (st.units.getD i u0).path.getLast? =
        some ((st.units.getD i u0).destX, (st.units.getD i u0).destY) →
      ((updateUM st).units.getD i u0).path = (st.units.getD i u0).path.tail ∧
      ((updateUM st).units.getD i u0).path.length = k - 1 ∧
      some (((updateUM st).units.getD i u0).x,
        ((updateUM st).units.getD i u0).y) = (st.units.getD i u0).path.head? ∧
      ((updateUM^[k] st).units.getD i u0).x = (st.units.getD i u0).destX ∧
      ((updateUM^[k] st).units.getD i u0).y = (st.units.getD i u0).destY ∧
      ((updateUM^[k] st).units.getD i u0).path = [] ∧
      ((updateUM^[k] st).units.getD i u0).isMoving = false := by
  intro st i k hi hmov hlen hpos hlast
  rcases hp : (st.units.getD i u0).path with _ | ⟨c, rest⟩
  · rw [hp] at hlen
    simp at hlen
    omega
  · have hstep := updateUnit_step hmov hp
    have h1 := updateUM_getD st i
    rw [hstep] at h1
    have hiter := updateUM_iter_getD st i k
    have hcons : (st.units.getD i u0).path ≠ [] := by rw [hp]; simp
    have hmain := updateUnit_iter_consumes (st.units.getD i u0).path
      (st.units.getD i u0) hmov rfl hcons hlast
    rw [hlen] at hmain
    refine ⟨?_, ?_, ?_, ?_, ?_, ?_, ?_⟩
    · rw [h1]
      rfl
    · rw [h1]
      show rest.length = k - 1
      rw [hp] at hlen
      simp only [List.length_cons] at hlen
      omega
    · rw [h1]
      rfl
    · rw [hiter]; exact hmain.1
    · rw [hiter]; exact hmain.2.1
    · rw [hiter]; exact hmain.2.2.1
    · rw [hiter]; exact hmain.2.2.2.1

theorem claim_C5_witness :
    0 < movingState.units.length ∧
    ((updateUM^[1] movingState).units.getD 0 u0).x = 1 ∧
    ((updateUM^[1] movingState).units.getD 0 u0).isMoving = false := by
  have h := claim_C5 movingState 0 1 (by decide) (by decide) (by decide)
    (by decide) (by decide)
  refine ⟨by decide, ?_, h.2.2.2.2.2.2⟩
  have hx := h.2.2.2.1
  rw [show (movingState.units.getD 0 u0).destX = 1 from rfl] at hx
  exact hx

/-- C7: the invariant "in motion implies non-empty path" holds for every
unit after module initialisation and is preserved by both
setDestination variants and by the per-tick update. -/
theorem claim_C7 :
    (∀ u ∈ initUM.units, unitInv u) ∧
    (∀ (st : UMState) (i : ℕ) (dx dy : Int), (∀ u ∈ st.units, unitInv u) →
      ∀ u ∈ (setDestination8 st i dx dy).units, unitInv u) ∧
    (∀ (st : UMState) (ix dx dy : Int), (∀ u ∈ st.units, unitInv u) →
      ∀ u ∈ (setDestination7 st ix dx dy).units, unitInv u) ∧
    (∀ (st : UMState), (∀ u ∈ st.units, unitInv u) →
      ∀ u ∈ (updateUM st).units, unitInv u) := by
  refine ⟨?_, ?_, ?_, ?_⟩
  · intro u hu
    simp only [initUM, List.mem_cons, List.not_mem_nil, or_false] at hu
    rcases hu with rfl | rfl | rfl <;> (intro h; cases h)
  · intro st i dx dy hinv u hu
    unfold setDestination8 at hu
    split_ifs at hu with h
    · exact hinv u hu
    · simp only at hu
      rcases List.mem_or_eq_of_mem_set hu with h2 | h2
      · exact hinv u h2
      · subst h2
        intro hmov
        simp only at hmov
        simp only [Bool.not_eq_true'] at hmov
        simpa [List.isEmpty_iff] using hmov
  · intro st ix dx dy hinv u hu
    unfold setDestination7 at hu
    split_ifs at hu with h
    · exact hinv u hu
    · simp only at hu
      rcases List.mem_or_eq_of_mem_set hu with h2 | h2
      · exact hinv u h2
      · subst h2
        intro hmov
        simp only at hmov
        simp only [Bool.not_eq_true'] at hmov
        simpa [List.isEmpty_iff] using hmov
  · intro st hinv u hu
    unfold updateUM at hu
    simp only [List.mem_map] at hu
    obtain ⟨v, hv, rfl⟩ := hu
    exact updateUnit_inv v (hinv v hv)

theorem claim_C7_witness :
    (∀ u ∈ miniState.units, unitInv u) ∧
    (∀ u ∈ (updateUM (setDestination8 miniState 0 1 0)).units, unitInv u) := by
  have h0 : ∀ u ∈ miniState.units, unitInv u := by decide
  exact ⟨h0, (claim_C7.2.2.2 _ (claim_C7.2.1 miniState 0 1 0 h0))⟩

/-- C8 counterexample: the part_007 orchestrator joins the loop thread
but then shuts its modules down in forward registration order, not in
the reverse of the init order. -/
theorem claim_C8_counterexample :
    shutdownEvents7 (initCallOrder [0, 1]) ≠
      SDEvent.joinThread ::
        ((initCallOrder ([0, 1] : List ℕ)).reverse.map SDEvent.moduleShutdown) := by
  decide

/-- C8 as amended: the part_008 controller joins and then shuts down in
reverse init order; the part_007 engine and the gameplay_stitched engine
join and then shut down in forward init order. -/
theorem claim_C8_amended :
    ∀ (m : Type) (mods : List m),
      shutdownEvents8 mods =
        SDEvent.joinThread ::
          ((initCallOrder mods).reverse.map SDEvent.moduleShutdown) ∧
      shutdownEvents7 mods =
        SDEvent.joinThread :: ((initCallOrder mods).map SDEvent.moduleShutdown) ∧
      shutdownEventsStitched mods =
        SDEvent.joinThread :: ((initCallOrder mods).map SDEvent.moduleShutdown) :=
  fun m mods => ⟨rfl, rfl, rfl⟩

/-- C9 counterexample: the part_008 chat loop does not queue lines
unchanged; the line `hi` is queued as `Player: hi`. -/
theorem claim_C9_counterexample : inputLoop8 ["hi"] ≠ ["hi"] := by decide

/-- C9 as amended: the part_007 loop queues every line before the first
`/exit` unchanged and stops there; the part_008 loop additionally drops
empty lines and prepends `Player: ` to each queued line. -/
theorem claim_C9_amended :
    ∀ (lines : List String),
      inputLoop7 lines = lines.takeWhile (fun l => l != "/exit") ∧
      inputLoop8 lines =
        ((lines.takeWhile (fun l => l != "/exit")).filter
          (fun l => l != "")).map (fun l => "Player: " ++ l) :=
  fun lines => ⟨inputLoop7_eq lines, inputLoop8_eq lines⟩

/-- C10: with an in-range index, both setDestination variants leave the
grid, its dimensions, the unit count and every other unit untouched. -/
theorem claim_C10 :
    (∀ (st : UMState) (i : ℕ) (dx dy : Int), i < st.units.length →
      (setDestination8 st i dx dy).grid = st.grid ∧
      (setDestination8 st i dx dy).gridWidth = st.gridWidth ∧
      (setDestination8 st i dx dy).gridHeight = st.gridHeight ∧
      (setDestination8 st i dx dy).units.length = st.units.length ∧
      ∀ j, j < st.units.length → j ≠ i →
        (setDestination8 st i dx dy).units.getD j u0 = st.units.getD j u0) ∧
    (∀ (st : UMState) (ix dx dy : Int), 0 ≤ ix →
      ix < (st.units.length : Int) →
      (setDestination7 st ix dx dy).grid = st.grid ∧
      (setDestination7 st ix dx dy).gridWidth = st.gridWidth ∧
      (setDestination7 st ix dx dy).gridHeight = st.gridHeight ∧
      (setDestination7 st ix dx dy).units.length = st.units.length ∧
      ∀ j, j < st.units.length → j ≠ ix.toNat →
        (setDestination7 st ix dx dy).units.getD j u0 = st.units.getD j u0) := by
  constructor
  · intro st i dx dy hi
    unfold setDestination8
    rw [if_neg (by omega)]
    refine ⟨rfl, rfl, rfl, by simp, ?_⟩
    intro j hj hne
    simp only
    exact getD_set_ne u0 st.units (fun h => hne h.symm) _
  · intro st ix dx dy h0 hlt
    unfold setDestination7
    rw [if_neg (by omega)]
    refine ⟨rfl, rfl, rfl, by simp, ?_⟩
    intro j hj hne
    simp only
    exact getD_set_ne u0 st.units (fun h => hne h.symm) _

theorem claim_C10_witness :
    0 < c6State.units.length ∧
    (setDestination8 c6State 0 2 2).grid = c6State.grid :=
  ⟨by decide, (claim_C10.1 c6State 0 2 2 (by decide)).1⟩

/-- C6 counterexample: `setDestination` performs no destination-bounds
validation; with a valid unit index and the out-of-bounds destination
`(5, 5)` on a 3 by 3 grid it overwrites the destination fields of the
unit (and returns no error value, its return type being void). -/
theorem claim_C6_counterexample :
    ¬ inBox c6State.gridWidth c6State.gridHeight (5, 5) ∧
    (setDestination8 c6State 0 5 5).units ≠ c6State.units := by
  constructor
  · decide
  · decide

/-- C6 as amended: an out-of-range unit index leaves the whole state
untouched in both variants, but no error value is reported (the
functions return void); an in-bounds-positioned unit sent to an
out-of-bounds destination has its destination overwritten, its path
emptied (the search cannot reach the goal) and its flag cleared. -/
theorem claim_C6_amended :
    (∀ (st : UMState) (i : ℕ) (dx dy : Int), st.units.length ≤ i →
      setDestination8 st i dx dy = st) ∧
    (∀ (st : UMState) (ix dx dy : Int), ix < 0 ∨ (st.units.length : Int) ≤ ix →
      setDestination7 st ix dx dy = st) ∧
    (∀ (st : UMState) (i : ℕ) (dx dy : Int), i < st.units.length →
      inBox st.gridWidth st.gridHeight
        ((st.units.getD i u0).x, (st.units.getD i u0).y) →
      ¬ inBox st.gridWidth st.gridHeight (dx, dy) →
      (setDestination8 st i dx dy).units.getD i u0 =
        { st.units.getD i u0 with destX := dx, destY := dy, path := [], isMoving := false } ∧
      (setDestination7 st (i : Int) dx dy).units.getD i u0 =
        { st.units.getD i u0 with destX := dx, destY := dy, path := [], isMoving := false }) := by
  refine ⟨?_, ?_, ?_⟩
  · intro st i dx dy h
    unfold setDestination8
    rw [if_pos h]
  · intro st ix dx dy h
    unfold setDestination7
    rw [if_pos h]
  · intro st i dx dy hi hpos hoob
    have hcp := @computePath_oob st.grid st.gridWidth st.gridHeight
      (st.units.getD i u0).x (st.units.getD i u0).y dx dy hpos hoob
    have hu : GameUnit.mk0 "" 0 0 0 = u0 := rfl
    constructor
    · unfold setDestination8
      rw [if_neg (by omega)]
      simp only [hu]
      rw [getD_set_self u0 st.units hi, hcp.1]
      rfl
    · unfold setDestination7
      rw [if_neg (by push_neg; omega)]
      simp only [hu, Int.toNat_natCast]
      rw [getD_set_self u0 st.units hi, hcp.2]
      rfl

theorem claim_C6_amended_witness :
    c6State.units.length ≤ 5 ∧ setDestination8 c6State 5 0 0 = c6State :=
  ⟨by decide, claim_C6_amended.1 c6State 5 0 0 (by decide)⟩

/-! ### Further walk lemmas: the Manhattan heuristic is consistent -/

theorem manhattan_self (a : Cell) : manhattan a a = 0 := by
  unfold manhattan
  omega

theorem manhattan_triangle (a b c : Cell) :
    manhattan a c ≤ manhattan a b + manhattan b c := by
  unfold manhattan
  omega

theorem manhattan_comm (a b : Cell) : manhattan a b = manhattan b a := by
  unfold manhattan
  omega

/-- A step sequence cannot shortcut the Manhattan distance: each step
changes it by at most one. -/
theorem validSteps_manhattan {isOpen : Cell → Bool} :
    ∀ {p : List Cell} {s : Cell}, ValidSteps isOpen s p →
      manhattan s (lastCell s p) ≤ p.length := by
  intro p
  induction p with
  | nil =>
    intro s _
    rw [show lastCell s [] = s from rfl, manhattan_self]
    exact Nat.zero_le _
  | cons d rest ih =>
    intro s hv
    obtain ⟨hadj, _, hv2⟩ := hv
    rw [lastCell_cons]
    calc manhattan s (lastCell d rest)
        ≤ manhattan s d + manhattan d (lastCell d rest) := manhattan_triangle _ _ _
      _ ≤ 1 + rest.length := by
          have := ih hv2
          unfold Adj at hadj
          omega
      _ = (d :: rest).length := by simp [Nat.add_comm]

theorem reach_manhattan {isOpen : Cell → Bool} {s t : Cell} {n : ℕ}
    (h : Reach isOpen s t n) : manhattan s t ≤ n := by
  obtain ⟨p, hv, hl, he⟩ := h
  have := validSteps_manhattan hv
  rw [he, hl] at this
  exact this

theorem minReach_le_of_reach {isOpen : Cell → Bool} {s t : Cell} {d k : ℕ}
    (hm : MinReach isOpen s t d) (hr : Reach isOpen s t k) : d ≤ k := by
  by_contra h
  exact hm.2 k (by omega) hr

theorem minReach_unique {isOpen : Cell → Bool} {s t : Cell} {d d2 : ℕ}
    (h1 : MinReach isOpen s t d) (h2 : MinReach isOpen s t d2) : d = d2 :=
  Nat.le_antisymm (minReach_le_of_reach h1 h2.1) (minReach_le_of_reach h2 h1.1)

theorem minReach_self (isOpen : Cell → Bool) (s : Cell) :
    MinReach isOpen s s 0 :=
  ⟨reach_zero, fun k hk => absurd hk (Nat.not_lt_zero k)⟩

theorem minReach_zero_eq {isOpen : Cell → Bool} {s t : Cell}
    (h : MinReach isOpen s t 0) : s = t := by
  obtain ⟨⟨p, _, hl, he⟩, _⟩ := h
  have : p = [] := List.length_eq_zero.mp hl
  subst this
  exact he

/-- Peel the last step off a walk of positive length. -/
theorem reach_succ_pred {isOpen : Cell → Bool} {s t : Cell} {n : ℕ}
    (h : Reach isOpen s t (n + 1)) :
    ∃ u, Reach isOpen s u n ∧ Adj u t ∧ isOpen t = true := by
  obtain ⟨p, hv, hl, he⟩ := h
  have hpne : p ≠ [] := by
    intro he2; subst he2; simp at hl
  obtain hsplit := List.dropLast_append_getLast hpne
  set q := p.dropLast with hq
  set z := p.getLast hpne with hz
  have hv2 : ValidSteps isOpen s q ∧
      ValidSteps isOpen (lastCell s q) [z] := by
    rw [← validSteps_append, hsplit]; exact hv
  have hlast : lastCell s p = z := by
    rw [← hsplit, lastCell_append]; rfl
  have hlen : q.length = n := by
    rw [hq, List.length_dropLast, hl]
    omega
  refine ⟨lastCell s p.dropLast, ⟨p.dropLast, hv2.1, hlen, rfl⟩, ?_, ?_⟩
  · rw [← he, hlast]
    exact hv2.2.1
  · rw [← he, hlast]
    exact hv2.2.2.1

/-- The cell before the end of a shortest walk is itself at shortest
distance one less: prefixes of shortest walks are shortest. -/
theorem minReach_pred {isOpen : Cell → Bool} {s t : Cell} {d : ℕ}
    (h : MinReach isOpen s t (d + 1)) :
    ∃ u, MinReach isOpen s u d ∧ Adj u t ∧ isOpen t = true := by
  obtain ⟨u, hr, hadj, hopen⟩ := reach_succ_pred h.1
  refine ⟨u, ⟨hr, ?_⟩, hadj, hopen⟩
  intro k hk hrk
  exact h.2 (k + 1) (by omega) (reach_step hrk hadj hopen)

theorem minReach_adj {isOpen : Cell → Bool} {s c w : Cell} {dc : ℕ}
    (h : MinReach isOpen s c dc) (hadj : Adj c w) (hopen : isOpen w = true) :
    ∃ dw, MinReach isOpen s w dw ∧ dw ≤ dc + 1 := by
  obtain ⟨dw, hle, hm⟩ := reach_minReach (reach_step h.1 hadj hopen)
  exact ⟨dw, hm, hle⟩

section HeapSum

variable {α : Type} (key : α → ℕ) (f : α → ℕ) (d : α)

theorem heapSum_set : ∀ (l : List α) (i : ℕ) (v : α), i < l.length →
    heapSum f (l.set i v) + f (l.getD i d) = heapSum f l + f v := by
  intro l
  induction l with
  | nil => intro i v hi; cases hi
  | cons a t ih =>
    intro i v hi
    cases i with
    | zero =>
      show heapSum f (v :: t) + f a = heapSum f (a :: t) + f v
      show f v + heapSum f t + f a = f a + heapSum f t + f v
      omega
    | succ j =>
      show heapSum f (a :: t.set j v) + f (t.getD j d) = heapSum f (a :: t) + f v
      have hj : j < t.length := by
        simp only [List.length_cons] at hi
        omega
      have := ih j v hj
      show f a + heapSum f (t.set j v) + f (t.getD j d) =
        f a + heapSum f t + f v
      omega

theorem heapSum_hSwap (l : List α) {i j : ℕ} (hi : i < l.length)
    (hj : j < l.length) : heapSum f (hSwap d l i j) = heapSum f l := by
  unfold hSwap
  have h1 := heapSum_set f d l i (l.getD j d) hi
  have hj2 : j < (l.set i (l.getD j d)).length := by
    rw [List.length_set]; exact hj
  have h2 := heapSum_set f d (l.set i (l.getD j d)) j (l.getD i d) hj2
  have hget : (l.set i (l.getD j d)).getD j d = l.getD j d := by
    by_cases hij : i = j
    · subst hij
      exact getD_set_self d l hi _
    · exact getD_set_ne d l hij _
  rw [hget] at h2
  omega

theorem heapSum_siftUpF : ∀ (fuel : ℕ) (l : List α) (i : ℕ), i < l.length →
    heapSum f (siftUpF key d fuel l i) = heapSum f l := by
  intro fuel
  induction fuel with
  | zero => intro l i _; rfl
  | succ fuel ih =>
    intro l i hi
    show heapSum f (if i = 0 then l
      else if key (l.getD ((i - 1) / 2) d) > key (l.getD i d) then
        siftUpF key d fuel (hSwap d l ((i - 1) / 2) i) ((i - 1) / 2)
      else l) = heapSum f l
    split_ifs with h0 hgt
    · rfl
    · rw [ih _ _ (by rw [length_hSwap]; omega)]
      exact heapSum_hSwap f d l (by omega) hi
    · rfl

theorem heapSum_siftDownF : ∀ (fuel : ℕ) (l : List α) (i : ℕ),
    heapSum f (siftDownF key d fuel l i) = heapSum f l := by
  intro fuel
  induction fuel with
  | zero => intro l i; rfl
  | succ fuel ih =>
    intro l i
    show heapSum f (if 2 * i + 1 < l.length then
      if key (l.getD (hChild key d l i) d) > key (l.getD i d) then l
      else siftDownF key d fuel (hSwap d l i (hChild key d l i))
        (hChild key d l i) else l) = heapSum f l
    split_ifs with h1 hgt
    · rfl
    · rw [ih]
      exact heapSum_hSwap f d l (by omega) (hChild_lt_length key d l i h1)
    · rfl

theorem heapSum_heapPush (l : List α) (v : α) :
    heapSum f (heapPush key d l v) = heapSum f l + f v := by
  unfold heapPush siftUp
  rw [heapSum_siftUpF key f d _ _ _ (by simp)]
  unfold heapSum
  simp

theorem heapSum_heapPop {l : List α} (hne : l ≠ []) :
    heapSum f (heapPop key d l) + f (l.headD d) = heapSum f l := by
  unfold heapPop
  cases l with
  | nil => exact absurd rfl hne
  | cons a t =>
    cases t with
    | nil =>
      rw [if_pos (by simp)]
      show 0 + f a = heapSum f [a]
      show 0 + f a = f a + 0
      omega
    | cons b t2 =>
      rw [if_neg (by simp)]
      unfold siftDown
      rw [heapSum_siftDownF]
      have htne : (b :: t2) ≠ [] := by simp
      obtain hsplit := List.dropLast_append_getLast htne
      show heapSum f ((a :: b :: t2).getLastD d :: (b :: t2).dropLast) + f a =
        heapSum f (a :: b :: t2)
      rw [List.getLastD_cons]
      have hgl : (b :: t2).getLastD a = (b :: t2).getLast htne := by
        rw [List.getLastD_eq_getLast?, List.getLast?_eq_getLast _ htne]
        rfl
      rw [hgl]
      have hsum : heapSum f (b :: t2) =
          heapSum f ((b :: t2).dropLast) + f ((b :: t2).getLast htne) := by
        conv_lhs => rw [← hsplit]
        unfold heapSum
        simp
      show f ((b :: t2).getLast htne) + heapSum f ((b :: t2).dropLast) + f a =
        f a + heapSum f (b :: t2)
      omega

end HeapSum

theorem getD_replicate {β : Type} (a dflt : β) :
    ∀ (n i : ℕ), (List.replicate n a).getD i dflt = if i < n then a else dflt := by
  intro n
  induction n with
  | zero => intro i; simp [List.replicate]
  | succ n ih =>
    intro i
    cases i with
    | zero => simp [List.replicate]
    | succ j =>
      show (List.replicate n a).getD j dflt = _
      rw [ih j]
      by_cases h : j < n
      · rw [if_pos h, if_pos (by omega)]
      · rw [if_neg h, if_neg (by omega)]

theorem count_set_true : ∀ (r : List Bool) (i : ℕ), i < r.length →
    r.getD i false = false →
    (r.set i true).count true = r.count true + 1 := by
  intro r
  induction r with
  | nil => intro i hi; cases hi
  | cons a t ih =>
    intro i hi hf
    cases i with
    | zero =>
      have ha : a = false := hf
      subst ha
      show (true :: t).count true = (false :: t).count true + 1
      simp [List.count_cons]
    | succ j =>
      have hj : j < t.length := by
        simp only [List.length_cons] at hi
        omega
      show (a :: t.set j true).count true = (a :: t).count true + 1
      have := ih j hj hf
      simp only [List.count_cons, this]
      omega

theorem countTrue_rows_le : ∀ (rows : List (List Bool)) (wn : ℕ),
    (∀ r ∈ rows, r.length = wn) → countTrue rows ≤ rows.length * wn := by
  intro rows
  induction rows with
  | nil => intro wn _; simp [countTrue]
  | cons r rest ih =>
    intro wn hw
    show r.count true + countTrue rest ≤ (rest.length + 1) * wn
    have h1 : r.count true ≤ wn := by
      rw [← hw r (List.mem_cons_self r rest)]
      exact List.count_le_length true r
    have h2 := ih wn (fun q hq => hw q (List.mem_cons_of_mem r hq))
    have : (rest.length + 1) * wn = rest.length * wn + wn := by ring
    omega

theorem countTrue_le_area {rows : List (List Bool)} {W H : Int}
    (hd : WFDims rows W H) : countTrue rows ≤ H.toNat * W.toNat := by
  have := countTrue_rows_le rows W.toNat hd.2
  rw [hd.1] at this
  exact this

theorem countTrue_gridSet {closed : List (List Bool)} {W H : Int}
    (hd : WFDims closed W H) {c : Cell} (hc : inBox W H c)
    (hf : gridGet closed false c.2 c.1 = false) :
    countTrue (gridSet closed c.2 c.1 true) = countTrue closed + 1 := by
  obtain ⟨h1, h2, h3, h4⟩ := hc
  have hy : c.2.toNat < closed.length := by
    rw [hd.1]; omega
  have hrow : (closed.getD c.2.toNat []).length = W.toNat :=
    hd.2 _ (getD_mem closed [] hy)
  have hx : c.1.toNat < (closed.getD c.2.toNat []).length := by
    rw [hrow]; omega
  have hcell : (closed.getD c.2.toNat []).getD c.1.toNat false = false := hf
  have hset := heapSum_set (fun r => r.count true) [] closed c.2.toNat
    ((closed.getD c.2.toNat []).set c.1.toNat true) hy
  have hcnt := count_set_true (closed.getD c.2.toNat []) c.1.toNat hx hcell
  show countTrue (closed.set c.2.toNat
    ((closed.getD c.2.toNat []).set c.1.toNat true)) = countTrue closed + 1
  have he1 : countTrue (closed.set c.2.toNat
      ((closed.getD c.2.toNat []).set c.1.toNat true)) =
      heapSum (fun r => r.count true) (closed.set c.2.toNat
        ((closed.getD c.2.toNat []).set c.1.toNat true)) := rfl
  have he2 : countTrue closed = heapSum (fun r => r.count true) closed := rfl
  rw [he1, he2]
  simp only at hset
  omega

theorem WFDims_initClosed (W H : Int) : WFDims (initClosed W H) W H := by
  constructor
  · simp [initClosed]
  · intro r hr
    rw [List.eq_of_mem_replicate hr]
    simp

theorem countTrue_initClosed (W H : Int) : countTrue (initClosed W H) = 0 := by
  unfold countTrue initClosed
  rw [List.map_replicate]
  have : (List.replicate W.toNat false).count true = 0 := by
    rw [List.count_replicate]
    rfl
  rw [this]
  simp

theorem gridGet_initClosed (W H : Int) (yy xx : Int) :
    gridGet (initClosed W H) false yy xx = false := by
  unfold gridGet initClosed
  rw [getD_replicate]
  by_cases h : yy.toNat < H.toNat
  · rw [if_pos h, getD_replicate]
    by_cases h2 : xx.toNat < W.toNat
    · rw [if_pos h2]
    · rw [if_neg h2]
  · rw [if_neg h]
    rfl

theorem INF_pos : 0 < INF := by
  unfold INF
  positivity

theorem open8_true_iff {grid : List (List ℕ)} {W H : Int} {c : Cell} :
    open8 grid W H c = true ↔ inBox W H c ∧ gridGet grid 1 c.2 c.1 ≠ 1 := by
  unfold open8
  rw [Bool.and_eq_true, decide_eq_true_iff, Bool.not_eq_true']
  unfold inBox
  constructor
  · rintro ⟨h1, h2⟩
    exact ⟨h1, by simpa using h2⟩
  · rintro ⟨h1, h2⟩
    exact ⟨h1, by simpa using h2⟩

theorem open8_inBox {grid : List (List ℕ)} {W H : Int} {c : Cell}
    (h : open8 grid W H c = true) : inBox W H c :=
  (open8_true_iff.mp h).1

theorem manhattan_lt_of_inBox {W H : Int} {a b : Cell}
    (ha : inBox W H a) (hb : inBox W H b) :
    manhattan a b < W.toNat + H.toNat := by
  obtain ⟨a1, a2, a3, a4⟩ := ha
  obtain ⟨b1, b2, b3, b4⟩ := hb
  unfold manhattan
  omega

theorem gridGet_toNat_congr {β : Type} (rows : List (List β)) (d : β)
    {yy xx yy2 xx2 : Int} (hy : yy.toNat = yy2.toNat)
    (hx : xx.toNat = xx2.toNat) :
    gridGet rows d yy xx = gridGet rows d yy2 xx2 := by
  unfold gridGet
  rw [hy, hx]

theorem cell_eq_of_toNat {W H : Int} {c c2 : Cell} (hc : inBox W H c)
    (hc2 : inBox W H c2) (h1 : c.1.toNat = c2.1.toNat)
    (h2 : c.2.toNat = c2.2.toNat) : c = c2 := by
  obtain ⟨a1, a2, a3, a4⟩ := hc
  obtain ⟨b1, b2, b3, b4⟩ := hc2
  obtain ⟨x, y⟩ := c
  obtain ⟨x2, y2⟩ := c2
  simp only [Prod.mk.injEq]
  simp only at a1 a2 a3 a4 b1 b2 b3 b4 h1 h2
  omega

theorem nodeAt_gridSet_self {nodes : List (List PNode)} {W H : Int}
    (hd : WFDims nodes W H) {w : Cell} (hw : inBox W H w) (v : PNode) :
    nodeAt (gridSet nodes w.2 w.1 v) w = v :=
  gridGet_gridSet_self PNode.dflt hd hw.2.2.1 hw.2.2.2 hw.1 hw.2.1 v

theorem nodeAt_gridSet_other {nodes : List (List PNode)} {W H : Int}
    {w c : Cell} (hw : inBox W H w) (hc : inBox W H c) (hne : c ≠ w)
    (v : PNode) : nodeAt (gridSet nodes w.2 w.1 v) c = nodeAt nodes c := by
  unfold nodeAt
  refine gridGet_gridSet_ne PNode.dflt nodes ?_ v
  by_contra h
  push_neg at h
  exact hne (cell_eq_of_toNat hc hw h.2.symm h.1.symm)

theorem closedAt_gridSet_self {closed : List (List Bool)} {W H : Int}
    (hd : WFDims closed W H) {w : Cell} (hw : inBox W H w) (v : Bool) :
    closedAt (gridSet closed w.2 w.1 v) w = v :=
  gridGet_gridSet_self false hd hw.2.2.1 hw.2.2.2 hw.1 hw.2.1 v

theorem closedAt_gridSet_other {closed : List (List Bool)} {W H : Int}
    {w c : Cell} (hw : inBox W H w) (hc : inBox W H c) (hne : c ≠ w)
    (v : Bool) : closedAt (gridSet closed w.2 w.1 v) c = closedAt closed c := by
  unfold closedAt
  refine gridGet_gridSet_ne false closed ?_ v
  by_contra h
  push_neg at h
  exact hne (cell_eq_of_toNat hc hw h.2.symm h.1.symm)

theorem reach_pos_open {isOpen : Cell → Bool} {s u : Cell} {n : ℕ}
    (h : Reach isOpen s u (n + 1)) : isOpen u = true := by
  obtain ⟨_, _, _, ho⟩ := reach_succ_pred h
  exact ho

/-- Under the invariant shapes, both variants' relaxation tests are
equivalent to a strict improvement of the stored cost. -/
theorem relaxTest_iff {grid : List (List ℕ)} {W H sx sy gx gy : Int}
    {nodes : List (List PNode)} (t : Bool)
    (hpv : PVpack grid W H sx sy gx gy nodes)
    (hvirgin : ∀ c : Cell, inBox W H c → ¬ (nodeAt nodes c).g < INF →
      (nodeAt nodes c).g = INF ∧ (nodeAt nodes c).f = INF + INF)
    {w : Cell} (hw : inBox W H w) {gNew : ℕ} (hgNew : gNew < INF)
    (hgpos : 0 < gNew) (hhNew : manhattan w (gx, gy) < INF) :
    (relaxTest t gNew (manhattan w (gx, gy)) (nodeAt nodes w) ↔
      gNew < (nodeAt nodes w).g) := by
  unfold relaxTest
  by_cases hfin : (nodeAt nodes w).g < INF
  · by_cases hws : w = (sx, sy)
    · subst hws
      rw [hpv.1]
      cases t
      · show gNew < 0 ↔ gNew < 0
        exact Iff.rfl
      · show gNew + manhattan (sx, sy) (gx, gy) < 0 + manhattan (sx, sy) (gx, gy) ↔
          gNew < 0
        omega
    · obtain ⟨_, _, hh, hf, _, _, _, _⟩ := hpv.2 w hw hws hfin
      cases t
      · exact Iff.rfl
      · show gNew + manhattan w (gx, gy) < (nodeAt nodes w).f ↔
          gNew < (nodeAt nodes w).g
        rw [hf, hh]
        omega
  · obtain ⟨hg0, hf0⟩ := hvirgin w hw hfin
    cases t
    · show gNew < (nodeAt nodes w).g ↔ gNew < (nodeAt nodes w).g
      exact Iff.rfl
    · show gNew + manhattan w (gx, gy) < (nodeAt nodes w).f ↔
        gNew < (nodeAt nodes w).g
      rw [hf0, hg0]
      constructor
      · intro _; omega
      · intro _; omega

/-- The frontier certificate: for every unclosed reachable cell there is
an open-set entry of settled cost sitting on a shortest walk towards it.
The popped entry's `f` can therefore never beat the true distance. -/
theorem cert_entry {grid : List (List ℕ)} {W H sx sy gx gy : Int}
    {st : AState} (hinv : SInvM grid W H sx sy gx gy st)
    (hk2 : K2S grid W H st) (hs : inBox W H (sx, sy)) :
    ∀ (dt : ℕ) (tc : Cell), inBox W H tc → closedAt st.closed tc = false →
      MinReach (open8 grid W H) (sx, sy) tc dt →
      ∃ e ∈ st.heap, MinReach (open8 grid W H) (sx, sy) (e.x, e.y) e.g ∧
        e.g + manhattan (e.x, e.y) tc ≤ dt := by
  intro dt
  induction dt using Nat.strong_induction_on with
  | _ dt ih =>
    intro tc htc htcu hmr
    by_cases hsc : closedAt st.closed (sx, sy) = false
    · have hg0 : (nodeAt st.nodes (sx, sy)).g = 0 := by
        rw [hinv.pv.1]
        rfl
      have hfin : (nodeAt st.nodes (sx, sy)).g < INF := by
        rw [hg0]; exact INF_pos
      obtain ⟨e, he, hcell, hge⟩ := hinv.i6 (sx, sy) hs hsc hfin
      rw [hg0] at hge
      refine ⟨e, he, ?_, ?_⟩
      · rw [hcell, hge]
        exact minReach_self _ _
      · rw [hcell, hge]
        have := reach_manhattan hmr.1
        omega
    · have hsc2 : closedAt st.closed (sx, sy) = true := by
        cases h : closedAt st.closed (sx, sy)
        · exact absurd h hsc
        · rfl
      cases dt with
      | zero =>
        have : (sx, sy) = tc := minReach_zero_eq hmr
        rw [this] at hsc2
        rw [hsc2] at htcu
        exact absurd htcu (by decide)
      | succ d =>
        obtain ⟨u, hmru, hadj, hopen⟩ := minReach_pred hmr
        have huB : inBox W H u := by
          cases d with
          | zero =>
            have : (sx, sy) = u := minReach_zero_eq hmru
            rw [← this]
            exact hs
          | succ d2 => exact open8_inBox (reach_pos_open hmru.1)
        by_cases huc : closedAt st.closed u = true
        · have hca := hinv.ca u huB huc
          have hdu : (nodeAt st.nodes u).g = d := minReach_unique hca.2 hmru
          have hk := hk2 u tc huB htc huc htcu hadj hopen
          have h1 : (nodeAt st.nodes tc).g ≤ d + 1 := by
            have := hk.2
            omega
          obtain ⟨k, hkle, hrk⟩ := hinv.snd tc htc hk.1
          have h2 : d + 1 ≤ k := minReach_le_of_reach hmr hrk
          have h3 : (nodeAt st.nodes tc).g = d + 1 := by omega
          obtain ⟨e, he, hcell, hge⟩ := hinv.i6 tc htc htcu hk.1
          refine ⟨e, he, ?_, ?_⟩
          · rw [hcell, hge, h3]
            exact hmr
          · rw [hcell, manhattan_self, hge, h3]
        · have huc2 : closedAt st.closed u = false := by
            cases h : closedAt st.closed u
            · rfl
            · exact absurd h huc
          obtain ⟨e, he, hme, hle⟩ := ih d (by omega) u huB huc2 hmru
          refine ⟨e, he, hme, ?_⟩
          have htr := manhattan_triangle (e.x, e.y) u tc
          unfold Adj at hadj
          omega

/-- Popping the minimum-`f` entry of an unclosed cell settles that cell:
the entry's cost, the stored cost, and the true shortest distance agree. -/
theorem pop_exact {grid : List (List ℕ)} {W H sx sy gx gy : Int}
    {st : AState} (hinv : SInvM grid W H sx sy gx gy st)
    (hk2 : K2S grid W H st) (hs : inBox W H (sx, sy))
    (hsmall : W.toNat * H.toNat + W.toNat + H.toNat + 4 < INF)
    (hne : st.heap ≠ [])
    (hcu : closedAt st.closed ((st.heap.headD PNode.dflt).x,
      (st.heap.headD PNode.dflt).y) = false) :
    MinReach (open8 grid W H) (sx, sy)
      ((st.heap.headD PNode.dflt).x, (st.heap.headD PNode.dflt).y)
      (st.heap.headD PNode.dflt).g ∧
    (nodeAt st.nodes ((st.heap.headD PNode.dflt).x,
      (st.heap.headD PNode.dflt).y)).g = (st.heap.headD PNode.dflt).g := by
  set cur := st.heap.headD PNode.dflt with hcur
  have hmem : cur ∈ st.heap := headD_mem _ hne
  have hbox := hinv.entBox cur hmem
  have hcl := hinv.entCL cur hmem
  have hcount : countTrue st.closed ≤ H.toNat * W.toNat :=
    countTrue_le_area hinv.dimsC
  have hWH : H.toNat * W.toNat = W.toNat * H.toNat := Nat.mul_comm _ _
  have hcurINF : cur.g < INF := by omega
  have hstfin : (nodeAt st.nodes (cur.x, cur.y)).g < INF :=
    lt_of_le_of_lt (hinv.entI1 cur hmem) hcurINF
  obtain ⟨k, hkle, hrk⟩ := hinv.snd _ hbox hstfin
  obtain ⟨du, hdule, hmru⟩ := reach_minReach hrk
  obtain ⟨e, he, hme, hle⟩ := cert_entry hinv hk2 hs du (cur.x, cur.y) hbox hcu hmru
  have hmin : nodeKey cur ≤ nodeKey e :=
    isHeap_headD_le_mem nodeKey PNode.dflt hinv.hp e he
  have hcf := hinv.entHF cur hmem
  have hef := hinv.entHF e he
  have htr := manhattan_triangle (e.x, e.y) (cur.x, cur.y) (gx, gy)
  have hcurg_le : cur.g ≤ du := by
    have h1 : cur.f = cur.g + manhattan (cur.x, cur.y) (gx, gy) := by
      rw [hcf.2, hcf.1]
    have h2 : e.f = e.g + manhattan (e.x, e.y) (gx, gy) := by
      rw [hef.2, hef.1]
    unfold nodeKey at hmin
    omega
  have hi1 := hinv.entI1 cur hmem
  have heq : cur.g = du := by omega
  constructor
  · rw [heq]
    exact hmru
  · omega

theorem relaxedState_eq {gx gy : Int} {cur : PNode} {st : AState}
    {W H nx ny : Int} (hd : WFDims st.nodes W H) (hb : inBox W H (nx, ny)) :
    relaxedState gx gy cur st nx ny =
      { st with
        nodes := gridSet st.nodes ny nx (relaxedNode gx gy cur nx ny)
        heap := heapPush nodeKey PNode.dflt st.heap
          (relaxedNode gx gy cur nx ny) } := by
  unfold relaxedState
  rw [gridGet_gridSet_self PNode.dflt hd hb.2.2.1 hb.2.2.2 hb.1 hb.2.1]

/-- One neighbour relaxation preserves the stable invariant, leaves the
closed set alone, only ever lowers stored costs, leaves settled cells'
nodes untouched, leaves the target cell within one step of the expanded
entry's cost, and adds at most one heap entry, of cost `cur.g + 1`. -/
theorem relax_maintain {t : Bool} {grid : List (List ℕ)}
    {W H sx sy gx gy : Int} {cur : PNode} {st : AState} {dxy : Int × Int}
    (hinv : SInvM grid W H sx sy gx gy st)
    (hg : inBox W H (gx, gy)) (hs : inBox W H (sx, sy))
    (hsmall : W.toNat * H.toNat + W.toNat + H.toNat + 4 < INF)
    (hdxy : dxy.1.natAbs + dxy.2.natAbs = 1)
    (hcb : inBox W H (cur.x, cur.y))
    (hcc : closedAt st.closed (cur.x, cur.y) = true)
    (hci : (nodeAt st.nodes (cur.x, cur.y)).g ≤ cur.g)
    (hcl : cur.g ≤ countTrue st.closed)
    (hcs : ∃ k ≤ cur.g, Reach (open8 grid W H) (sx, sy) (cur.x, cur.y) k) :
    SInvM grid W H sx sy gx gy (relaxNeighbor t grid W H gx gy cur st dxy) ∧
    (relaxNeighbor t grid W H gx gy cur st dxy).closed = st.closed ∧
    (∀ c : Cell, (nodeAt (relaxNeighbor t grid W H gx gy cur st dxy).nodes c).g ≤
      (nodeAt st.nodes c).g) ∧
    (∀ c : Cell, inBox W H c → closedAt st.closed c = true →
      nodeAt (relaxNeighbor t grid W H gx gy cur st dxy).nodes c =
        nodeAt st.nodes c) ∧
    (inBox W H (cur.x + dxy.1, cur.y + dxy.2) →
      open8 grid W H (cur.x + dxy.1, cur.y + dxy.2) = true →
      closedAt st.closed (cur.x + dxy.1, cur.y + dxy.2) = false →
      (nodeAt (relaxNeighbor t grid W H gx gy cur st dxy).nodes
        (cur.x + dxy.1, cur.y + dxy.2)).g ≤ cur.g + 1) ∧
    (∀ B : ℕ, heapSum (fun e => 5 ^ (B - e.g))
        (relaxNeighbor t grid W H gx gy cur st dxy).heap ≤
      heapSum (fun e => 5 ^ (B - e.g)) st.heap + 5 ^ (B - (cur.g + 1))) := by
  by_cases h1 : cur.x + dxy.1 < 0 ∨ cur.x + dxy.1 ≥ W ∨ cur.y + dxy.2 < 0 ∨
      cur.y + dxy.2 ≥ H ∨ gridGet grid 1 (cur.y + dxy.2) (cur.x + dxy.1) = 1 ∨
      gridGet st.closed false (cur.y + dxy.2) (cur.x + dxy.1) = true
  · have heq : relaxNeighbor t grid W H gx gy cur st dxy = st := by
      simp only [relaxNeighbor]
      rw [if_pos h1]
    rw [heq]
    refine ⟨hinv, rfl, fun c => le_refl _, fun c _ _ => rfl, ?_, ?_⟩
    · intro hwB hwO hwC
      exfalso
      obtain ⟨b1, b2, b3, b4⟩ := hwB
      rcases h1 with h | h | h | h | h | h
      · exact absurd b1 (by simp only at b1 ⊢; omega)
      · exact absurd b2 (by simp only at b2 ⊢; omega)
      · exact absurd b3 (by simp only at b3 ⊢; omega)
      · exact absurd b4 (by simp only at b4 ⊢; omega)
      · exact (open8_true_iff.mp hwO).2 h
      · rw [show closedAt st.closed (cur.x + dxy.1, cur.y + dxy.2) =
          gridGet st.closed false (cur.y + dxy.2) (cur.x + dxy.1) from rfl, h]
          at hwC
        cases hwC
    · intro B
      exact Nat.le_add_right _ _
  · push_neg at h1
    obtain ⟨e1, e2, e3, e4, e5, e6⟩ := h1
    have hwB : inBox W H (cur.x + dxy.1, cur.y + dxy.2) :=
      ⟨by omega, by omega, by omega, by omega⟩
    have hwO : open8 grid W H (cur.x + dxy.1, cur.y + dxy.2) = true :=
      open8_true_iff.mpr ⟨hwB, e5⟩
    have hwC : closedAt st.closed (cur.x + dxy.1, cur.y + dxy.2) = false := by
      cases h : gridGet st.closed false (cur.y + dxy.2) (cur.x + dxy.1)
      · exact h
      · exact absurd h e6
    have hcount : countTrue st.closed ≤ H.toNat * W.toNat :=
      countTrue_le_area hinv.dimsC
    have hWHc : H.toNat * W.toNat = W.toNat * H.toNat := Nat.mul_comm _ _
    have hgNewINF : cur.g + 1 < INF := by omega
    have hhNewINF : manhattan (cur.x + dxy.1, cur.y + dxy.2) (gx, gy) < INF := by
      have := manhattan_lt_of_inBox hwB hg
      omega
    have htest := relaxTest_iff t hinv.pv hinv.stVirgin hwB hgNewINF
      (by omega) hhNewINF
    by_cases h2 : relaxTest t (cur.g + 1)
      (manhattan (cur.x + dxy.1, cur.y + dxy.2) (gx, gy))
      (nodeAt st.nodes (cur.x + dxy.1, cur.y + dxy.2))
    · -- the relaxation fires
      have himp : cur.g + 1 <
          (nodeAt st.nodes (cur.x + dxy.1, cur.y + dxy.2)).g := htest.mp h2
      have hnot1 : ¬ (cur.x + dxy.1 < 0 ∨ cur.x + dxy.1 ≥ W ∨
          cur.y + dxy.2 < 0 ∨ cur.y + dxy.2 ≥ H ∨
          gridGet grid 1 (cur.y + dxy.2) (cur.x + dxy.1) = 1 ∨
          gridGet st.closed false (cur.y + dxy.2) (cur.x + dxy.1) = true) := by
        push_neg
        exact ⟨e1, e2, e3, e4, e5, e6⟩
      have heq : relaxNeighbor t grid W H gx gy cur st dxy =
          relaxedState gx gy cur st (cur.x + dxy.1) (cur.y + dxy.2) := by
        simp only [relaxNeighbor]
        rw [if_neg hnot1]
        have h2b : (if t = true then
            cur.g + 1 + manhattan (cur.x + dxy.1, cur.y + dxy.2) (gx, gy) <
              (gridGet st.nodes PNode.dflt (cur.y + dxy.2) (cur.x + dxy.1)).f
          else cur.g + 1 <
              (gridGet st.nodes PNode.dflt (cur.y + dxy.2) (cur.x + dxy.1)).g) := h2
        rw [if_pos h2b]
        rfl
      rw [heq, relaxedState_eq hinv.dimsN hwB]
      set nd : PNode := relaxedNode gx gy cur (cur.x + dxy.1) (cur.y + dxy.2)
        with hnd
      have hndg : nd.g = cur.g + 1 := rfl
      have hndcell : ((nd.x : Int), (nd.y : Int)) =
        ((cur.x + dxy.1 : Int), (cur.y + dxy.2 : Int)) := rfl
      have hAt_w : nodeAt (gridSet st.nodes (cur.y + dxy.2) (cur.x + dxy.1) nd)
          (cur.x + dxy.1, cur.y + dxy.2) = nd :=
        nodeAt_gridSet_self hinv.dimsN hwB nd
      have hAt_o : ∀ c : Cell, inBox W H c →
          c ≠ (cur.x + dxy.1, cur.y + dxy.2) →
          nodeAt (gridSet st.nodes (cur.y + dxy.2) (cur.x + dxy.1) nd) c =
            nodeAt st.nodes c :=
        fun c hc hne => nodeAt_gridSet_other hwB hc hne nd
      have hcurne : ((cur.x : Int), (cur.y : Int)) ≠
          ((cur.x + dxy.1 : Int), (cur.y + dxy.2 : Int)) := by
        intro h
        rw [Prod.mk.injEq] at h
        omega
      have hwstart : ((cur.x + dxy.1 : Int), (cur.y + dxy.2 : Int)) ≠
          ((sx : Int), (sy : Int)) := by
        intro h
        rw [h] at himp
        rw [hinv.pv.1] at himp
        have : (mkNode sx sy 0 (manhattan (sx, sy) (gx, gy)) (-1) (-1)).g = 0 :=
          rfl
        omega
      -- stored costs only drop, everywhere
      have hc3 : ∀ c : Cell,
          (nodeAt (gridSet st.nodes (cur.y + dxy.2) (cur.x + dxy.1) nd) c).g ≤
            (nodeAt st.nodes c).g := by
        intro c
        by_cases hcol : c.2.toNat = (cur.y + dxy.2).toNat ∧
            c.1.toNat = (cur.x + dxy.1).toNat
        · have hcg : nodeAt (gridSet st.nodes (cur.y + dxy.2) (cur.x + dxy.1) nd)
              c = nd := by
            unfold nodeAt
            rw [gridGet_toNat_congr _ _ hcol.1 hcol.2]
            exact hAt_w
          have hco : nodeAt st.nodes c =
              nodeAt st.nodes (cur.x + dxy.1, cur.y + dxy.2) := by
            unfold nodeAt
            exact gridGet_toNat_congr _ _ hcol.1 hcol.2
          rw [hcg, hco, hndg]
          omega
        · have : nodeAt (gridSet st.nodes (cur.y + dxy.2) (cur.x + dxy.1) nd) c =
              nodeAt st.nodes c := by
            unfold nodeAt
            refine gridGet_gridSet_ne PNode.dflt st.nodes ?_ nd
            rcases not_and_or.mp hcol with h | h
            · exact Or.inl (fun he => h he.symm)
            · exact Or.inr (fun he => h he.symm)
          rw [this]
      have hc4 : ∀ c : Cell, inBox W H c → closedAt st.closed c = true →
          nodeAt (gridSet st.nodes (cur.y + dxy.2) (cur.x + dxy.1) nd) c =
            nodeAt st.nodes c := by
        intro c hc hclo
        refine hAt_o c hc ?_
        intro h
        rw [h, hwC] at hclo
        cases hclo
      refine ⟨?_, rfl, hc3, hc4, ?_, ?_⟩
      · -- the stable invariant for the relaxed state
        refine ⟨isHeap_heapPush nodeKey PNode.dflt hinv.hp nd, ?_, hinv.dimsC,
          ?_, ?_, ?_, ?_, ?_, ?_, ?_, ?_, ?_, ?_⟩
        · exact WFDims_gridSet hinv.dimsN _ _ _
        · intro e he
          rcases (mem_heapPush_iff nodeKey PNode.dflt st.heap nd e).mp he with
            h | h
          · exact hinv.entBox e h
          · rw [h]
            exact hwB
        · intro e he
          rcases (mem_heapPush_iff nodeKey PNode.dflt st.heap nd e).mp he with
            h | h
          · exact hinv.entHF e h
          · rw [h]
            exact ⟨rfl, rfl⟩
        · intro e he
          rcases (mem_heapPush_iff nodeKey PNode.dflt st.heap nd e).mp he with
            h | h
          · exact hinv.entCL e h
          · rw [h, hndg]
            show cur.g + 1 ≤ countTrue st.closed + 1
            omega
        · intro e he
          rcases (mem_heapPush_iff nodeKey PNode.dflt st.heap nd e).mp he with
            h | h
          · exact le_trans (hc3 (e.x, e.y)) (hinv.entI1 e h)
          · rw [h]
            rw [show ((nd.x : Int), (nd.y : Int)) =
              ((cur.x + dxy.1 : Int), (cur.y + dxy.2 : Int)) from rfl]
            rw [hAt_w]
        · intro c hc hclo hfin
          by_cases hcw : c = (cur.x + dxy.1, cur.y + dxy.2)
          · subst hcw
            refine ⟨nd, (mem_heapPush_iff nodeKey PNode.dflt st.heap nd nd).mpr
              (Or.inr rfl), hndcell, ?_⟩
            rw [hAt_w]
          · rw [hAt_o c hc hcw] at hfin ⊢
            obtain ⟨e, he, hcell, hge⟩ := hinv.i6 c hc hclo hfin
            exact ⟨e, (mem_heapPush_iff nodeKey PNode.dflt st.heap nd e).mpr
              (Or.inl he), hcell, hge⟩
        · constructor
          · rw [hAt_o (sx, sy) hs (fun h => hwstart h.symm)]
            exact hinv.pv.1
          · intro c hc hcs2 hfin
            by_cases hcw : c = (cur.x + dxy.1, cur.y + dxy.2)
            · subst hcw
              rw [hAt_w]
              refine ⟨rfl, rfl, rfl, rfl, hwO, hcb, ?_, ?_⟩
              · show manhattan (cur.x + dxy.1, cur.y + dxy.2) (cur.x, cur.y) = 1
                unfold manhattan
                simp only
                omega
              · rw [show parentCell nd = ((cur.x : Int), (cur.y : Int)) from rfl]
                rw [hAt_o (cur.x, cur.y) hcb hcurne, hndg]
                omega
            · rw [hAt_o c hc hcw] at hfin ⊢
              obtain ⟨p1, p2, p3, p4, p5, p6, p7, p8⟩ :=
                hinv.pv.2 c hc hcs2 hfin
              refine ⟨p1, p2, p3, p4, p5, p6, p7, ?_⟩
              exact lt_of_le_of_lt (hc3 (parentCell (nodeAt st.nodes c))) p8
        · intro c hc hfin
          by_cases hcw : c = (cur.x + dxy.1, cur.y + dxy.2)
          · subst hcw
            rw [hAt_w, hndg]
            show cur.g + 1 ≤ countTrue st.closed + 1
            omega
          · rw [hAt_o c hc hcw] at hfin ⊢
            exact hinv.stCL c hc hfin
        · intro c hc hfin
          by_cases hcw : c = (cur.x + dxy.1, cur.y + dxy.2)
          · subst hcw
            rw [hAt_w, hndg] at hfin
            exact absurd hgNewINF hfin
          · rw [hAt_o c hc hcw] at hfin ⊢
            exact hinv.stVirgin c hc hfin
        · intro c hc hfin
          by_cases hcw : c = (cur.x + dxy.1, cur.y + dxy.2)
          · subst hcw
            rw [hAt_w, hndg]
            obtain ⟨k, hk, hr⟩ := hcs
            refine ⟨k + 1, by omega, ?_⟩
            refine reach_step hr ?_ hwO
            show manhattan (cur.x, cur.y) (cur.x + dxy.1, cur.y + dxy.2) = 1
            unfold manhattan
            simp only
            omega
          · rw [hAt_o c hc hcw] at hfin ⊢
            exact hinv.snd c hc hfin
        · intro c hc hclo
          rw [hc4 c hc hclo]
          exact hinv.ca c hc hclo
      · intro _ _ _
        rw [hAt_w, hndg]
      · intro B
        rw [heapSum_heapPush nodeKey (fun e => 5 ^ (B - e.g)) PNode.dflt
          st.heap nd]
        rw [show (5 : ℕ) ^ (B - nd.g) = 5 ^ (B - (cur.g + 1)) from by rw [hndg]]
    · -- the relaxation does not fire: nothing changes
      have hnot1 : ¬ (cur.x + dxy.1 < 0 ∨ cur.x + dxy.1 ≥ W ∨
          cur.y + dxy.2 < 0 ∨ cur.y + dxy.2 ≥ H ∨
          gridGet grid 1 (cur.y + dxy.2) (cur.x + dxy.1) = 1 ∨
          gridGet st.closed false (cur.y + dxy.2) (cur.x + dxy.1) = true) := by
        push_neg
        exact ⟨e1, e2, e3, e4, e5, e6⟩
      have heq : relaxNeighbor t grid W H gx gy cur st dxy = st := by
        simp only [relaxNeighbor]
        rw [if_neg hnot1]
        have h2b : ¬ (if t = true then
            cur.g + 1 + manhattan (cur.x + dxy.1, cur.y + dxy.2) (gx, gy) <
              (gridGet st.nodes PNode.dflt (cur.y + dxy.2) (cur.x + dxy.1)).f
          else cur.g + 1 <
              (gridGet st.nodes PNode.dflt (cur.y + dxy.2) (cur.x + dxy.1)).g) := h2
        rw [if_neg h2b]
      rw [heq]
      refine ⟨hinv, rfl, fun c => le_refl _, fun c _ _ => rfl, ?_, ?_⟩
      · intro _ _ _
        have := htest.not.mp h2
        omega
      · intro B
        exact Nat.le_add_right _ _

/-- Expanding a popped node over its four neighbours preserves the
stable invariant, fixes the closed set, only lowers stored costs, leaves
settled cells alone, relaxes every eligible neighbour to within one step
of the expanded cost, and adds at most four entries of cost `cur.g + 1`. -/
theorem expand_maintain {t : Bool} {grid : List (List ℕ)}
    {W H sx sy gx gy : Int} {cur : PNode} {st : AState}
    (hinv : SInvM grid W H sx sy gx gy st)
    (hg : inBox W H (gx, gy)) (hs : inBox W H (sx, sy))
    (hsmall : W.toNat * H.toNat + W.toNat + H.toNat + 4 < INF)
    (hcb : inBox W H (cur.x, cur.y))
    (hcc : closedAt st.closed (cur.x, cur.y) = true)
    (hci : (nodeAt st.nodes (cur.x, cur.y)).g ≤ cur.g)
    (hcl : cur.g ≤ countTrue st.closed)
    (hcs : ∃ k ≤ cur.g, Reach (open8 grid W H) (sx, sy) (cur.x, cur.y) k) :
    SInvM grid W H sx sy gx gy (expandNode t grid W H gx gy cur st) ∧
    (expandNode t grid W H gx gy cur st).closed = st.closed ∧
    (∀ c : Cell, (nodeAt (expandNode t grid W H gx gy cur st).nodes c).g ≤
      (nodeAt st.nodes c).g) ∧
    (∀ c : Cell, inBox W H c → closedAt st.closed c = true →
      nodeAt (expandNode t grid W H gx gy cur st).nodes c = nodeAt st.nodes c) ∧
    (∀ c : Cell, inBox W H c → open8 grid W H c = true →
      closedAt st.closed c = false → Adj (cur.x, cur.y) c →
      (nodeAt (expandNode t grid W H gx gy cur st).nodes c).g ≤ cur.g + 1) ∧
    (∀ B : ℕ, heapSum (fun e => 5 ^ (B - e.g))
        (expandNode t grid W H gx gy cur st).heap ≤
      heapSum (fun e => 5 ^ (B - e.g)) st.heap + 4 * 5 ^ (B - (cur.g + 1))) := by
  set st1 := relaxNeighbor t grid W H gx gy cur st (0, -1) with hst1
  set st2 := relaxNeighbor t grid W H gx gy cur st1 (0, 1) with hst2
  set st3 := relaxNeighbor t grid W H gx gy cur st2 (-1, 0) with hst3
  set st4 := relaxNeighbor t grid W H gx gy cur st3 (1, 0) with hst4
  have hexp : expandNode t grid W H gx gy cur st = st4 :=
    expandNode_unfold t grid W H gx gy cur st
  obtain ⟨i1, e1, d1, f1, g1, s1⟩ :=
    @relax_maintain t grid W H sx sy gx gy cur st ((0 : Int), (-1 : Int))
      hinv hg hs hsmall (by decide) hcb hcc hci hcl hcs
  have hcc1 : closedAt st1.closed (cur.x, cur.y) = true := by
    rw [e1]; exact hcc
  have hci1 : (nodeAt st1.nodes (cur.x, cur.y)).g ≤ cur.g := by
    rw [f1 _ hcb hcc]; exact hci
  have hcl1 : cur.g ≤ countTrue st1.closed := by
    rw [e1]; exact hcl
  obtain ⟨i2, e2, d2, f2, g2, s2⟩ :=
    @relax_maintain t grid W H sx sy gx gy cur st1 ((0 : Int), (1 : Int))
      i1 hg hs hsmall (by decide) hcb hcc1 hci1 hcl1 hcs
  have hcc2 : closedAt st2.closed (cur.x, cur.y) = true := by
    rw [e2]; exact hcc1
  have hci2 : (nodeAt st2.nodes (cur.x, cur.y)).g ≤ cur.g := by
    rw [f2 _ hcb hcc1]; exact hci1
  have hcl2 : cur.g ≤ countTrue st2.closed := by
    rw [e2]; exact hcl1
  obtain ⟨i3, e3, d3, f3, g3, s3⟩ :=
    @relax_maintain t grid W H sx sy gx gy cur st2 ((-1 : Int), (0 : Int))
      i2 hg hs hsmall (by decide) hcb hcc2 hci2 hcl2 hcs
  have hcc3 : closedAt st3.closed (cur.x, cur.y) = true := by
    rw [e3]; exact hcc2
  have hci3 : (nodeAt st3.nodes (cur.x, cur.y)).g ≤ cur.g := by
    rw [f3 _ hcb hcc2]; exact hci2
  have hcl3 : cur.g ≤ countTrue st3.closed := by
    rw [e3]; exact hcl2
  obtain ⟨i4, e4, d4, f4, g4, s4⟩ :=
    @relax_maintain t grid W H sx sy gx gy cur st3 ((1 : Int), (0 : Int))
      i3 hg hs hsmall (by decide) hcb hcc3 hci3 hcl3 hcs
  rw [hexp]
  have ec : st4.closed = st.closed := by
    rw [e4, e3, e2, e1]
  refine ⟨i4, ec, ?_, ?_, ?_, ?_⟩
  · intro c
    exact le_trans (d4 c) (le_trans (d3 c) (le_trans (d2 c) (d1 c)))
  · intro c hc hclo
    rw [f4 c hc (by rw [e3, e2, e1]; exact hclo),
      f3 c hc (by rw [e2, e1]; exact hclo),
      f2 c hc (by rw [e1]; exact hclo),
      f1 c hc hclo]
  · intro c hcB hcO hcC hadj
    have hcase : (c.1 = cur.x ∧ c.2 = cur.y - 1) ∨
        (c.1 = cur.x ∧ c.2 = cur.y + 1) ∨
        (c.1 = cur.x - 1 ∧ c.2 = cur.y) ∨
        (c.1 = cur.x + 1 ∧ c.2 = cur.y) := by
      unfold Adj manhattan at hadj
      simp only at hadj
      omega
    rcases hcase with h | h | h | h
    · have hceq : c = ((cur.x + (0 : Int)), (cur.y + (-1 : Int))) := by
        rw [Prod.ext_iff]
        constructor
        · simp only; omega
        · simp only; omega
      rw [hceq] at hcB hcO hcC ⊢
      exact le_trans (d4 _) (le_trans (d3 _) (le_trans (d2 _)
        (g1 hcB hcO hcC)))
    · have hceq : c = ((cur.x + (0 : Int)), (cur.y + (1 : Int))) := by
        rw [Prod.ext_iff]
        constructor
        · simp only; omega
        · simp only; omega
      rw [hceq] at hcB hcO hcC ⊢
      refine le_trans (d4 _) (le_trans (d3 _) (g2 hcB hcO ?_))
      rw [e1]; exact hcC
    · have hceq : c = ((cur.x + (-1 : Int)), (cur.y + (0 : Int))) := by
        rw [Prod.ext_iff]
        constructor
        · simp only; omega
        · simp only; omega
      rw [hceq] at hcB hcO hcC ⊢
      refine le_trans (d4 _) (g3 hcB hcO ?_)
      rw [e2, e1]; exact hcC
    · have hceq : c = ((cur.x + (1 : Int)), (cur.y + (0 : Int))) := by
        rw [Prod.ext_iff]
        constructor
        · simp only; omega
        · simp only; omega
      rw [hceq] at hcB hcO hcC ⊢
      refine g4 hcB hcO ?_
      rw [e3, e2, e1]; exact hcC
  · intro B
    have q1 : heapSum (fun e => 5 ^ (B - e.g)) st1.heap ≤
        heapSum (fun e => 5 ^ (B - e.g)) st.heap + 5 ^ (B - (cur.g + 1)) := s1 B
    have q2 : heapSum (fun e => 5 ^ (B - e.g)) st2.heap ≤
        heapSum (fun e => 5 ^ (B - e.g)) st1.heap + 5 ^ (B - (cur.g + 1)) := s2 B
    have q3 : heapSum (fun e => 5 ^ (B - e.g)) st3.heap ≤
        heapSum (fun e => 5 ^ (B - e.g)) st2.heap + 5 ^ (B - (cur.g + 1)) := s3 B
    have q4 : heapSum (fun e => 5 ^ (B - e.g)) st4.heap ≤
        heapSum (fun e => 5 ^ (B - e.g)) st3.heap + 5 ^ (B - (cur.g + 1)) := s4 B
    omega

/-- The main loop theorem: from an invariant state with sufficient fuel,
success settles the goal at its exact shortest distance with a valid
parent forest, and failure means the goal is unreachable. -/
theorem searchLoop_main {t gf : Bool} {grid : List (List ℕ)}
    {W H sx sy gx gy : Int}
    (hg : inBox W H (gx, gy)) (hs : inBox W H (sx, sy))
    (hsmall : W.toNat * H.toNat + W.toNat + H.toNat + 4 < INF) :
    ∀ (fuel : ℕ) (st : AState), SInv grid W H sx sy gx gy st →
      heapSum (fun e => 5 ^ (W.toNat * H.toNat + 2 - e.g)) st.heap ≤ fuel →
      ((searchLoop t gf grid W H gx gy fuel st).1 = true →
        ∃ d, MinReach (open8 grid W H) (sx, sy) (gx, gy) d ∧
          PVpack grid W H sx sy gx gy
            (searchLoop t gf grid W H gx gy fuel st).2.nodes ∧
          (nodeAt (searchLoop t gf grid W H gx gy fuel st).2.nodes
            (gx, gy)).g = d) ∧
      ((searchLoop t gf grid W H gx gy fuel st).1 = false →
        ∀ k, ¬ Reach (open8 grid W H) (sx, sy) (gx, gy) k) := by
  intro fuel
  induction fuel with
  | zero =>
    intro st hinv hpot
    constructor
    · intro hres
      exact Bool.noConfusion hres
    · intro _ k hrk
      have hheap : st.heap = [] := by
        cases h : st.heap with
        | nil => rfl
        | cons a l =>
          exfalso
          rw [h] at hpot
          have h5 : 0 < 5 ^ (W.toNat * H.toNat + 2 - a.g) :=
            pow_pos (by omega) _
          have : heapSum (fun e => 5 ^ (W.toNat * H.toNat + 2 - e.g)) (a :: l) =
              5 ^ (W.toNat * H.toNat + 2 - a.g) +
              heapSum (fun e => 5 ^ (W.toNat * H.toNat + 2 - e.g)) l := rfl
          omega
      obtain ⟨d, _, hmr⟩ := reach_minReach hrk
      obtain ⟨e, he, _, _⟩ :=
        cert_entry hinv.1 hinv.2.1 hs d (gx, gy) hg hinv.2.2 hmr
      rw [hheap] at he
      cases he
  | succ fuel ih =>
    intro st hinv hpot
    rw [searchLoop]
    cases hheap : st.heap with
    | nil =>
      constructor
      · intro hres
        exact Bool.noConfusion hres
      · intro _ k hrk
        obtain ⟨d, _, hmr⟩ := reach_minReach hrk
        obtain ⟨e, he, _, _⟩ :=
          cert_entry hinv.1 hinv.2.1 hs d (gx, gy) hg hinv.2.2 hmr
        rw [hheap] at he
        cases he
    | cons a rest =>
      simp only
      set cur := (a :: rest).headD PNode.dflt with hcurdef
      have hhead : st.heap.headD PNode.dflt = cur := by rw [hheap]
      have hmem : cur ∈ st.heap := by
        rw [hheap]
        exact List.mem_cons_self a rest
      have hne : st.heap ≠ [] := by rw [hheap]; simp
      have hcurB : inBox W H (cur.x, cur.y) := hinv.1.entBox cur hmem
      have hcount : countTrue st.closed ≤ H.toNat * W.toNat :=
        countTrue_le_area hinv.1.dimsC
      have hWHc : H.toNat * W.toNat = W.toNat * H.toNat := Nat.mul_comm _ _
      have hcg : cur.g ≤ W.toNat * H.toNat + 1 := by
        have := hinv.1.entCL cur hmem
        omega
      have hpow : (5 : ℕ) ^ (W.toNat * H.toNat + 2 - cur.g) =
          5 ^ (W.toNat * H.toNat + 2 - (cur.g + 1)) * 5 := by
        rw [show W.toNat * H.toNat + 2 - cur.g =
          (W.toNat * H.toNat + 2 - (cur.g + 1)) + 1 from by omega, pow_succ]
      have hpop : heapSum (fun e => 5 ^ (W.toNat * H.toNat + 2 - e.g))
          (heapPop nodeKey PNode.dflt (a :: rest)) +
          5 ^ (W.toNat * H.toNat + 2 - cur.g) =
          heapSum (fun e => 5 ^ (W.toNat * H.toNat + 2 - e.g)) (a :: rest) :=
        heapSum_heapPop nodeKey _ PNode.dflt (by simp)
      have hpot2 : heapSum (fun e => 5 ^ (W.toNat * H.toNat + 2 - e.g))
          (a :: rest) ≤ fuel + 1 := by
        rw [← hheap]
        exact hpot
      have hpos : 0 < 5 ^ (W.toNat * H.toNat + 2 - (cur.g + 1)) :=
        pow_pos (by omega) _
      have hpopsub : ∀ e ∈ heapPop nodeKey PNode.dflt (a :: rest),
          e ∈ st.heap := by
        intro e he
        rw [hheap]
        exact mem_heapPop_subset nodeKey PNode.dflt he
      split_ifs with hgoal1 hclosed hgoal2
      · -- part_008 goal test fires on the pop
        obtain ⟨hgf, hgx, hgy⟩ := hgoal1
        have hcu : closedAt st.closed (cur.x, cur.y) = false := by
          rw [show ((cur.x : Int), (cur.y : Int)) = ((gx : Int), (gy : Int))
            from by rw [hgx, hgy]]
          exact hinv.2.2
        have hpe := pop_exact hinv.1 hinv.2.1 hs hsmall hne (by rw [hhead]; exact hcu)
        rw [hhead] at hpe
        constructor
        · intro _
          refine ⟨cur.g, ?_, hinv.1.pv, ?_⟩
          · rw [show ((gx : Int), (gy : Int)) = ((cur.x : Int), (cur.y : Int))
              from by rw [hgx, hgy]]
            exact hpe.1
          · rw [show ((gx : Int), (gy : Int)) = ((cur.x : Int), (cur.y : Int))
              from by rw [hgx, hgy]]
            exact hpe.2
        · intro hres
          exact hres.elim
      · -- stale pop of an already closed cell: recurse on the popped state
        have hcc : closedAt st.closed (cur.x, cur.y) = true := hclosed
        have hinvM := hinv.1
        have hinv1 : SInv grid W H sx sy gx gy
            { st with heap := heapPop nodeKey PNode.dflt (a :: rest) } := by
          refine ⟨⟨?_, hinvM.dimsN, hinvM.dimsC, ?_, ?_, ?_, ?_, ?_, hinvM.pv,
            hinvM.stCL, hinvM.stVirgin, hinvM.snd, hinvM.ca⟩,
            hinv.2.1, hinv.2.2⟩
          · have := hinvM.hp
            rw [hheap] at this
            exact isHeap_heapPop nodeKey PNode.dflt this
          · intro e he
            exact hinvM.entBox e (hpopsub e he)
          · intro e he
            exact hinvM.entHF e (hpopsub e he)
          · intro e he
            exact hinvM.entCL e (hpopsub e he)
          · intro e he
            exact hinvM.entI1 e (hpopsub e he)
          · intro c hc hclo hfin
            obtain ⟨e, he, hcell, hge⟩ := hinvM.i6 c hc hclo hfin
            have hecur : e ≠ cur := by
              intro h
              rw [h] at hcell
              rw [hcell] at hcc
              rw [hcc] at hclo
              cases hclo
            refine ⟨e, ?_, hcell, hge⟩
            rw [hheap] at he
            exact mem_heapPop_of_ne nodeKey PNode.dflt he hecur
        have hih := ih { st with heap := heapPop nodeKey PNode.dflt (a :: rest) }
          hinv1 (by
            show heapSum _ (heapPop nodeKey PNode.dflt (a :: rest)) ≤ fuel
            have h5 : 0 < 5 ^ (W.toNat * H.toNat + 2 - cur.g) :=
              pow_pos (by omega) _
            omega)
        exact hih
      · -- part_007 goal test fires after closing the popped goal cell
        obtain ⟨hgf, hgx, hgy⟩ := hgoal2
        have hcu : closedAt st.closed (cur.x, cur.y) = false := by
          cases h : closedAt st.closed (cur.x, cur.y)
          · rfl
          · exact absurd h (by exact hclosed)
        have hpe := pop_exact hinv.1 hinv.2.1 hs hsmall hne (by rw [hhead]; exact hcu)
        rw [hhead] at hpe
        constructor
        · intro _
          refine ⟨cur.g, ?_, hinv.1.pv, ?_⟩
          · rw [show ((gx : Int), (gy : Int)) = ((cur.x : Int), (cur.y : Int))
              from by rw [hgx, hgy]]
            exact hpe.1
          · rw [show ((gx : Int), (gy : Int)) = ((cur.x : Int), (cur.y : Int))
              from by rw [hgx, hgy]]
            exact hpe.2
        · intro hres
          exact hres.elim
      · -- expansion step
        have hcu : closedAt st.closed (cur.x, cur.y) = false := by
          cases h : closedAt st.closed (cur.x, cur.y)
          · rfl
          · exact absurd h (by exact hclosed)
        have hng : ¬ (cur.x = gx ∧ cur.y = gy) := by
          intro hcell
          cases hgf : gf
          · exact hgoal2 ⟨hgf, hcell.1, hcell.2⟩
          · exact hgoal1 ⟨hgf, hcell.1, hcell.2⟩
        have hngc : ((cur.x : Int), (cur.y : Int)) ≠ ((gx : Int), (gy : Int)) := by
          intro h
          rw [Prod.mk.injEq] at h
          exact hng h
        have hpe := pop_exact hinv.1 hinv.2.1 hs hsmall hne (by rw [hhead]; exact hcu)
        rw [hhead] at hpe
        have hcgINF : cur.g < INF := by omega
        set st2 : AState :=
          { st with
            heap := heapPop nodeKey PNode.dflt (a :: rest)
            closed := gridSet st.closed cur.y cur.x true } with hst2def
        have hct2 : countTrue st2.closed = countTrue st.closed + 1 :=
          countTrue_gridSet hinv.1.dimsC hcurB hcu
        have hclosed2 : ∀ c : Cell, inBox W H c →
            closedAt st2.closed c = true →
            c = (cur.x, cur.y) ∨ closedAt st.closed c = true := by
          intro c hc h
          by_cases hcw : c = (cur.x, cur.y)
          · exact Or.inl hcw
          · right
            rw [← h]
            exact (closedAt_gridSet_other hcurB hc hcw true).symm
        have hopen2 : ∀ c : Cell, inBox W H c →
            closedAt st2.closed c = false → closedAt st.closed c = false := by
          intro c hc h
          by_cases hcw : c = (cur.x, cur.y)
          · rw [hcw] at h
            rw [closedAt_gridSet_self hinv.1.dimsC hcurB true] at h
            cases h
          · rw [closedAt_gridSet_other hcurB hc hcw true] at h
            exact h
        have hinv2 : SInvM grid W H sx sy gx gy st2 := by
          refine ⟨?_, hinv.1.dimsN, WFDims_gridSet hinv.1.dimsC _ _ _,
            ?_, ?_, ?_, ?_, ?_, hinv.1.pv, ?_, hinv.1.stVirgin, hinv.1.snd, ?_⟩
          · have := hinv.1.hp
            rw [hheap] at this
            exact isHeap_heapPop nodeKey PNode.dflt this
          · intro e he
            exact hinv.1.entBox e (hpopsub e he)
          · intro e he
            exact hinv.1.entHF e (hpopsub e he)
          · intro e he
            rw [hct2]
            have := hinv.1.entCL e (hpopsub e he)
            omega
          · intro e he
            exact hinv.1.entI1 e (hpopsub e he)
          · intro c hc hclo hfin
            have hcw : c ≠ (cur.x, cur.y) := by
              intro h
              rw [h, closedAt_gridSet_self hinv.1.dimsC hcurB true] at hclo
              cases hclo
            obtain ⟨e, he, hcell, hge⟩ :=
              hinv.1.i6 c hc (hopen2 c hc hclo) hfin
            have hecur : e ≠ cur := by
              intro h
              rw [h] at hcell
              exact hcw hcell.symm
            refine ⟨e, ?_, hcell, hge⟩
            rw [hheap] at he
            exact mem_heapPop_of_ne nodeKey PNode.dflt he hecur
          · intro c hc hfin
            rw [hct2]
            show (nodeAt st.nodes c).g ≤ countTrue st.closed + 1 + 1
            have := hinv.1.stCL c hc hfin
            omega
          · intro c hc hclo
            rcases hclosed2 c hc hclo with h | h
            · rw [h, hpe.2]
              exact ⟨hcgINF, hpe.1⟩
            · exact hinv.1.ca c hc h
        obtain ⟨i4, e4, d4, f4, g4, s4⟩ := expand_maintain hinv2 hg hs hsmall
          hcurB (by
            show closedAt st2.closed (cur.x, cur.y) = true
            exact closedAt_gridSet_self hinv.1.dimsC hcurB true)
          (by
            show (nodeAt st2.nodes (cur.x, cur.y)).g ≤ cur.g
            rw [show st2.nodes = st.nodes from rfl, hpe.2])
          (by
            rw [hct2]
            have := hinv.1.entCL cur hmem
            omega)
          ⟨cur.g, le_refl _, hpe.1.1⟩
        have hinv3 : SInv grid W H sx sy gx gy
            (expandNode t grid W H gx gy cur st2) := by
          refine ⟨i4, ?_, ?_⟩
          · intro c c2 hc hc2 hclo hclo2 hadj hop
            rw [e4] at hclo hclo2
            have hfree2 : closedAt st.closed c2 = false := hopen2 c2 hc2 hclo2
            rcases hclosed2 c hc hclo with h | h
            · subst h
              have hb := g4 c2 hc2 hop hclo2 hadj
              have hfr : nodeAt (expandNode t grid W H gx gy cur st2).nodes
                  (cur.x, cur.y) = nodeAt st.nodes (cur.x, cur.y) :=
                f4 _ hcurB (closedAt_gridSet_self hinv.1.dimsC hcurB true)
              rw [hfr, hpe.2]
              constructor
              · omega
              · exact hb
            · have hold := hinv.2.1 c c2 hc hc2 h hfree2 hadj hop
              have hfr : nodeAt (expandNode t grid W H gx gy cur st2).nodes c =
                  nodeAt st.nodes c := by
                refine f4 c hc ?_
                by_cases hcw : c = (cur.x, cur.y)
                · rw [hcw]
                  exact closedAt_gridSet_self hinv.1.dimsC hcurB true
                · rw [closedAt_gridSet_other hcurB hc hcw true]
                  exact h
              have hlow := d4 c2
              rw [hfr]
              rw [show st2.nodes = st.nodes from rfl] at hlow
              constructor
              · omega
              · omega
          · rw [e4]
            have hgne : ((gx : Int), (gy : Int)) ≠ ((cur.x : Int), (cur.y : Int)) :=
              fun h => hngc h.symm
            rw [show closedAt st2.closed (gx, gy) =
              closedAt st.closed (gx, gy) from
              closedAt_gridSet_other hcurB hg hgne true]
            exact hinv.2.2
        have hpot3 : heapSum (fun e => 5 ^ (W.toNat * H.toNat + 2 - e.g))
            (expandNode t grid W H gx gy cur st2).heap ≤ fuel := by
          have hq := s4 (W.toNat * H.toNat + 2)
          have hst2heap : heapSum (fun e => 5 ^ (W.toNat * H.toNat + 2 - e.g))
              st2.heap = heapSum (fun e => 5 ^ (W.toNat * H.toNat + 2 - e.g))
              (heapPop nodeKey PNode.dflt (a :: rest)) := rfl
          rw [hst2heap] at hq
          omega
        exact ih (expandNode t grid W H gx gy cur st2) hinv3 hpot3

theorem isHeap_singleton {α : Type} (key : α → ℕ) (d : α) (v : α) :
    IsHeap key d [v] := by
  intro i h1 h2
  simp only [List.length_singleton] at h2
  omega

/-- The invariant holds at the state both computePath variants enter the
loop with, provided the node array starts out all-virgin. -/
theorem SInv_astarInit {grid : List (List ℕ)} {W H sx sy gx gy : Int}
    {nodes0 : List (List PNode)} (hd : WFDims nodes0 W H)
    (hv0 : ∀ c : Cell, inBox W H c →
      (nodeAt nodes0 c).g = INF ∧ (nodeAt nodes0 c).f = INF + INF)
    (hs : inBox W H (sx, sy)) :
    SInv grid W H sx sy gx gy (astarInit nodes0 W H sx sy gx gy) := by
  have hheap := @astarInit_heap_start nodes0 W H sx sy gx gy hd hs
  have hnodes : (astarInit nodes0 W H sx sy gx gy).nodes =
      gridSet nodes0 sy sx
        (mkNode sx sy 0 (manhattan (sx, sy) (gx, gy)) (-1) (-1)) := rfl
  have hclosed : (astarInit nodes0 W H sx sy gx gy).closed = initClosed W H :=
    rfl
  have hAt_s : nodeAt (astarInit nodes0 W H sx sy gx gy).nodes (sx, sy) =
      mkNode sx sy 0 (manhattan (sx, sy) (gx, gy)) (-1) (-1) := by
    rw [hnodes]
    exact nodeAt_gridSet_self hd hs _
  have hAt_o : ∀ c : Cell, inBox W H c → c ≠ (sx, sy) →
      nodeAt (astarInit nodes0 W H sx sy gx gy).nodes c = nodeAt nodes0 c := by
    intro c hc hne
    rw [hnodes]
    exact nodeAt_gridSet_other hs hc hne _
  have hclAll : ∀ c : Cell,
      closedAt (astarInit nodes0 W H sx sy gx gy).closed c = false := by
    intro c
    rw [hclosed]
    exact gridGet_initClosed W H c.2 c.1
  refine ⟨⟨?_, ?_, ?_, ?_, ?_, ?_, ?_, ?_, ⟨hAt_s, ?_⟩, ?_, ?_, ?_, ?_⟩,
    ?_, hclAll (gx, gy)⟩
  · rw [hheap]
    exact isHeap_singleton nodeKey PNode.dflt _
  · rw [hnodes]
    exact WFDims_gridSet hd _ _ _
  · rw [hclosed]
    exact WFDims_initClosed W H
  · intro e he
    rw [hheap, List.mem_singleton] at he
    rw [he]
    exact hs
  · intro e he
    rw [hheap, List.mem_singleton] at he
    rw [he]
    exact ⟨rfl, rfl⟩
  · intro e he
    rw [hheap, List.mem_singleton] at he
    rw [he]
    exact Nat.zero_le _
  · intro e he
    rw [hheap, List.mem_singleton] at he
    rw [he]
    rw [show ((mkNode sx sy 0 (manhattan (sx, sy) (gx, gy)) (-1) (-1)).x,
      (mkNode sx sy 0 (manhattan (sx, sy) (gx, gy)) (-1) (-1)).y) =
      ((sx : Int), (sy : Int)) from rfl, hAt_s]
  · intro c hc _ hfin
    by_cases hcs : c = (sx, sy)
    · subst hcs
      refine ⟨mkNode sx sy 0 (manhattan (sx, sy) (gx, gy)) (-1) (-1), ?_, rfl, ?_⟩
      · rw [hheap]
        exact List.mem_singleton.mpr rfl
      · rw [hAt_s]
    · rw [hAt_o c hc hcs] at hfin
      rw [(hv0 c hc).1] at hfin
      exact absurd hfin (lt_irrefl INF)
  · intro c hc hcs hfin
    rw [hAt_o c hc hcs] at hfin
    rw [(hv0 c hc).1] at hfin
    exact absurd hfin (lt_irrefl INF)
  · intro c hc hfin
    by_cases hcs : c = (sx, sy)
    · subst hcs
      rw [hAt_s]
      exact Nat.le_add_left _ _
    · rw [hAt_o c hc hcs] at hfin
      rw [(hv0 c hc).1] at hfin
      exact absurd hfin (lt_irrefl INF)
  · intro c hc hfin
    by_cases hcs : c = (sx, sy)
    · subst hcs
      rw [hAt_s] at hfin
      exact absurd INF_pos (by
        intro h
        exact hfin (by
          show (0 : ℕ) < INF
          exact h))
    · rw [hAt_o c hc hcs]
      exact hv0 c hc
  · intro c hc hfin
    by_cases hcs : c = (sx, sy)
    · subst hcs
      exact ⟨0, Nat.zero_le _, reach_zero⟩
    · rw [hAt_o c hc hcs] at hfin
      rw [(hv0 c hc).1] at hfin
      exact absurd hfin (lt_irrefl INF)
  · intro c hc hclo
    rw [hclAll c] at hclo
    cases hclo
  · intro c c2 hc hc2 hclo _ _ _
    rw [hclAll c] at hclo
    cases hclo

theorem pot_astarInit {W H sx sy gx gy : Int} {nodes0 : List (List PNode)}
    (hd : WFDims nodes0 W H) (hs : inBox W H (sx, sy)) :
    heapSum (fun e => 5 ^ (W.toNat * H.toNat + 2 - e.g))
      (astarInit nodes0 W H sx sy gx gy).heap ≤ searchFuel W H := by
  rw [astarInit_heap_start hd hs]
  show 5 ^ (W.toNat * H.toNat + 2 -
    (mkNode sx sy 0 (manhattan (sx, sy) (gx, gy)) (-1) (-1)).g) + 0 ≤
    searchFuel W H
  rw [show (mkNode sx sy 0 (manhattan (sx, sy) (gx, gy)) (-1) (-1)).g = 0
    from rfl, Nat.sub_zero]
  unfold searchFuel
  omega

/-- Correctness of the reconstruction loop: walking the parent links
from a settled cell yields a valid goal-last walk from the start of at
most the stored cost, never revisiting the start. -/
theorem recon_correct {grid : List (List ℕ)} {W H sx sy gx gy : Int}
    {nodes : List (List PNode)} (hpv : PVpack grid W H sx sy gx gy nodes) :
    ∀ (G fuel : ℕ) (c : Cell), inBox W H c → (nodeAt nodes c).g = G →
      G < INF → G < fuel →
      ValidSteps (open8 grid W H) (sx, sy)
        (reconstructPath nodes sx sy fuel c.1 c.2).reverse ∧
      lastCell (sx, sy) (reconstructPath nodes sx sy fuel c.1 c.2).reverse = c ∧
      (reconstructPath nodes sx sy fuel c.1 c.2).length ≤ G ∧
      (sx, sy) ∉ reconstructPath nodes sx sy fuel c.1 c.2 := by
  intro G
  induction G using Nat.strong_induction_on with
  | _ G ih =>
    intro fuel c hc hG hINF hfuel
    cases fuel with
    | zero => omega
    | succ f =>
      by_cases hcs : c = (sx, sy)
      · have hcond : c.1 = sx ∧ c.2 = sy := by
          rw [hcs]
          exact ⟨rfl, rfl⟩
        have hLeq : reconstructPath nodes sx sy (f + 1) c.1 c.2 = [] := by
          rw [reconstructPath, if_pos hcond]
        rw [hLeq]
        refine ⟨trivial, ?_, Nat.zero_le _, List.not_mem_nil _⟩
        rw [hcs]
        rfl
      · have hcond : ¬ (c.1 = sx ∧ c.2 = sy) := by
          intro h
          exact hcs (Prod.ext_iff.mpr ⟨h.1, h.2⟩)
        obtain ⟨_, _, _, _, hop, hpB, hpAdj, hpG⟩ :=
          hpv.2 c hc hcs (by rw [hG]; exact hINF)
        have hLeq : reconstructPath nodes sx sy (f + 1) c.1 c.2 =
            c :: reconstructPath nodes sx sy f
              (parentCell (nodeAt nodes c)).1 (parentCell (nodeAt nodes c)).2 := by
          rw [reconstructPath, if_neg hcond]
          rfl
        set p := parentCell (nodeAt nodes c) with hpdef
        have hpg2 : (nodeAt nodes p).g < G := by
          rw [← hG]
          exact hpG
        obtain ⟨ihV, ihL, ihLen, ihS⟩ := ih (nodeAt nodes p).g hpg2 f p hpB rfl
          (lt_trans hpg2 hINF) (by omega)
        rw [hLeq]
        rw [show (c :: reconstructPath nodes sx sy f p.1 p.2).reverse =
          (reconstructPath nodes sx sy f p.1 p.2).reverse ++ [c] from by
            rw [List.reverse_cons]]
        refine ⟨?_, ?_, ?_, ?_⟩
        · rw [validSteps_append]
          refine ⟨ihV, ?_⟩
          rw [ihL]
          exact ⟨adj_symm hpAdj, hop, trivial⟩
        · rw [lastCell_append, ihL]
          rfl
        · rw [List.length_cons]
          have : (reconstructPath nodes sx sy f p.1 p.2).length ≤
            (nodeAt nodes p).g := ihLen
          omega
        · intro hmem
          rcases List.mem_cons.mp hmem with h | h
          · exact hcs h.symm
          · exact ihS h

/-- Combined behaviour of the shared computePath body: the empty path
exactly in the unreachable case, and otherwise a valid walk of exactly
the shortest length ending at the goal. -/
theorem astarCore_main {t gf : Bool} {nodes0 : List (List PNode)}
    {grid : List (List ℕ)} {W H sx sy gx gy : Int}
    (hd0 : WFDims nodes0 W H)
    (hv0 : ∀ c : Cell, inBox W H c →
      (nodeAt nodes0 c).g = INF ∧ (nodeAt nodes0 c).f = INF + INF)
    (hs : inBox W H (sx, sy)) (hg : inBox W H (gx, gy))
    (hsmall : W.toNat * H.toNat + W.toNat + H.toNat + 4 < INF) :
    ((∀ k, ¬ Reach (open8 grid W H) (sx, sy) (gx, gy) k) →
      astarCore t gf nodes0 grid W H sx sy gx gy = []) ∧
    (∀ d, MinReach (open8 grid W H) (sx, sy) (gx, gy) d →
      ValidSteps (open8 grid W H) (sx, sy)
        (astarCore t gf nodes0 grid W H sx sy gx gy) ∧
      lastCell (sx, sy) (astarCore t gf nodes0 grid W H sx sy gx gy) =
        (gx, gy) ∧
      (astarCore t gf nodes0 grid W H sx sy gx gy).length = d ∧
      (sx, sy) ∉ astarCore t gf nodes0 grid W H sx sy gx gy) := by
  have hmain := @searchLoop_main t gf grid W H sx sy gx gy
    hg hs hsmall (searchFuel W H) (astarInit nodes0 W H sx sy gx gy)
    (SInv_astarInit hd0 hv0 hs) (pot_astarInit hd0 hs)
  constructor
  · intro hunreach
    cases hres : (searchLoop t gf grid W H gx gy (searchFuel W H)
      (astarInit nodes0 W H sx sy gx gy)).1
    · exact astarCore_not_found hres
    · obtain ⟨d, hmr, _, _⟩ := hmain.1 hres
      exact absurd hmr.1 (hunreach d)
  · intro d hmr
    cases hres : (searchLoop t gf grid W H gx gy (searchFuel W H)
      (astarInit nodes0 W H sx sy gx gy)).1
    · exact absurd hmr.1 (hmain.2 hres d)
    · obtain ⟨d0, hmr0, hpv, hgoalg⟩ := hmain.1 hres
      have hd0 : d0 = d := minReach_unique hmr0 hmr
      subst hd0
      have hdarea : d0 < W.toNat * H.toNat :=
        minReach_lt_area (fun c hco => open8_inBox hco) hs hmr0
      obtain ⟨rV0, rL0, rLen0, rS0⟩ := recon_correct hpv d0
        (W.toNat * H.toNat + 2) (gx, gy) hg hgoalg (by omega) (by omega)
      have rV : ValidSteps (open8 grid W H) (sx, sy)
          (reconstructPath (searchLoop t gf grid W H gx gy (searchFuel W H)
            (astarInit nodes0 W H sx sy gx gy)).2.nodes sx sy
            (W.toNat * H.toNat + 2) gx gy).reverse := rV0
      have rL : lastCell (sx, sy)
          (reconstructPath (searchLoop t gf grid W H gx gy (searchFuel W H)
            (astarInit nodes0 W H sx sy gx gy)).2.nodes sx sy
            (W.toNat * H.toNat + 2) gx gy).reverse = (gx, gy) := rL0
      have rLen : (reconstructPath (searchLoop t gf grid W H gx gy
          (searchFuel W H) (astarInit nodes0 W H sx sy gx gy)).2.nodes sx sy
          (W.toNat * H.toNat + 2) gx gy).length ≤ d0 := rLen0
      have rS : (sx, sy) ∉ reconstructPath (searchLoop t gf grid W H gx gy
          (searchFuel W H) (astarInit nodes0 W H sx sy gx gy)).2.nodes sx sy
          (W.toNat * H.toNat + 2) gx gy := rS0
      have hfound := @astarCore_found t gf nodes0 grid W H sx sy gx gy hres
      rw [hfound]
      refine ⟨rV, rL, ?_, ?_⟩
      · rw [List.length_reverse]
        have hge : d0 ≤ (reconstructPath (searchLoop t gf grid W H gx gy
            (searchFuel W H) (astarInit nodes0 W H sx sy gx gy)).2.nodes
            sx sy (W.toNat * H.toNat + 2) gx gy).length := by
          refine minReach_le_of_reach hmr0 ⟨_, rV, ?_, rL⟩
          rw [List.length_reverse]
        omega
      · rw [List.mem_reverse]
        exact rS

theorem virgin_initNodes8 {W H : Int} (c : Cell) (hc : inBox W H c) :
    (nodeAt (initNodes8 W H) c).g = INF ∧
    (nodeAt (initNodes8 W H) c).f = INF + INF := by
  obtain ⟨h1, h2, h3, h4⟩ := hc
  have hAt : nodeAt (initNodes8 W H) c = PNode.dflt := by
    unfold nodeAt gridGet initNodes8
    rw [getD_replicate, if_pos (by omega), getD_replicate, if_pos (by omega)]
  rw [hAt]
  exact ⟨rfl, rfl⟩

theorem getD_map_range {β : Type} (f : ℕ → β) (d : β) (n i : ℕ) (h : i < n) :
    ((List.range n).map f).getD i d = f i := by
  rw [List.getD_eq_getElem?_getD, List.getElem?_map, List.getElem?_range h]
  rfl

theorem virgin_initNodes7 {W H : Int} (c : Cell) (hc : inBox W H c) :
    (nodeAt (initNodes7 W H) c).g = INF ∧
    (nodeAt (initNodes7 W H) c).f = INF + INF := by
  obtain ⟨h1, h2, h3, h4⟩ := hc
  have hAt : nodeAt (initNodes7 W H) c =
      mkNode (Int.ofNat c.1.toNat) (Int.ofNat c.2.toNat) INF INF (-1) (-1) := by
    unfold nodeAt gridGet initNodes7
    rw [getD_map_range _ _ _ _ (by omega : c.2.toNat < H.toNat),
      getD_map_range _ _ _ _ (by omega : c.1.toNat < W.toNat)]
  rw [hAt]
  exact ⟨rfl, rfl⟩

/-- Full behaviour of part_008's computePath. -/
theorem computePath8_main {grid : List (List ℕ)} {W H sx sy gx gy : Int}
    (hs : inBox W H (sx, sy)) (hg : inBox W H (gx, gy))
    (hsmall : W.toNat * H.toNat + W.toNat + H.toNat + 4 < INF) :
    ((∀ k, ¬ Reach (open8 grid W H) (sx, sy) (gx, gy) k) →
      computePath8 grid W H sx sy gx gy = []) ∧
    (∀ d, MinReach (open8 grid W H) (sx, sy) (gx, gy) d →
      ValidSteps (open8 grid W H) (sx, sy) (computePath8 grid W H sx sy gx gy) ∧
      lastCell (sx, sy) (computePath8 grid W H sx sy gx gy) = (gx, gy) ∧
      (computePath8 grid W H sx sy gx gy).length = d ∧
      (sx, sy) ∉ computePath8 grid W H sx sy gx gy) := by
  unfold computePath8
  exact astarCore_main (WFDims_initNodes8 W H) virgin_initNodes8 hs hg hsmall

/-- Full behaviour of part_007's computePath. -/
theorem computePath7_main {grid : List (List ℕ)} {W H sx sy gx gy : Int}
    (hs : inBox W H (sx, sy)) (hg : inBox W H (gx, gy))
    (hsmall : W.toNat * H.toNat + W.toNat + H.toNat + 4 < INF) :
    ((∀ k, ¬ Reach (open8 grid W H) (sx, sy) (gx, gy) k) →
      computePath7 grid W H sx sy gx gy = []) ∧
    (∀ d, MinReach (open8 grid W H) (sx, sy) (gx, gy) d →
      ValidSteps (open8 grid W H) (sx, sy) (computePath7 grid W H sx sy gx gy) ∧
      lastCell (sx, sy) (computePath7 grid W H sx sy gx gy) = (gx, gy) ∧
      (computePath7 grid W H sx sy gx gy).length = d ∧
      (sx, sy) ∉ computePath7 grid W H sx sy gx gy) := by
  unfold computePath7
  exact astarCore_main (WFDims_initNodes7 W H) virgin_initNodes7 hs hg hsmall

/-- Whatever the loop does, reconstructing from the start cell itself
yields the empty path, so both variants answer `[]` when start equals
goal — with no assumptions on the grid at all. -/
theorem astarCore_self (t gf : Bool) (nodes0 : List (List PNode))
    (grid : List (List ℕ)) (W H sx sy : Int) :
    astarCore t gf nodes0 grid W H sx sy sx sy = [] := by
  unfold astarCore
  simp only
  cases hres : (searchLoop t gf grid W H sx sy (searchFuel W H)
    (astarInit nodes0 W H sx sy sx sy)).1
  · rfl
  · rw [show W.toNat * H.toNat + 2 = (W.toNat * H.toNat + 1) + 1 from rfl,
      reconstructPath, if_pos (show sx = sx ∧ sy = sy from ⟨rfl, rfl⟩)]
    rfl

theorem computePath_self (grid : List (List ℕ)) (W H sx sy : Int) :
    computePath8 grid W H sx sy sx sy = [] ∧
    computePath7 grid W H sx sy sx sy = [] :=
  ⟨astarCore_self false true _ grid W H sx sy,
    astarCore_self true false _ grid W H sx sy⟩

theorem chainCells_eq_aux : ∀ (k : ℕ) (n : ANode), aDepth n = k →
    chainCells n = (n.x, n.y) :: ancCells n := by
  intro k
  induction k with
  | zero =>
    intro n hd
    cases n with
    | mk x y f g hv par =>
      cases par with
      | none => rfl
      | some p =>
        have : aDepth (ANode.mk x y f g hv (some p)) = aDepth p + 1 := rfl
        omega
  | succ k ih =>
    intro n hd
    cases n with
    | mk x y f g hv par =>
      cases par with
      | none =>
        have : aDepth (ANode.mk x y f g hv none) = 0 := rfl
        omega
      | some p =>
        have hdp : aDepth p = k := by
          have : aDepth (ANode.mk x y f g hv (some p)) = aDepth p + 1 := rfl
          omega
        show (x, y) :: chainCells p = (x, y) :: ((p.x, p.y) :: ancCells p)
        rw [ih p hdp]

theorem chainCells_eq (n : ANode) :
    chainCells n = (n.x, n.y) :: ancCells n :=
  chainCells_eq_aux (aDepth n) n rfl

theorem chainOK_hf {grid : List (List Bool)} {sx sy ex ey : Int} {n : ANode}
    (h : chainOK grid sx sy ex ey n) :
    n.f = n.g + manhattan (n.x, n.y) (ex, ey) := by
  cases n with
  | mk x y f g hv par =>
    cases par with
    | none =>
      obtain ⟨h1, h2, h3, h4, h5⟩ := h
      show f = g + manhattan (x, y) (ex, ey)
      rw [h5, h4, h1, h2]
    | some p =>
      obtain ⟨h1, h2, h3, h4, h5, h6⟩ := h
      show f = g + manhattan (x, y) (ex, ey)
      rw [h4, h3]

theorem chainOK_head {grid : List (List Bool)} {sx sy ex ey : Int} {n : ANode}
    (h : chainOK grid sx sy ex ey n) :
    ((n.x : Int), (n.y : Int)) = (sx, sy) ∨ openA grid (n.x, n.y) = true := by
  cases n with
  | mk x y f g hv par =>
    cases par with
    | none =>
      obtain ⟨h1, h2, _⟩ := h
      left
      show ((x : Int), (y : Int)) = (sx, sy)
      rw [h1, h2]
    | some p =>
      right
      exact h.1

theorem chainOK_facts {grid : List (List Bool)} {sx sy ex ey : Int} :
    ∀ (k : ℕ) (n : ANode), aDepth n = k → chainOK grid sx sy ex ey n →
      Reach (openA grid) (sx, sy) (n.x, n.y) n.g ∧
      (chainCells n).length = n.g + 1 ∧
      (∀ c ∈ chainCells n, c = (sx, sy) ∨ openA grid c = true) := by
  intro k
  induction k with
  | zero =>
    intro n hd hc
    cases n with
    | mk x y f g hv par =>
      cases par with
      | none =>
        obtain ⟨h1, h2, h3, h4, h5⟩ := hc
        subst h1
        subst h2
        refine ⟨?_, ?_, ?_⟩
        · show Reach (openA grid) (x, y) (x, y) g
          rw [show g = 0 from h3]
          exact reach_zero
        · show 1 = g + 1
          omega
        · intro c hcm
          rcases List.mem_cons.mp hcm with h | h
          · left; rw [h]
          · cases h
      | some p =>
        exact absurd hd (by
          show ¬ aDepth p + 1 = 0
          omega)
  | succ k ih =>
    intro n hd hc
    cases n with
    | mk x y f g hv par =>
      cases par with
      | none =>
        have : aDepth (ANode.mk x y f g hv none) = 0 := rfl
        omega
      | some p =>
        obtain ⟨h1, h2, h3, h4, h5, h6⟩ := hc
        have hdp : aDepth p = k := by
          have : aDepth (ANode.mk x y f g hv (some p)) = aDepth p + 1 := rfl
          omega
        obtain ⟨ihR, ihL, ihB⟩ := ih p hdp h6
        refine ⟨?_, ?_, ?_⟩
        · show Reach (openA grid) (sx, sy) (x, y) g
          rw [show g = p.g + 1 from h2]
          exact reach_step ihR (adj_symm h5) h1
        · show (chainCells p).length + 1 = g + 1
          omega
        · intro c hcm
          rcases List.mem_cons.mp hcm with h | h
          · right; rw [h]; exact h1
          · exact ihB c h

theorem chainOK_reach {grid : List (List Bool)} {sx sy ex ey : Int}
    {n : ANode} (h : chainOK grid sx sy ex ey n) :
    Reach (openA grid) (sx, sy) (n.x, n.y) n.g :=
  (chainOK_facts (aDepth n) n rfl h).1

theorem chainCells_length {grid : List (List Bool)} {sx sy ex ey : Int}
    {n : ANode} (h : chainOK grid sx sy ex ey n) :
    (chainCells n).length = n.g + 1 :=
  (chainOK_facts (aDepth n) n rfl h).2.1

theorem openA_inBox {grid : List (List Bool)} {c : Cell}
    (h : openA grid c = true) :
    inBox (grid.length : Int) ((grid.headD []).length : Int) c := by
  unfold openA at h
  rw [Bool.and_eq_true, decide_eq_true_iff] at h
  exact h.1

theorem openA_true_iff {grid : List (List Bool)} {c : Cell} :
    openA grid c = true ↔
      inBox (grid.length : Int) ((grid.headD []).length : Int) c ∧
      gridGet grid false c.1 c.2 = true := by
  unfold openA
  rw [Bool.and_eq_true, decide_eq_true_iff]
  unfold inBox
  exact Iff.rfl

theorem closedA_gridSet_self {closed : List (List Bool)} {RA CA : Int}
    (hd : WFDims closed CA RA) {w : Cell} (hw : inBox RA CA w) (v : Bool) :
    closedA (gridSet closed w.1 w.2 v) w = v :=
  gridGet_gridSet_self false hd hw.1 hw.2.1 hw.2.2.1 hw.2.2.2 v

theorem closedA_gridSet_other {closed : List (List Bool)} {RA CA : Int}
    {w c : Cell} (hw : inBox RA CA w) (hc : inBox RA CA c) (hne : c ≠ w)
    (v : Bool) : closedA (gridSet closed w.1 w.2 v) c = closedA closed c := by
  unfold closedA
  refine gridGet_gridSet_ne false closed ?_ v
  by_contra h
  push_neg at h
  refine hne (cell_eq_of_toNat (W := RA) (H := CA) hc hw ?_ ?_)
  · exact h.1.symm
  · exact h.2.symm

theorem list_set_true_noop : ∀ (r : List Bool) (i : ℕ),
    r.getD i false = true → r.set i true = r := by
  intro r
  induction r with
  | nil =>
    intro i h
    exact absurd h (by
      show ¬ ([] : List Bool).getD i false = true
      rw [List.getD_eq_getElem?_getD]
      simp)
  | cons a t ih =>
    intro i h
    cases i with
    | zero =>
      have ha : a = true := h
      rw [ha]
      rfl
    | succ j =>
      show a :: t.set j true = a :: t
      rw [ih j h]

theorem set_getD_self_eq {α : Type} :
    ∀ (l : List α) (i : ℕ) (d : α), l.set i (l.getD i d) = l := by
  intro l
  induction l with
  | nil => intro i d; rfl
  | cons a t ih =>
    intro i d
    cases i with
    | zero => rfl
    | succ j =>
      show a :: t.set j (t.getD j d) = a :: t
      rw [ih j d]

theorem gridSet_true_noop {closed : List (List Bool)} {yy xx : Int}
    (h : gridGet closed false yy xx = true) :
    gridSet closed yy xx true = closed := by
  unfold gridSet
  unfold gridGet at h
  rw [list_set_true_noop _ _ h]
  exact set_getD_self_eq closed yy.toNat []

theorem countTrue_gridSetA {closed : List (List Bool)} {RA CA : Int}
    (hd : WFDims closed CA RA) {c : Cell} (hc : inBox RA CA c)
    (hf : closedA closed c = false) :
    countTrue (gridSet closed c.1 c.2 true) = countTrue closed + 1 :=
  countTrue_gridSet (W := CA) (H := RA) hd (c := (c.2, c.1))
    ⟨hc.2.2.1, hc.2.2.2, hc.1, hc.2.1⟩ hf

theorem closedA_mono {closed : List (List Bool)} {RA CA : Int}
    (hd : WFDims closed CA RA) {w c : Cell} (hw : inBox RA CA w)
    (h : closedA closed c = true) :
    closedA (gridSet closed w.1 w.2 true) c = true := by
  by_cases hcw : c.1.toNat = w.1.toNat ∧ c.2.toNat = w.2.toNat
  · unfold closedA
    rw [gridGet_toNat_congr _ _ hcw.1 hcw.2]
    exact closedA_gridSet_self hd hw true
  · unfold closedA
    rw [gridGet_gridSet_ne false closed (by
      rcases not_and_or.mp hcw with h2 | h2
      · exact Or.inl (fun he => h2 he.symm)
      · exact Or.inr (fun he => h2 he.symm)) true]
    exact h

/-- The frontier certificate of `aStarSearch`. -/
theorem certA {grid : List (List Bool)} {sx sy ex ey : Int} {st : BState}
    (hinv : AInvM grid sx sy ex ey st) (hka : KAS grid sx sy st)
    (hinit : closedA st.closed (sx, sy) = false →
      st.heap = [ANode.mk sx sy (0 + manhattan (sx, sy) (ex, ey)) 0
        (manhattan (sx, sy) (ex, ey)) none])
    (hsA : inBox (grid.length : Int) ((grid.headD []).length : Int) (sx, sy)) :
    ∀ (dt : ℕ) (tc : Cell),
      inBox (grid.length : Int) ((grid.headD []).length : Int) tc →
      closedA st.closed tc = false →
      MinReach (openA grid) (sx, sy) tc dt →
      ∃ e ∈ st.heap, MinReach (openA grid) (sx, sy) (e.x, e.y) e.g ∧
        e.g + manhattan (e.x, e.y) tc ≤ dt := by
  intro dt
  induction dt using Nat.strong_induction_on with
  | _ dt ih =>
    intro tc htc htcu hmr
    by_cases hsc : closedA st.closed (sx, sy) = false
    · refine ⟨ANode.mk sx sy (0 + manhattan (sx, sy) (ex, ey)) 0
        (manhattan (sx, sy) (ex, ey)) none, ?_, ?_, ?_⟩
      · rw [hinit hsc]
        exact List.mem_singleton.mpr rfl
      · exact minReach_self _ _
      · show 0 + manhattan (sx, sy) tc ≤ dt
        have := reach_manhattan hmr.1
        omega
    · have hsc2 : closedA st.closed (sx, sy) = true := by
        cases h : closedA st.closed (sx, sy)
        · exact absurd h hsc
        · rfl
      cases dt with
      | zero =>
        have : (sx, sy) = tc := minReach_zero_eq hmr
        rw [this] at hsc2
        rw [hsc2] at htcu
        exact absurd htcu (by decide)
      | succ d =>
        obtain ⟨u, hmru, hadj, hopen⟩ := minReach_pred hmr
        have huB : inBox (grid.length : Int) ((grid.headD []).length : Int) u := by
          cases d with
          | zero =>
            have : (sx, sy) = u := minReach_zero_eq hmru
            rw [← this]
            exact hsA
          | succ d2 => exact openA_inBox (reach_pos_open hmru.1)
        by_cases huc : closedA st.closed u = true
        · obtain ⟨e, he, hcell, hge⟩ :=
            hka u tc huB htc huc htcu hadj hopen d hmru
          have hreach : Reach (openA grid) (sx, sy) tc e.g := by
            rw [← hcell]
            exact chainOK_reach (hinv.ent e he)
          have hdle : d + 1 ≤ e.g := minReach_le_of_reach hmr hreach
          have hegd : e.g = d + 1 := by omega
          refine ⟨e, he, ?_, ?_⟩
          · rw [hcell, hegd]
            exact hmr
          · rw [hcell, manhattan_self, hegd]
        · have huc2 : closedA st.closed u = false := by
            cases h : closedA st.closed u
            · rfl
            · exact absurd h huc
          obtain ⟨e, he, hme, hle⟩ := ih d (by omega) u huB huc2 hmru
          refine ⟨e, he, hme, ?_⟩
          have htr := manhattan_triangle (e.x, e.y) u tc
          unfold Adj at hadj
          omega

/-- Popping the minimum-`f` node of an unclosed cell reads off the true
shortest distance of that cell. -/
theorem popA_exact {grid : List (List Bool)} {sx sy ex ey : Int} {st : BState}
    (hinv : AInvM grid sx sy ex ey st) (hka : KAS grid sx sy st)
    (hinit : closedA st.closed (sx, sy) = false →
      st.heap = [ANode.mk sx sy (0 + manhattan (sx, sy) (ex, ey)) 0
        (manhattan (sx, sy) (ex, ey)) none])
    (hsA : inBox (grid.length : Int) ((grid.headD []).length : Int) (sx, sy))
    (hne : st.heap ≠ [])
    (hcu : closedA st.closed ((st.heap.headD aDflt).x,
      (st.heap.headD aDflt).y) = false) :
    MinReach (openA grid) (sx, sy)
      ((st.heap.headD aDflt).x, (st.heap.headD aDflt).y)
      (st.heap.headD aDflt).g := by
  set cur := st.heap.headD aDflt with hcur
  have hmem : cur ∈ st.heap := headD_mem _ hne
  have hcOK := hinv.ent cur hmem
  have hbox : inBox (grid.length : Int) ((grid.headD []).length : Int)
      (cur.x, cur.y) := by
    rcases chainOK_head hcOK with h | h
    · rw [h]
      exact hsA
    · exact openA_inBox h
  obtain ⟨du, hdule, hmru⟩ := reach_minReach (chainOK_reach hcOK)
  obtain ⟨e, he, hme, hle⟩ := certA hinv hka hinit hsA du (cur.x, cur.y)
    hbox hcu hmru
  have hmin : aKey cur ≤ aKey e :=
    isHeap_headD_le_mem aKey aDflt hinv.hp e he
  have hcf := chainOK_hf hcOK
  have hef := chainOK_hf (hinv.ent e he)
  have htr := manhattan_triangle (e.x, e.y) (cur.x, cur.y) (ex, ey)
  have hcurg_le : cur.g ≤ du := by
    unfold aKey at hmin
    omega
  have heq : cur.g = du := by omega
  rw [heq]
  exact hmru

/-- One push step of `aStarSearch` preserves the stable invariant,
leaves the closed set and existing entries alone, adds at most one entry
of cost `cur.g + 1`, and queues the target cell whenever it is open,
in bounds and unclosed. -/
theorem relaxA_maintain {grid : List (List Bool)} {rows cols sx sy ex ey : Int}
    {cur : ANode} {st : BState} {dxy : Int × Int}
    (hrows : rows = (grid.length : Int))
    (hcols : cols = ((grid.headD []).length : Int))
    (hinv : AInvM grid sx sy ex ey st)
    (hdxy : dxy.1.natAbs + dxy.2.natAbs = 1)
    (hcOK : chainOK grid sx sy ex ey cur)
    (hcAnc : ∀ c ∈ chainCells cur, closedA st.closed c = true)
    (hcNodup : (chainCells cur).Nodup) :
    AInvM grid sx sy ex ey (aRelax grid rows cols (ex, ey) cur st dxy) ∧
    (aRelax grid rows cols (ex, ey) cur st dxy).closed = st.closed ∧
    (∀ e ∈ st.heap, e ∈ (aRelax grid rows cols (ex, ey) cur st dxy).heap) ∧
    (∀ B : ℕ, heapSum (fun e => 5 ^ (B - e.g))
        (aRelax grid rows cols (ex, ey) cur st dxy).heap ≤
      heapSum (fun e => 5 ^ (B - e.g)) st.heap + 5 ^ (B - (cur.g + 1))) ∧
    (inBox rows cols (cur.x + dxy.1, cur.y + dxy.2) →
      openA grid (cur.x + dxy.1, cur.y + dxy.2) = true →
      closedA st.closed (cur.x + dxy.1, cur.y + dxy.2) = false →
      ∃ e ∈ (aRelax grid rows cols (ex, ey) cur st dxy).heap,
        ((e.x : Int), (e.y : Int)) = (cur.x + dxy.1, cur.y + dxy.2) ∧
        e.g = cur.g + 1) := by
  by_cases h1 : cur.x + dxy.1 < 0 ∨ cur.y + dxy.2 < 0 ∨
      cur.x + dxy.1 ≥ rows ∨ cur.y + dxy.2 ≥ cols ∨
      gridGet grid false (cur.x + dxy.1) (cur.y + dxy.2) = false ∨
      gridGet st.closed false (cur.x + dxy.1) (cur.y + dxy.2) = true
  · have heq : aRelax grid rows cols (ex, ey) cur st dxy = st := by
      simp only [aRelax]
      rw [if_pos h1]
    rw [heq]
    refine ⟨hinv, rfl, fun e he => he, fun B => Nat.le_add_right _ _, ?_⟩
    intro hwB hwO hwC
    exfalso
    obtain ⟨b1, b2, b3, b4⟩ := hwB
    rcases h1 with h | h | h | h | h | h
    · exact absurd b1 (by simp only at b1 ⊢; omega)
    · exact absurd b3 (by simp only at b3 ⊢; omega)
    · exact absurd b2 (by simp only at b2 ⊢; omega)
    · exact absurd b4 (by simp only at b4 ⊢; omega)
    · rw [(openA_true_iff.mp hwO).2] at h
      cases h
    · rw [show closedA st.closed (cur.x + dxy.1, cur.y + dxy.2) =
        gridGet st.closed false (cur.x + dxy.1) (cur.y + dxy.2) from rfl, h]
        at hwC
      cases hwC
  · push_neg at h1
    obtain ⟨e1, e2, e3, e4, e5, e6⟩ := h1
    have hwB : inBox rows cols (cur.x + dxy.1, cur.y + dxy.2) :=
      ⟨by omega, by omega, by omega, by omega⟩
    have hwO : openA grid (cur.x + dxy.1, cur.y + dxy.2) = true := by
      refine openA_true_iff.mpr ⟨?_, by
        cases h : gridGet grid false (cur.x + dxy.1) (cur.y + dxy.2)
        · exact absurd h e5
        · rfl⟩
      rw [← hrows, ← hcols]
      exact hwB
    have hwC : closedA st.closed (cur.x + dxy.1, cur.y + dxy.2) = false := by
      cases h : gridGet st.closed false (cur.x + dxy.1) (cur.y + dxy.2)
      · exact h
      · exact absurd h e6
    set nb : ANode := ANode.mk (cur.x + dxy.1) (cur.y + dxy.2)
      (cur.g + 1 + manhattan (cur.x + dxy.1, cur.y + dxy.2) (ex, ey))
      (cur.g + 1)
      (manhattan (cur.x + dxy.1, cur.y + dxy.2) (ex, ey))
      (some cur) with hnb
    have heq : aRelax grid rows cols (ex, ey) cur st dxy =
        { st with heap := heapPush aKey aDflt st.heap nb } := by
      simp only [aRelax]
      rw [if_neg (by push_neg; exact ⟨e1, e2, e3, e4, e5, e6⟩)]
    rw [heq]
    have hnbOK : chainOK grid sx sy ex ey nb := by
      show openA grid (cur.x + dxy.1, cur.y + dxy.2) = true ∧
        cur.g + 1 = cur.g + 1 ∧
        manhattan (cur.x + dxy.1, cur.y + dxy.2) (ex, ey) =
          manhattan (cur.x + dxy.1, cur.y + dxy.2) (ex, ey) ∧
        cur.g + 1 + manhattan (cur.x + dxy.1, cur.y + dxy.2) (ex, ey) =
          cur.g + 1 + manhattan (cur.x + dxy.1, cur.y + dxy.2) (ex, ey) ∧
        Adj (cur.x + dxy.1, cur.y + dxy.2) (cur.x, cur.y) ∧
        chainOK grid sx sy ex ey cur
      refine ⟨hwO, rfl, rfl, rfl, ?_, hcOK⟩
      show manhattan (cur.x + dxy.1, cur.y + dxy.2) (cur.x, cur.y) = 1
      unfold manhattan
      simp only
      omega
    have hchainnb : chainCells nb = (cur.x + dxy.1, cur.y + dxy.2) ::
        chainCells cur := rfl
    have hancnb : ancCells nb = (cur.x, cur.y) :: ancCells cur := rfl
    refine ⟨⟨isHeap_heapPush aKey aDflt hinv.hp nb, hinv.dimsC, ?_, ?_, ?_⟩,
      rfl, ?_, ?_, ?_⟩
    · intro e he
      rcases (mem_heapPush_iff aKey aDflt st.heap nb e).mp he with h | h
      · exact hinv.ent e h
      · rw [h]
        exact hnbOK
    · intro e he
      rcases (mem_heapPush_iff aKey aDflt st.heap nb e).mp he with h | h
      · exact hinv.entClosed e h
      · rw [h, hancnb]
        intro c hcmem
        rcases List.mem_cons.mp hcmem with h2 | h2
        · refine hcAnc c ?_
          rw [chainCells_eq, h2]
          exact List.mem_cons_self _ _
        · refine hcAnc c ?_
          rw [chainCells_eq]
          exact List.mem_cons_of_mem _ h2
    · intro e he
      rcases (mem_heapPush_iff aKey aDflt st.heap nb e).mp he with h | h
      · exact hinv.entNodup e h
      · rw [h, hchainnb]
        refine List.nodup_cons.mpr ⟨?_, hcNodup⟩
        intro hmem
        have := hcAnc _ hmem
        rw [this] at hwC
        cases hwC
    · intro e he
      exact (mem_heapPush_iff aKey aDflt st.heap nb e).mpr (Or.inl he)
    · intro B
      rw [heapSum_heapPush aKey (fun e => 5 ^ (B - e.g)) aDflt st.heap nb]
      rw [show (5 : ℕ) ^ (B - nb.g) = 5 ^ (B - (cur.g + 1)) from rfl]
    · intro _ _ _
      refine ⟨nb, (mem_heapPush_iff aKey aDflt st.heap nb nb).mpr
        (Or.inr rfl), rfl, rfl⟩

theorem aDirs_foldl (f : BState → Int × Int → BState) (st : BState) :
    aDirs.foldl f st = f (f (f (f st (0, 1)) (1, 0)) (0, -1)) (-1, 0) := rfl

/-- Expanding a popped node of `aStarSearch` over its four neighbours. -/
theorem expandA_maintain {grid : List (List Bool)} {rows cols sx sy ex ey : Int}
    {cur : ANode} {st : BState}
    (hrows : rows = (grid.length : Int))
    (hcols : cols = ((grid.headD []).length : Int))
    (hinv : AInvM grid sx sy ex ey st)
    (hcOK : chainOK grid sx sy ex ey cur)
    (hcAnc : ∀ c ∈ chainCells cur, closedA st.closed c = true)
    (hcNodup : (chainCells cur).Nodup) :
    AInvM grid sx sy ex ey
      (aDirs.foldl (aRelax grid rows cols (ex, ey) cur) st) ∧
    (aDirs.foldl (aRelax grid rows cols (ex, ey) cur) st).closed = st.closed ∧
    (∀ e ∈ st.heap,
      e ∈ (aDirs.foldl (aRelax grid rows cols (ex, ey) cur) st).heap) ∧
    (∀ B : ℕ, heapSum (fun e => 5 ^ (B - e.g))
        (aDirs.foldl (aRelax grid rows cols (ex, ey) cur) st).heap ≤
      heapSum (fun e => 5 ^ (B - e.g)) st.heap + 4 * 5 ^ (B - (cur.g + 1))) ∧
    (∀ c2 : Cell, inBox rows cols c2 → openA grid c2 = true →
      closedA st.closed c2 = false → Adj (cur.x, cur.y) c2 →
      ∃ e ∈ (aDirs.foldl (aRelax grid rows cols (ex, ey) cur) st).heap,
        ((e.x : Int), (e.y : Int)) = c2 ∧ e.g = cur.g + 1) := by
  set st1 := aRelax grid rows cols (ex, ey) cur st (0, 1) with hst1
  set st2 := aRelax grid rows cols (ex, ey) cur st1 (1, 0) with hst2
  set st3 := aRelax grid rows cols (ex, ey) cur st2 (0, -1) with hst3
  set st4 := aRelax grid rows cols (ex, ey) cur st3 (-1, 0) with hst4
  have hexp : aDirs.foldl (aRelax grid rows cols (ex, ey) cur) st = st4 :=
    aDirs_foldl (aRelax grid rows cols (ex, ey) cur) st
  obtain ⟨i1, e1, m1, s1, g1⟩ :=
    @relaxA_maintain grid rows cols sx sy ex ey cur st ((0 : Int), (1 : Int))
      hrows hcols hinv (by decide) hcOK hcAnc hcNodup
  obtain ⟨i2, e2, m2, s2, g2⟩ :=
    @relaxA_maintain grid rows cols sx sy ex ey cur st1 ((1 : Int), (0 : Int))
      hrows hcols i1 (by decide) hcOK (by rw [e1]; exact hcAnc) hcNodup
  obtain ⟨i3, e3, m3, s3, g3⟩ :=
    @relaxA_maintain grid rows cols sx sy ex ey cur st2 ((0 : Int), (-1 : Int))
      hrows hcols i2 (by decide) hcOK (by rw [e2, e1]; exact hcAnc) hcNodup
  obtain ⟨i4, e4, m4, s4, g4⟩ :=
    @relaxA_maintain grid rows cols sx sy ex ey cur st3 ((-1 : Int), (0 : Int))
      hrows hcols i3 (by decide) hcOK (by rw [e3, e2, e1]; exact hcAnc) hcNodup
  rw [hexp]
  refine ⟨i4, by rw [e4, e3, e2, e1], ?_, ?_, ?_⟩
  · intro e he
    exact m4 _ (m3 _ (m2 _ (m1 _ he)))
  · intro B
    have q1 : heapSum (fun e => 5 ^ (B - e.g)) st1.heap ≤
        heapSum (fun e => 5 ^ (B - e.g)) st.heap + 5 ^ (B - (cur.g + 1)) := s1 B
    have q2 : heapSum (fun e => 5 ^ (B - e.g)) st2.heap ≤
        heapSum (fun e => 5 ^ (B - e.g)) st1.heap + 5 ^ (B - (cur.g + 1)) := s2 B
    have q3 : heapSum (fun e => 5 ^ (B - e.g)) st3.heap ≤
        heapSum (fun e => 5 ^ (B - e.g)) st2.heap + 5 ^ (B - (cur.g + 1)) := s3 B
    have q4 : heapSum (fun e => 5 ^ (B - e.g)) st4.heap ≤
        heapSum (fun e => 5 ^ (B - e.g)) st3.heap + 5 ^ (B - (cur.g + 1)) := s4 B
    omega
  · intro c2 hcB hcO hcC hadj
    have hcase : (c2.1 = cur.x ∧ c2.2 = cur.y + 1) ∨
        (c2.1 = cur.x + 1 ∧ c2.2 = cur.y) ∨
        (c2.1 = cur.x ∧ c2.2 = cur.y - 1) ∨
        (c2.1 = cur.x - 1 ∧ c2.2 = cur.y) := by
      unfold Adj manhattan at hadj
      simp only at hadj
      omega
    rcases hcase with h | h | h | h
    · have hceq : c2 = ((cur.x + (0 : Int)), (cur.y + (1 : Int))) := by
        rw [Prod.ext_iff]
        exact ⟨by simp only; omega, by simp only; omega⟩
      rw [hceq] at hcB hcO hcC ⊢
      obtain ⟨e, he, hc, hg⟩ := g1 hcB hcO hcC
      exact ⟨e, m4 _ (m3 _ (m2 _ he)), hc, hg⟩
    · have hceq : c2 = ((cur.x + (1 : Int)), (cur.y + (0 : Int))) := by
        rw [Prod.ext_iff]
        exact ⟨by simp only; omega, by simp only; omega⟩
      rw [hceq] at hcB hcO hcC ⊢
      obtain ⟨e, he, hc, hg⟩ := g2 hcB hcO (by rw [e1]; exact hcC)
      exact ⟨e, m4 _ (m3 _ he), hc, hg⟩
    · have hceq : c2 = ((cur.x + (0 : Int)), (cur.y + (-1 : Int))) := by
        rw [Prod.ext_iff]
        exact ⟨by simp only; omega, by simp only; omega⟩
      rw [hceq] at hcB hcO hcC ⊢
      obtain ⟨e, he, hc, hg⟩ := g3 hcB hcO (by rw [e2, e1]; exact hcC)
      exact ⟨e, m4 _ he, hc, hg⟩
    · have hceq : c2 = ((cur.x + (-1 : Int)), (cur.y + (0 : Int))) := by
        rw [Prod.ext_iff]
        exact ⟨by simp only; omega, by simp only; omega⟩
      rw [hceq] at hcB hcO hcC ⊢
      obtain ⟨e, he, hc, hg⟩ := g4 hcB hcO (by rw [e3, e2, e1]; exact hcC)
      exact ⟨e, he, hc, hg⟩

/-- The main loop theorem of `aStarSearch`: from an invariant state with
sufficient fuel, a returned node carries a well-formed chain ending on
the goal at the exact shortest distance, and `none` means the goal is
unreachable. -/
theorem aLoop_main {grid : List (List Bool)} {sx sy ex ey : Int}
    (hsA : inBox (grid.length : Int) ((grid.headD []).length : Int) (sx, sy))
    (hgA : inBox (grid.length : Int) ((grid.headD []).length : Int) (ex, ey)) :
    ∀ (fuel : ℕ) (st : BState), AInv grid sx sy ex ey st →
      heapSum (fun e => 5 ^ (grid.length * (grid.headD []).length + 1 - e.g))
        st.heap ≤ fuel →
      (∀ n, (aLoop grid (grid.length : Int) ((grid.headD []).length : Int)
          ex ey fuel st).1 = some n →
        chainOK grid sx sy ex ey n ∧ ((n.x : Int), (n.y : Int)) = (ex, ey) ∧
        MinReach (openA grid) (sx, sy) (ex, ey) n.g) ∧
      ((aLoop grid (grid.length : Int) ((grid.headD []).length : Int)
          ex ey fuel st).1 = none →
        ∀ k, ¬ Reach (openA grid) (sx, sy) (ex, ey) k) := by
  intro fuel
  induction fuel with
  | zero =>
    intro st hinv hpot
    constructor
    · intro n hsome
      exact Option.noConfusion hsome
    · intro _ k hrk
      have hheap : st.heap = [] := by
        cases h : st.heap with
        | nil => rfl
        | cons a l =>
          exfalso
          rw [h] at hpot
          have h5 : 0 < 5 ^ (grid.length * (grid.headD []).length + 1 - a.g) :=
            pow_pos (by omega) _
          have : heapSum
              (fun e => 5 ^ (grid.length * (grid.headD []).length + 1 - e.g))
              (a :: l) =
              5 ^ (grid.length * (grid.headD []).length + 1 - a.g) +
              heapSum (fun e =>
                5 ^ (grid.length * (grid.headD []).length + 1 - e.g)) l := rfl
          omega
      obtain ⟨d, _, hmr⟩ := reach_minReach hrk
      obtain ⟨e, he, _, _⟩ := certA hinv.1 hinv.2.1 hinv.2.2.1 hsA d (ex, ey)
        hgA hinv.2.2.2 hmr
      rw [hheap] at he
      cases he
  | succ fuel ih =>
    intro st hinv hpot
    rw [aLoop]
    cases hheap : st.heap with
    | nil =>
      constructor
      · intro n hsome
        exact Option.noConfusion hsome
      · intro _ k hrk
        obtain ⟨d, _, hmr⟩ := reach_minReach hrk
        obtain ⟨e, he, _, _⟩ := certA hinv.1 hinv.2.1 hinv.2.2.1 hsA d (ex, ey)
          hgA hinv.2.2.2 hmr
        rw [hheap] at he
        cases he
    | cons a rest =>
      simp only
      set cur := (a :: rest).headD aDflt with hcurdef
      have hhead : st.heap.headD aDflt = cur := by rw [hheap]
      have hmem : cur ∈ st.heap := by
        rw [hheap]
        exact List.mem_cons_self a rest
      have hne : st.heap ≠ [] := by rw [hheap]; simp
      have hcOK := hinv.1.ent cur hmem
      have hcurB : inBox (grid.length : Int) ((grid.headD []).length : Int)
          (cur.x, cur.y) := by
        rcases chainOK_head hcOK with h | h
        · rw [h]; exact hsA
        · exact openA_inBox h
      have hcellsB : ∀ c ∈ chainCells cur,
          inBox (grid.length : Int) ((grid.headD []).length : Int) c := by
        intro c hc
        rcases (chainOK_facts (aDepth cur) cur rfl hcOK).2.2 c hc with h | h
        · rw [h]; exact hsA
        · exact openA_inBox h
      have hcg : cur.g + 1 ≤ grid.length * (grid.headD []).length := by
        have hlen := chainCells_length hcOK
        have := nodup_inBox_length (chainCells cur) (hinv.1.entNodup cur hmem)
          hcellsB
        rw [Int.toNat_natCast, Int.toNat_natCast] at this
        omega
      have hpow : (5 : ℕ) ^ (grid.length * (grid.headD []).length + 1 - cur.g) =
          5 ^ (grid.length * (grid.headD []).length + 1 - (cur.g + 1)) * 5 := by
        rw [show grid.length * (grid.headD []).length + 1 - cur.g =
          (grid.length * (grid.headD []).length + 1 - (cur.g + 1)) + 1
          from by omega, pow_succ]
      have hpop : heapSum
          (fun e => 5 ^ (grid.length * (grid.headD []).length + 1 - e.g))
          (heapPop aKey aDflt (a :: rest)) +
          5 ^ (grid.length * (grid.headD []).length + 1 - cur.g) =
          heapSum (fun e =>
            5 ^ (grid.length * (grid.headD []).length + 1 - e.g)) (a :: rest) :=
        heapSum_heapPop aKey _ aDflt (by simp)
      have hpot2 : heapSum
          (fun e => 5 ^ (grid.length * (grid.headD []).length + 1 - e.g))
          (a :: rest) ≤ fuel + 1 := by
        rw [← hheap]
        exact hpot
      have hpos : 0 < 5 ^ (grid.length * (grid.headD []).length + 1 -
          (cur.g + 1)) := pow_pos (by omega) _
      have hpopsub : ∀ e ∈ heapPop aKey aDflt (a :: rest), e ∈ st.heap := by
        intro e he
        rw [hheap]
        exact mem_heapPop_subset aKey aDflt he
      split_ifs with hgoal
      · obtain ⟨hgx, hgy⟩ := hgoal
        have hcu : closedA st.closed (cur.x, cur.y) = false := by
          rw [show ((cur.x : Int), (cur.y : Int)) = ((ex : Int), (ey : Int))
            from by rw [hgx, hgy]]
          exact hinv.2.2.2
        have hpe := popA_exact hinv.1 hinv.2.1 hinv.2.2.1 hsA hne
          (by rw [hhead]; exact hcu)
        rw [hhead] at hpe
        constructor
        · intro n2 hsome
          have hn : cur = n2 := Option.some.inj hsome
          rw [← hn]
          refine ⟨hcOK, by rw [hgx, hgy], ?_⟩
          rw [show ((ex : Int), (ey : Int)) = ((cur.x : Int), (cur.y : Int))
            from by rw [hgx, hgy]]
          exact hpe
        · intro hres
          exact hres.elim
      · have hng : ¬ (cur.x = ex ∧ cur.y = ey) := hgoal
        have hngc : ((cur.x : Int), (cur.y : Int)) ≠ ((ex : Int), (ey : Int)) := by
          intro h
          rw [Prod.mk.injEq] at h
          exact hng h
        have hinvP : AInvM grid sx sy ex ey
            (⟨gridSet st.closed cur.x cur.y true,
              heapPop aKey aDflt (a :: rest)⟩ : BState) := by
          refine ⟨?_, WFDims_gridSet hinv.1.dimsC _ _ _, ?_, ?_, ?_⟩
          · have := hinv.1.hp
            rw [hheap] at this
            exact isHeap_heapPop aKey aDflt this
          · intro e he
            exact hinv.1.ent e (hpopsub e he)
          · intro e he c hc
            exact closedA_mono hinv.1.dimsC hcurB
              (hinv.1.entClosed e (hpopsub e he) c hc)
          · intro e he
            exact hinv.1.entNodup e (hpopsub e he)
        have hcAnc2 : ∀ c ∈ chainCells cur,
            closedA (gridSet st.closed cur.x cur.y true) c = true := by
          intro c hc
          rw [chainCells_eq] at hc
          rcases List.mem_cons.mp hc with h | h
          · rw [h]
            exact closedA_gridSet_self hinv.1.dimsC hcurB true
          · exact closedA_mono hinv.1.dimsC hcurB
              (hinv.1.entClosed cur hmem c h)
        obtain ⟨i4, e4, m4, s4, g4⟩ := expandA_maintain rfl rfl hinvP hcOK
          hcAnc2 (hinv.1.entNodup cur hmem)
        have hinv3 : AInv grid sx sy ex ey
            (aDirs.foldl (aRelax grid (grid.length : Int)
              ((grid.headD []).length : Int) (ex, ey) cur)
              ⟨gridSet st.closed cur.x cur.y true,
                heapPop aKey aDflt (a :: rest)⟩) := by
          refine ⟨i4, ?_, ?_, ?_⟩
          · -- the boundary certificate after the expansion
            intro c c2 hc hc2 hclo hclo2 hadj hop dc hmrc
            rw [e4] at hclo hclo2
            have hc2ne : c2 ≠ (cur.x, cur.y) := by
              intro h
              rw [h, closedA_gridSet_self hinv.1.dimsC hcurB true] at hclo2
              cases hclo2
            have hc2st : closedA st.closed c2 = false := by
              rw [← closedA_gridSet_other hcurB hc2 hc2ne true]
              exact hclo2
            by_cases hcw : c = (cur.x, cur.y)
            · subst hcw
              cases hstale : closedA st.closed (cur.x, cur.y) with
              | false =>
                -- freshly closed: the expansion queued every eligible
                -- neighbour at the settled distance plus one
                obtain ⟨e, he, hcell, hge⟩ := g4 c2 hc2 hop hclo2 hadj
                refine ⟨e, he, hcell, ?_⟩
                have hpe := popA_exact hinv.1 hinv.2.1 hinv.2.2.1 hsA hne
                  (by rw [hhead]; exact hstale)
                rw [hhead] at hpe
                have : dc = cur.g := minReach_unique hmrc hpe
                omega
              | true =>
                -- the cell was closed before: the old certificate stands
                obtain ⟨e, he, hcell, hge⟩ :=
                  hinv.2.1 (cur.x, cur.y) c2 hc hc2 hstale hc2st hadj hop dc hmrc
                have hecur : e ≠ cur := by
                  intro h
                  rw [h] at hcell
                  exact hc2ne hcell.symm
                refine ⟨e, ?_, hcell, hge⟩
                refine m4 e ?_
                rw [hheap] at he
                exact mem_heapPop_of_ne aKey aDflt he hecur
            · have hcst : closedA st.closed c = true := by
                rw [← closedA_gridSet_other hcurB hc hcw true]
                exact hclo
              obtain ⟨e, he, hcell, hge⟩ :=
                hinv.2.1 c c2 hc hc2 hcst hc2st hadj hop dc hmrc
              have hecur : e ≠ cur := by
                intro h
                rw [h] at hcell
                exact hc2ne hcell.symm
              refine ⟨e, ?_, hcell, hge⟩
              refine m4 e ?_
              rw [hheap] at he
              exact mem_heapPop_of_ne aKey aDflt he hecur
          · -- pristine-start characterisation, now vacuous
            intro hfalse
            exfalso
            rw [e4] at hfalse
            by_cases hsc : closedA st.closed (sx, sy) = false
            · have hlist := hinv.2.2.1 hsc
              rw [hheap] at hlist
              have ha : a = ANode.mk sx sy (0 + manhattan (sx, sy) (ex, ey)) 0
                  (manhattan (sx, sy) (ex, ey)) none := by
                have := List.head_eq_of_cons_eq hlist.symm
                exact this.symm
              have hcells : ((cur.x : Int), (cur.y : Int)) =
                  ((sx : Int), (sy : Int)) := by
                rw [show cur = a from rfl, ha]
                rfl
              rw [show ((sx : Int), (sy : Int)) = ((cur.x : Int), (cur.y : Int))
                from hcells.symm,
                closedA_gridSet_self hinv.1.dimsC hcurB true] at hfalse
              cases hfalse
            · have hsc2 : closedA st.closed (sx, sy) = true := by
                cases h : closedA st.closed (sx, sy)
                · exact absurd h hsc
                · rfl
              rw [closedA_mono hinv.1.dimsC hcurB hsc2] at hfalse
              cases hfalse
          · rw [e4]
            rw [closedA_gridSet_other hcurB hgA (fun h => hngc h.symm) true]
            exact hinv.2.2.2
        have hpot3 : heapSum
            (fun e => 5 ^ (grid.length * (grid.headD []).length + 1 - e.g))
            (aDirs.foldl (aRelax grid (grid.length : Int)
              ((grid.headD []).length : Int) (ex, ey) cur)
              ⟨gridSet st.closed cur.x cur.y true,
                heapPop aKey aDflt (a :: rest)⟩).heap ≤ fuel := by
          have hq := s4 (grid.length * (grid.headD []).length + 1)
          have hbase : heapSum
              (fun e => 5 ^ (grid.length * (grid.headD []).length + 1 - e.g))
              ((⟨gridSet st.closed cur.x cur.y true,
                heapPop aKey aDflt (a :: rest)⟩ : BState)).heap =
              heapSum
                (fun e => 5 ^ (grid.length * (grid.headD []).length + 1 - e.g))
                (heapPop aKey aDflt (a :: rest)) := rfl
          rw [hbase] at hq
          omega
        exact ih _ hinv3 hpot3

/-- The invariant holds at the state `aStarSearch` enters its loop with. -/
theorem AInv_init {grid : List (List Bool)} {sx sy ex ey : Int}
    (hsA : inBox (grid.length : Int) ((grid.headD []).length : Int) (sx, sy)) :
    AInv grid sx sy ex ey
      ⟨List.replicate (grid.length : Int).toNat
        (List.replicate ((grid.headD []).length : Int).toNat false),
       heapPush aKey aDflt []
        (ANode.mk sx sy (0 + manhattan (sx, sy) (ex, ey)) 0
          (manhattan (sx, sy) (ex, ey)) none)⟩ := by
  have hcl : ∀ c : Cell, closedA
      (List.replicate (grid.length : Int).toNat
        (List.replicate ((grid.headD []).length : Int).toNat false)) c =
      false := by
    intro c
    exact gridGet_initClosed ((grid.headD []).length : Int)
      (grid.length : Int) c.1 c.2
  have hheap : heapPush aKey aDflt []
      (ANode.mk sx sy (0 + manhattan (sx, sy) (ex, ey)) 0
        (manhattan (sx, sy) (ex, ey)) none) =
      [ANode.mk sx sy (0 + manhattan (sx, sy) (ex, ey)) 0
        (manhattan (sx, sy) (ex, ey)) none] := heapPush_nil aKey aDflt _
  refine ⟨⟨?_, ?_, ?_, ?_, ?_⟩, ?_, ?_, hcl (ex, ey)⟩
  · rw [show (⟨List.replicate (grid.length : Int).toNat
      (List.replicate ((grid.headD []).length : Int).toNat false),
      heapPush aKey aDflt [] (ANode.mk sx sy
        (0 + manhattan (sx, sy) (ex, ey)) 0
        (manhattan (sx, sy) (ex, ey)) none)⟩ : BState).heap =
      heapPush aKey aDflt [] (ANode.mk sx sy
        (0 + manhattan (sx, sy) (ex, ey)) 0
        (manhattan (sx, sy) (ex, ey)) none) from rfl, hheap]
    exact isHeap_singleton aKey aDflt _
  · exact WFDims_initClosed ((grid.headD []).length : Int) (grid.length : Int)
  · intro e he
    rw [show (⟨List.replicate (grid.length : Int).toNat
      (List.replicate ((grid.headD []).length : Int).toNat false),
      heapPush aKey aDflt [] (ANode.mk sx sy
        (0 + manhattan (sx, sy) (ex, ey)) 0
        (manhattan (sx, sy) (ex, ey)) none)⟩ : BState).heap =
      heapPush aKey aDflt [] (ANode.mk sx sy
        (0 + manhattan (sx, sy) (ex, ey)) 0
        (manhattan (sx, sy) (ex, ey)) none) from rfl, hheap,
      List.mem_singleton] at he
    rw [he]
    exact ⟨rfl, rfl, rfl, rfl, rfl⟩
  · intro e he
    rw [show (⟨List.replicate (grid.length : Int).toNat
      (List.replicate ((grid.headD []).length : Int).toNat false),
      heapPush aKey aDflt [] (ANode.mk sx sy
        (0 + manhattan (sx, sy) (ex, ey)) 0
        (manhattan (sx, sy) (ex, ey)) none)⟩ : BState).heap =
      heapPush aKey aDflt [] (ANode.mk sx sy
        (0 + manhattan (sx, sy) (ex, ey)) 0
        (manhattan (sx, sy) (ex, ey)) none) from rfl, hheap,
      List.mem_singleton] at he
    rw [he]
    intro c hc
    cases hc
  · intro e he
    rw [show (⟨List.replicate (grid.length : Int).toNat
      (List.replicate ((grid.headD []).length : Int).toNat false),
      heapPush aKey aDflt [] (ANode.mk sx sy
        (0 + manhattan (sx, sy) (ex, ey)) 0
        (manhattan (sx, sy) (ex, ey)) none)⟩ : BState).heap =
      heapPush aKey aDflt [] (ANode.mk sx sy
        (0 + manhattan (sx, sy) (ex, ey)) 0
        (manhattan (sx, sy) (ex, ey)) none) from rfl, hheap,
      List.mem_singleton] at he
    rw [he]
    exact List.nodup_singleton _
  · intro c c2 _ _ hclo _ _ _
    rw [hcl c] at hclo
    cases hclo
  · intro _
    exact hheap

/-- Full behaviour of the free `aStarSearch` of part_007: the empty list
exactly in the unreachable case, and otherwise a path of the shortest
length **plus one** — the reconstruction includes the start cell. -/
theorem aStarSearch_main {grid : List (List Bool)} {sx sy ex ey : Int}
    (hsA : inBox (grid.length : Int) ((grid.headD []).length : Int) (sx, sy))
    (hgA : inBox (grid.length : Int) ((grid.headD []).length : Int) (ex, ey)) :
    ((∀ k, ¬ Reach (openA grid) (sx, sy) (ex, ey) k) →
      aStarSearch grid sx sy ex ey = []) ∧
    (∀ d, MinReach (openA grid) (sx, sy) (ex, ey) d →
      (aStarSearch grid sx sy ex ey).length = d + 1) := by
  have hglen : ¬ ((grid.length : Int) = 0) := by
    obtain ⟨h1, h2, _, _⟩ := hsA
    simp only at h1 h2
    omega
  have hpot0 : heapSum
      (fun e => 5 ^ (grid.length * (grid.headD []).length + 1 - e.g))
      [ANode.mk sx sy (0 + manhattan (sx, sy) (ex, ey)) 0
        (manhattan (sx, sy) (ex, ey)) none] ≤ aFuel grid := by
    show 5 ^ (grid.length * (grid.headD []).length + 1 - 0) + 0 ≤ aFuel grid
    rw [Nat.sub_zero]
    unfold aFuel
    omega
  have hmain := aLoop_main hsA hgA (aFuel grid)
    ⟨List.replicate (grid.length : Int).toNat
      (List.replicate ((grid.headD []).length : Int).toNat false),
     heapPush aKey aDflt []
      (ANode.mk sx sy (0 + manhattan (sx, sy) (ex, ey)) 0
        (manhattan (sx, sy) (ex, ey)) none)⟩
    (AInv_init hsA)
    (by
      rw [show (⟨List.replicate (grid.length : Int).toNat
        (List.replicate ((grid.headD []).length : Int).toNat false),
        heapPush aKey aDflt [] (ANode.mk sx sy
          (0 + manhattan (sx, sy) (ex, ey)) 0
          (manhattan (sx, sy) (ex, ey)) none)⟩ : BState).heap =
        heapPush aKey aDflt [] (ANode.mk sx sy
          (0 + manhattan (sx, sy) (ex, ey)) 0
          (manhattan (sx, sy) (ex, ey)) none) from rfl,
        heapPush_nil aKey aDflt _]
      exact hpot0)
  unfold aStarSearch
  rw [if_neg hglen]
  simp only
  cases hres : (aLoop grid (grid.length : Int) ((grid.headD []).length : Int)
      ex ey (aFuel grid)
      ⟨List.replicate (grid.length : Int).toNat
        (List.replicate ((grid.headD []).length : Int).toNat false),
       heapPush aKey aDflt []
        (ANode.mk sx sy (0 + manhattan (sx, sy) (ex, ey)) 0
          (manhattan (sx, sy) (ex, ey)) none)⟩).1 with
  | none =>
    constructor
    · intro _
      rfl
    · intro d hmr
      exact absurd hmr.1 (hmain.2 hres d)
  | some n =>
    obtain ⟨hOK, hcells, hmr0⟩ := hmain.1 n hres
    constructor
    · intro hunreach
      exact absurd hmr0.1 (hunreach n.g)
    · intro d hmr
      rw [List.length_reverse, chainCells_length hOK,
        minReach_unique hmr0 hmr]

/-- With start equal to goal, the very first pop of `aStarSearch` passes
the goal test and the reconstruction returns the singleton holding the
start cell — never the empty path. -/
theorem aStarSearch_self {grid : List (List Bool)} (h : grid ≠ [])
    (sx sy : Int) : aStarSearch grid sx sy sx sy = [(sx, sy)] := by
  have hglen : ¬ ((grid.length : Int) = 0) := by
    intro h2
    refine h (List.length_eq_zero.mp ?_)
    exact_mod_cast h2
  obtain ⟨k, hk⟩ : ∃ k, aFuel grid = k + 1 :=
    ⟨aFuel grid - 1, by
      have : 0 < aFuel grid := pow_pos (by omega) _
      omega⟩
  unfold aStarSearch
  rw [if_neg hglen]
  simp only
  rw [heapPush_nil aKey aDflt _, hk, aLoop]
  simp only
  rw [if_pos (show ([ANode.mk sx sy (0 + manhattan (sx, sy) (sx, sy)) 0
    (manhattan (sx, sy) (sx, sy)) none].headD aDflt).x = sx ∧
    ([ANode.mk sx sy (0 + manhattan (sx, sy) (sx, sy)) 0
      (manhattan (sx, sy) (sx, sy)) none].headD aDflt).y = sy
    from ⟨rfl, rfl⟩)]
  rfl

/-- C1 counterexample: on the 2-by-1 all-walkable grid the reference BFS
distance from (0,0) to (1,0) is 1, but `aStarSearch` returns a path of
length 2 — its reconstruction includes the start cell, so the returned
length never equals the shortest distance. -/
theorem claim_C1_counterexample :
    bfsDist (openA [[true], [true]]) 2 (0, 0) (1, 0) = some 1 ∧
    (aStarSearch [[true], [true]] 0 0 1 0).length = 2 := by
  constructor
  · decide
  · decide

/-- C1 as amended: whenever the reference BFS reports distance `d`, both
computePath variants return a path of length exactly `d` (non-empty as
soon as `d` is positive), while the free `aStarSearch` returns a path of
length `d + 1`, because it includes the start cell. -/
theorem claim_C1_amended :
    (∀ (grid : List (List ℕ)) (W H sx sy gx gy : Int) (d : ℕ),
      inBox W H (sx, sy) →
      W.toNat * H.toNat + W.toNat + H.toNat + 4 < INF →
      bfsDist (open8 grid W H) (W.toNat * H.toNat) (sx, sy) (gx, gy) =
        some d →
      (computePath8 grid W H sx sy gx gy).length = d ∧
      (computePath7 grid W H sx sy gx gy).length = d ∧
      (0 < d → computePath8 grid W H sx sy gx gy ≠ [] ∧
        computePath7 grid W H sx sy gx gy ≠ [])) ∧
    (∀ (grid : List (List Bool)) (sx sy ex ey : Int) (d : ℕ),
      inBox (grid.length : Int) ((grid.headD []).length : Int) (sx, sy) →
      inBox (grid.length : Int) ((grid.headD []).length : Int) (ex, ey) →
      bfsDist (openA grid) (grid.length * (grid.headD []).length)
        (sx, sy) (ex, ey) = some d →
      (aStarSearch grid sx sy ex ey).length = d + 1) := by
  constructor
  · intro grid W H sx sy gx gy d hs hsmall hd
    have hmr : MinReach (open8 grid W H) (sx, sy) (gx, gy) d :=
      (bfsDist_some_iff (fun c hc => open8_inBox hc) hs (by omega)).mp hd
    have hg : inBox W H (gx, gy) := by
      cases d with
      | zero =>
        rw [← minReach_zero_eq hmr]
        exact hs
      | succ d2 => exact open8_inBox (reach_pos_open hmr.1)
    obtain ⟨_, _, hlen8, _⟩ := (computePath8_main hs hg hsmall).2 d hmr
    obtain ⟨_, _, hlen7, _⟩ := (computePath7_main hs hg hsmall).2 d hmr
    refine ⟨hlen8, hlen7, ?_⟩
    intro hdpos
    constructor
    · intro hnil
      rw [hnil] at hlen8
      simp at hlen8
      omega
    · intro hnil
      rw [hnil] at hlen7
      simp at hlen7
      omega
  · intro grid sx sy ex ey d hsA hgA hd
    have harea : (grid.length : Int).toNat *
        ((grid.headD []).length : Int).toNat ≤
        grid.length * (grid.headD []).length + 1 := by
      rw [Int.toNat_natCast, Int.toNat_natCast]
      omega
    have hmr : MinReach (openA grid) (sx, sy) (ex, ey) d :=
      (bfsDist_some_iff (fun c hc => openA_inBox hc) hsA harea).mp hd
    exact (aStarSearch_main hsA hgA).2 d hmr

theorem claim_C1_amended_witness :
    inBox 2 2 ((0 : Int), (0 : Int)) ∧
    bfsDist (open8 [[0, 0], [0, 0]] 2 2) 4 (0, 0) (1, 1) = some 2 ∧
    (computePath8 [[0, 0], [0, 0]] 2 2 0 0 1 1).length = 2 :=
  ⟨by decide, by decide,
    (claim_C1_amended.1 [[0, 0], [0, 0]] 2 2 0 0 1 1 2 (by decide) (by decide)
      (by decide)).1⟩

/-- C2: every non-empty result of either computePath variant is a valid
walk: consecutive cells are 4-adjacent, every cell is walkable and
inside the grid, the first cell is adjacent to the start, the last cell
is the goal, and the start cell itself never appears. -/
theorem claim_C2 :
    ∀ (grid : List (List ℕ)) (W H sx sy gx gy : Int),
      inBox W H (sx, sy) →
      W.toNat * H.toNat + W.toNat + H.toNat + 4 < INF →
      ∀ p, (p = computePath8 grid W H sx sy gx gy ∨
           p = computePath7 grid W H sx sy gx gy) → p ≠ [] →
        ValidSteps (open8 grid W H) (sx, sy) p ∧
        (∀ c ∈ p, open8 grid W H c = true) ∧
        lastCell (sx, sy) p = (gx, gy) ∧ (sx, sy) ∉ p := by
  intro grid W H sx sy gx gy hs hsmall p hp hne
  by_cases hg : inBox W H (gx, gy)
  · by_cases hreach : ∀ k, ¬ Reach (open8 grid W H) (sx, sy) (gx, gy) k
    · exfalso
      rcases hp with h | h
      · rw [(computePath8_main hs hg hsmall).1 hreach] at h
        exact hne h
      · rw [(computePath7_main hs hg hsmall).1 hreach] at h
        exact hne h
    · push_neg at hreach
      obtain ⟨k, hrk⟩ := hreach
      obtain ⟨d, _, hmr⟩ := reach_minReach hrk
      rcases hp with h | h
      · obtain ⟨hV, hL, _, hS⟩ := (computePath8_main hs hg hsmall).2 d hmr
        rw [h]
        exact ⟨hV, validSteps_open_mem hV, hL, hS⟩
      · obtain ⟨hV, hL, _, hS⟩ := (computePath7_main hs hg hsmall).2 d hmr
        rw [h]
        exact ⟨hV, validSteps_open_mem hV, hL, hS⟩
  · exfalso
    rcases hp with h | h
    · rw [(computePath_oob hs hg).1] at h
      exact hne h
    · rw [(computePath_oob hs hg).2] at h
      exact hne h

theorem claim_C2_witness :
    inBox 2 1 ((0 : Int), (0 : Int)) ∧
    ValidSteps (open8 [[0, 0]] 2 1) (0, 0) (computePath8 [[0, 0]] 2 1 0 0 1 0) :=
  ⟨by decide,
    (claim_C2 [[0, 0]] 2 1 0 0 1 0 (by decide) (by decide) _ (Or.inl rfl)
      (by decide)).1⟩

/-- C3 counterexample: with start equal to goal on the walkable 1-by-1
grid, `aStarSearch` returns the singleton path holding the start cell,
not the empty sequence the specification promises. -/
theorem claim_C3_counterexample :
    aStarSearch [[true]] 0 0 0 0 = [(0, 0)] ∧
    aStarSearch [[true]] 0 0 0 0 ≠ [] := by
  constructor
  · decide
  · decide

/-- C3 as amended: with start equal to goal, both computePath variants
do return the empty path, but `aStarSearch` returns the one-cell path
holding the start (whenever the grid is non-empty); all three return the
empty path when the reference BFS reports the goal unreachable. -/
theorem claim_C3_amended :
    (∀ (grid : List (List ℕ)) (W H sx sy : Int),
      computePath8 grid W H sx sy sx sy = [] ∧
      computePath7 grid W H sx sy sx sy = []) ∧
    (∀ (grid : List (List Bool)) (sx sy : Int), grid ≠ [] →
      aStarSearch grid sx sy sx sy = [(sx, sy)]) ∧
    (∀ (grid : List (List ℕ)) (W H sx sy gx gy : Int),
      inBox W H (sx, sy) →
      W.toNat * H.toNat + W.toNat + H.toNat + 4 < INF →
      bfsDist (open8 grid W H) (W.toNat * H.toNat) (sx, sy) (gx, gy) = none →
      computePath8 grid W H sx sy gx gy = [] ∧
      computePath7 grid W H sx sy gx gy = []) ∧
    (∀ (grid : List (List Bool)) (sx sy ex ey : Int),
      inBox (grid.length : Int) ((grid.headD []).length : Int) (sx, sy) →
      inBox (grid.length : Int) ((grid.headD []).length : Int) (ex, ey) →
      bfsDist (openA grid) (grid.length * (grid.headD []).length)
        (sx, sy) (ex, ey) = none →
      aStarSearch grid sx sy ex ey = []) := by
  refine ⟨computePath_self, ?_, ?_, ?_⟩
  · intro grid sx sy h
    exact aStarSearch_self h sx sy
  · intro grid W H sx sy gx gy hs hsmall hd
    by_cases hg : inBox W H (gx, gy)
    · have hun : ∀ k, ¬ Reach (open8 grid W H) (sx, sy) (gx, gy) k :=
        (bfsDist_none_iff (fun c hc => open8_inBox hc) hs (by omega)).mp hd
      exact ⟨(computePath8_main hs hg hsmall).1 hun,
        (computePath7_main hs hg hsmall).1 hun⟩
    · exact computePath_oob hs hg
  · intro grid sx sy ex ey hsA hgA hd
    have harea : (grid.length : Int).toNat *
        ((grid.headD []).length : Int).toNat ≤
        grid.length * (grid.headD []).length + 1 := by
      rw [Int.toNat_natCast, Int.toNat_natCast]
      omega
    have hun : ∀ k, ¬ Reach (openA grid) (sx, sy) (ex, ey) k :=
      (bfsDist_none_iff (fun c hc => openA_inBox hc) hsA harea).mp hd
    exact (aStarSearch_main hsA hgA).1 hun

/-- C4 counterexample: on the fully open 4-by-4 grid from (0,0) to
(3,3), both source searches return a different path than the spec's
stable search that breaks equal-`f` ties by discovery order — so the
binary heap does not expand the first-discovered entry first among
equal-priority entries. -/
theorem claim_C4_counterexample :
    computePath8 (List.replicate 4 (List.replicate 4 0)) 4 4 0 0 3 3 =
      [(0, 1), (0, 2), (1, 2), (1, 3), (2, 3), (3, 3)] ∧
    computePath8Stable (List.replicate 4 (List.replicate 4 0)) 4 4 0 0 3 3 =
      [(0, 1), (0, 2), (0, 3), (1, 3), (2, 3), (3, 3)] ∧
    computePath7 (List.replicate 4 (List.replicate 4 0)) 4 4 0 0 3 3 ≠
      computePath7Stable (List.replicate 4 (List.replicate 4 0)) 4 4 0 0 3 3 := by
  refine ⟨by decide, by decide, by decide⟩

/-- C4 as amended: the open set is a binary heap ordered by `f` alone,
so the expanded entry (the heap root) always carries a minimal `f`
among all open entries, and the heap ordering is maintained by every
push and pop; ties between equal-`f` entries follow the heap layout,
not discovery order (see the counterexample). -/
theorem claim_C4_amended :
    (∀ (l : List PNode) (e : PNode), IsHeap nodeKey PNode.dflt l → e ∈ l →
      nodeKey (l.headD PNode.dflt) ≤ nodeKey e) ∧
    (∀ (l : List PNode) (v : PNode), IsHeap nodeKey PNode.dflt l →
      IsHeap nodeKey PNode.dflt (heapPush nodeKey PNode.dflt l v)) ∧
    (∀ (l : List PNode), IsHeap nodeKey PNode.dflt l →
      IsHeap nodeKey PNode.dflt (heapPop nodeKey PNode.dflt l)) :=
  ⟨fun _ e hh he => isHeap_headD_le_mem nodeKey PNode.dflt hh e he,
   fun _ v hh => isHeap_heapPush nodeKey PNode.dflt hh v,
   fun _ hh => isHeap_heapPop nodeKey PNode.dflt hh⟩

theorem claim_C4_amended_witness :
    IsHeap nodeKey PNode.dflt [mkNode 0 0 0 1 (-1) (-1), mkNode 1 0 1 2 0 0] ∧
    nodeKey ([mkNode 0 0 0 1 (-1) (-1),
      mkNode 1 0 1 2 0 0].headD PNode.dflt) ≤ nodeKey (mkNode 1 0 1 2 0 0) := by
  have hh : IsHeap nodeKey PNode.dflt
      [mkNode 0 0 0 1 (-1) (-1), mkNode 1 0 1 2 0 0] := by
    intro i h1 h2
    simp only [List.length_cons, List.length_nil] at h2
    interval_cases i
    · decide
  exact ⟨hh, claim_C4_amended.1 _ _ hh (by decide)⟩

theorem claim_C3_amended_witness :
    ([[true]] : List (List Bool)) ≠ [] ∧
    aStarSearch [[true]] 3 7 3 7 = [(3, 7)] ∧
    computePath8 [[0, 1], [1, 0]] 2 2 0 0 1 1 = [] :=
  ⟨by decide, claim_C3_amended.2.1 [[true]] 3 7 (by decide),
    (claim_C3_amended.2.2.1 [[0, 1], [1, 0]] 2 2 0 0 1 1 (by decide)
      (by decide) (by decide)).1⟩

end Spec2Proof
